import Mathlib

/-!
# Square QAM mapper / demapper (`lib/qam.hh`)

A shallow embedding of the four specialisations
`QuadratureAmplitudeModulation<16|64|256|1024, TYPE, CODE>`.

* `complex_type` is a pair of `value_type`s.
* A `code_type *` argument is modelled by a buffer `ℤ → ℚ`: the slot `b[i]` of the
  source is `b i`, and a store `b[i] = v` is `Function.update b i v`.  Stores are
  applied in the order in which the source performs them.
* The template parameter `CODE` is modelled by `CodeKind`: a floating-point type or a
  signed integral type of 8, 16, 32 or 64 bits.  `CodeKind` records the two type traits
  the source inspects (`std::is_integral`, `std::is_same<_, int8_t>`) and the width that
  the conversion `value_type → code_type` at the end of `quantize` reduces to.  The value
  of a code is kept as the rational number it denotes.
* `value_type` is modelled twice.
  - In the namespaces `Q16`, `Q64`, `Q256`, `Q1024` every value is a rational number and
    every operation of the source is carried out exactly: this is the source read in
    exact arithmetic.  Every property that is stated for `hard`, `soft`, `map`,
    `quantize` outside the namespace `Rounded` is a property of the source in exact
    arithmetic.
  - In the namespace `Rounded` the same functions take a rounding function `fl`, which
    is applied to the result of each floating-point operation of the source.  With
    `fl = id` they are the exact functions; with `fl = roundDouble` every operation is
    rounded as IEEE-754 binary64 rounds it (`value_type = double`).  Properties that hold
    in exact arithmetic and fail for `double` are refuted in this model.
-/

namespace QAM

/-- The pair `(real, imag)` of `value_type`s. -/
structure complex_type where
  real : ℚ
  imag : ℚ
deriving DecidableEq

/-- The product `value_type * complex_type` used by `map`. -/
def complex_type.scale (a : ℚ) (z : complex_type) : complex_type :=
  ⟨a * z.real, a * z.imag⟩

/-- Squared magnitude of a complex value. -/
def complex_type.normSq (z : complex_type) : ℚ :=
  z.real * z.real + z.imag * z.imag

/-- A caller supplied array of codes, addressed by (signed) element offset. -/
abbrev Buffer := ℤ → ℚ

/-- The code representations that are modelled: a floating-point type, and the signed
integral types `int8_t`, `int16_t`, `int32_t` and `int64_t`. -/
inductive CodeKind where
  | floating
  | int8
  | int16
  | int32
  | int64
deriving DecidableEq

/-- The trait `std::is_integral<code_type>::value`. -/
def CodeKind.is_integral : CodeKind → Bool
  | .floating => false
  | .int8 => true
  | .int16 => true
  | .int32 => true
  | .int64 => true

/-- The trait `std::is_same<code_type, int8_t>::value`. -/
def CodeKind.is_int8 : CodeKind → Bool
  | .floating => false
  | .int8 => true
  | .int16 => false
  | .int32 => false
  | .int64 => false

/-- The number of bits of an integral code type (`0` for the floating-point type, which
has no use for it). -/
def CodeKind.width : CodeKind → ℕ
  | .floating => 0
  | .int8 => 8
  | .int16 => 16
  | .int32 => 32
  | .int64 => 64

/-- The least value of an integral code type, `-2 ^ (width - 1)`. -/
def CodeKind.lowest (k : CodeKind) : ℤ := -(2 ^ (k.width - 1))

/-- The greatest value of an integral code type, `2 ^ (width - 1) - 1`. -/
def CodeKind.highest (k : CodeKind) : ℤ := 2 ^ (k.width - 1) - 1

/-- The value `v` is representable in the code type: every value is representable in the
floating-point type, and the values from `lowest` to `highest` are in an integral type. -/
def CodeKind.fits (k : CodeKind) (v : ℚ) : Prop :=
  k.is_integral = true → (k.lowest : ℚ) ≤ v ∧ v ≤ (k.highest : ℚ)

instance (k : CodeKind) (v : ℚ) : Decidable (k.fits v) := by
  unfold CodeKind.fits
  infer_instance

/-- The integer part of a number: the fraction is discarded (rounding toward zero). -/
def truncate (v : ℚ) : ℤ := if 0 ≤ v then ⌊v⌋ else ⌈v⌉

/-- The signed integer of `w` bits that is congruent to `n` modulo `2 ^ w`. -/
def wrapInt (w : ℕ) (n : ℤ) : ℤ := (n + 2 ^ (w - 1)) % 2 ^ w - 2 ^ (w - 1)

/-- The implicit conversion `value_type → code_type` of the `return value;` that ends
`quantize`.  A floating-point code keeps the value.  An integral code keeps the integer
part of the value when it is representable; a value outside the range of the type, for
which C++ leaves the conversion undefined, is reduced modulo `2 ^ width`, as a truncating
conversion of the machine does. -/
def CodeKind.convert (k : CodeKind) (v : ℚ) : ℚ :=
  if k.is_integral then ((wrapInt k.width (truncate v) : ℤ) : ℚ) else v

/-- The function `std::nearbyint` in the default rounding mode: the nearest integer,
a tie going to the even neighbour. -/
def nearbyint (x : ℚ) : ℚ :=
  let f : ℤ := ⌊x⌋
  let d : ℚ := x - f
  if d < 1 / 2 then (f : ℚ)
  else if 1 / 2 < d then (f : ℚ) + 1
  else if f % 2 = 0 then (f : ℚ) else (f : ℚ) + 1

/-- The body shared by the four `quantize` members; `DIST` is the only thing that
differs between them. -/
def quantizeWith (DIST : ℚ) (k : CodeKind) (precision value : ℚ) : ℚ :=
  let value := value * (DIST * precision)
  let value := if k.is_integral then nearbyint value else value
  let value := if k.is_int8 then min (max value (-128)) 127 else value
  k.convert value

/-! ## Order 16 -/
namespace Q16

def NUM : ℕ := 16
def BITS : ℤ := 4
def FAC : ℚ := 1.0540925533894596
def RCP : ℚ := 3 * FAC
def AMP : ℚ := 1 / RCP
def DIST : ℚ := 2 * AMP

/-- The `i`-th multiple of the amplitude: `amp(i)` of order 16. -/
def amp (i : ℤ) : ℚ := AMP * i

/-- The member `quantize` of order 16. -/
def quantize (k : CodeKind) (precision value : ℚ) : ℚ :=
  quantizeWith DIST k precision value

/-- The member `bits()` of order 16. -/
def bits : ℤ := BITS

/-- The member `hard` of order 16: one store per code, in source order. -/
def hard (b : Buffer) (c : complex_type) (stride : ℤ) : Buffer :=
  let b := Function.update b (0 * stride) (if c.real < amp 0 then -1 else 1)
  let b := Function.update b (1 * stride) (if c.imag < amp 0 then -1 else 1)
  let b := Function.update b (2 * stride) (if abs c.real < amp 2 then -1 else 1)
  let b := Function.update b (3 * stride) (if abs c.imag < amp 2 then -1 else 1)
  b

/-- The member `soft` of order 16: one store per code, in source order. -/
def soft (k : CodeKind) (b : Buffer) (c : complex_type) (precision : ℚ) (stride : ℤ) :
    Buffer :=
  let b := Function.update b (0 * stride) (quantize k precision c.real)
  let b := Function.update b (1 * stride) (quantize k precision c.imag)
  let b := Function.update b (2 * stride) (quantize k precision (abs c.real - amp 2))
  let b := Function.update b (3 * stride) (quantize k precision (abs c.imag - amp 2))
  b

/-- The member `map` of order 16. -/
def map (b : Buffer) (stride : ℤ) : complex_type :=
  complex_type.scale AMP ⟨
    b (0 * stride) * (b (2 * stride) + 2),
    b (1 * stride) * (b (3 * stride) + 2)⟩

end Q16

/-! ## Order 64 -/
namespace Q64

def NUM : ℕ := 64
def BITS : ℤ := 6
def FAC : ℚ := 0.9258200997725516
def RCP : ℚ := 7 * FAC
def AMP : ℚ := 1 / RCP
def DIST : ℚ := 2 * AMP

/-- The `i`-th multiple of the amplitude: `amp(i)` of order 64. -/
def amp (i : ℤ) : ℚ := AMP * i

/-- The member `quantize` of order 64. -/
def quantize (k : CodeKind) (precision value : ℚ) : ℚ :=
  quantizeWith DIST k precision value

/-- The member `bits()` of order 64. -/
def bits : ℤ := BITS

/-- The member `hard` of order 64: one store per code, in source order. -/
def hard (b : Buffer) (c : complex_type) (stride : ℤ) : Buffer :=
  let b := Function.update b (0 * stride) (if c.real < amp 0 then -1 else 1)
  let b := Function.update b (1 * stride) (if c.imag < amp 0 then -1 else 1)
  let b := Function.update b (2 * stride) (if abs c.real < amp 4 then -1 else 1)
  let b := Function.update b (3 * stride) (if abs c.imag < amp 4 then -1 else 1)
  let b := Function.update b (4 * stride) (if abs (abs c.real - amp 4) < amp 2 then -1 else 1)
  let b := Function.update b (5 * stride) (if abs (abs c.imag - amp 4) < amp 2 then -1 else 1)
  b

/-- The member `soft` of order 64: one store per code, in source order. -/
def soft (k : CodeKind) (b : Buffer) (c : complex_type) (precision : ℚ) (stride : ℤ) :
    Buffer :=
  let b := Function.update b (0 * stride) (quantize k precision c.real)
  let b := Function.update b (1 * stride) (quantize k precision c.imag)
  let b := Function.update b (2 * stride) (quantize k precision (abs c.real - amp 4))
  let b := Function.update b (3 * stride) (quantize k precision (abs c.imag - amp 4))
  let b := Function.update b (4 * stride)
    (quantize k precision (abs (abs c.real - amp 4) - amp 2))
  let b := Function.update b (5 * stride)
    (quantize k precision (abs (abs c.imag - amp 4) - amp 2))
  b

/-- The member `map` of order 64. -/
def map (b : Buffer) (stride : ℤ) : complex_type :=
  complex_type.scale AMP ⟨
    b (0 * stride) * (b (2 * stride) * (b (4 * stride) + 2) + 4),
    b (1 * stride) * (b (3 * stride) * (b (5 * stride) + 2) + 4)⟩

end Q64

/-! ## Order 256 -/
namespace Q256

def NUM : ℕ := 256
def BITS : ℤ := 8
def FAC : ℚ := 0.8692269873603529
def RCP : ℚ := 15 * FAC
def AMP : ℚ := 1 / RCP
def DIST : ℚ := 2 * AMP

/-- The `i`-th multiple of the amplitude: `amp(i)` of order 256. -/
def amp (i : ℤ) : ℚ := AMP * i

/-- The member `quantize` of order 256. -/
def quantize (k : CodeKind) (precision value : ℚ) : ℚ :=
  quantizeWith DIST k precision value

/-- The member `bits()` of order 256. -/
def bits : ℤ := BITS

/-- The member `hard` of order 256: one store per code, in source order. -/
def hard (b : Buffer) (c : complex_type) (stride : ℤ) : Buffer :=
  let b := Function.update b (0 * stride) (if c.real < amp 0 then -1 else 1)
  let b := Function.update b (1 * stride) (if c.imag < amp 0 then -1 else 1)
  let b := Function.update b (2 * stride) (if abs c.real < amp 8 then -1 else 1)
  let b := Function.update b (3 * stride) (if abs c.imag < amp 8 then -1 else 1)
  let b := Function.update b (4 * stride) (if abs (abs c.real - amp 8) < amp 4 then -1 else 1)
  let b := Function.update b (5 * stride) (if abs (abs c.imag - amp 8) < amp 4 then -1 else 1)
  let b := Function.update b (6 * stride)
    (if abs (abs (abs c.real - amp 8) - amp 4) < amp 2 then -1 else 1)
  let b := Function.update b (7 * stride)
    (if abs (abs (abs c.imag - amp 8) - amp 4) < amp 2 then -1 else 1)
  b

/-- The member `soft` of order 256: one store per code, in source order. -/
def soft (k : CodeKind) (b : Buffer) (c : complex_type) (precision : ℚ) (stride : ℤ) :
    Buffer :=
  let b := Function.update b (0 * stride) (quantize k precision c.real)
  let b := Function.update b (1 * stride) (quantize k precision c.imag)
  let b := Function.update b (2 * stride) (quantize k precision (abs c.real - amp 8))
  let b := Function.update b (3 * stride) (quantize k precision (abs c.imag - amp 8))
  let b := Function.update b (4 * stride)
    (quantize k precision (abs (abs c.real - amp 8) - amp 4))
  let b := Function.update b (5 * stride)
    (quantize k precision (abs (abs c.imag - amp 8) - amp 4))
  let b := Function.update b (6 * stride)
    (quantize k precision (abs (abs (abs c.real - amp 8) - amp 4) - amp 2))
  let b := Function.update b (7 * stride)
    (quantize k precision (abs (abs (abs c.imag - amp 8) - amp 4) - amp 2))
  b

/-- The member `map` of order 256. -/
def map (b : Buffer) (stride : ℤ) : complex_type :=
  complex_type.scale AMP ⟨
    b (0 * stride) * (b (2 * stride) * (b (4 * stride) * (b (6 * stride) + 2) + 4) + 8),
    b (1 * stride) * (b (3 * stride) * (b (5 * stride) * (b (7 * stride) + 2) + 4) + 8)⟩

end Q256

/-! ## Order 1024 -/
namespace Q1024

def NUM : ℕ := 1024
def BITS : ℤ := 10
def FAC : ℚ := 0.8424235391742344
def RCP : ℚ := 31 * FAC
def AMP : ℚ := 1 / RCP
def DIST : ℚ := 2 * AMP

/-- The `i`-th multiple of the amplitude: `amp(i)` of order 1024. -/
def amp (i : ℤ) : ℚ := AMP * i

/-- The member `quantize` of order 1024. -/
def quantize (k : CodeKind) (precision value : ℚ) : ℚ :=
  quantizeWith DIST k precision value

/-- The member `bits()` of order 1024. -/
def bits : ℤ := BITS

/-- The member `hard` of order 1024: one store per code, in source order. -/
def hard (b : Buffer) (c : complex_type) (stride : ℤ) : Buffer :=
  let b := Function.update b (0 * stride) (if c.real < amp 0 then -1 else 1)
  let b := Function.update b (1 * stride) (if c.imag < amp 0 then -1 else 1)
  let b := Function.update b (2 * stride) (if abs c.real < amp 16 then -1 else 1)
  let b := Function.update b (3 * stride) (if abs c.imag < amp 16 then -1 else 1)
  let b := Function.update b (4 * stride) (if abs (abs c.real - amp 16) < amp 8 then -1 else 1)
  let b := Function.update b (5 * stride) (if abs (abs c.imag - amp 16) < amp 8 then -1 else 1)
  let b := Function.update b (6 * stride)
    (if abs (abs (abs c.real - amp 16) - amp 8) < amp 4 then -1 else 1)
  let b := Function.update b (7 * stride)
    (if abs (abs (abs c.imag - amp 16) - amp 8) < amp 4 then -1 else 1)
  let b := Function.update b (8 * stride)
    (if abs (abs (abs (abs c.real - amp 16) - amp 8) - amp 4) < amp 2 then -1 else 1)
  let b := Function.update b (9 * stride)
    (if abs (abs (abs (abs c.imag - amp 16) - amp 8) - amp 4) < amp 2 then -1 else 1)
  b

/-- The member `soft` of order 1024: one store per code, in source order. -/
def soft (k : CodeKind) (b : Buffer) (c : complex_type) (precision : ℚ) (stride : ℤ) :
    Buffer :=
  let b := Function.update b (0 * stride) (quantize k precision c.real)
  let b := Function.update b (1 * stride) (quantize k precision c.imag)
  let b := Function.update b (2 * stride) (quantize k precision (abs c.real - amp 16))
  let b := Function.update b (3 * stride) (quantize k precision (abs c.imag - amp 16))
  let b := Function.update b (4 * stride)
    (quantize k precision (abs (abs c.real - amp 16) - amp 8))
  let b := Function.update b (5 * stride)
    (quantize k precision (abs (abs c.imag - amp 16) - amp 8))
  let b := Function.update b (6 * stride)
    (quantize k precision (abs (abs (abs c.real - amp 16) - amp 8) - amp 4))
  let b := Function.update b (7 * stride)
    (quantize k precision (abs (abs (abs c.imag - amp 16) - amp 8) - amp 4))
  let b := Function.update b (8 * stride)
    (quantize k precision (abs (abs (abs (abs c.real - amp 16) - amp 8) - amp 4) - amp 2))
  let b := Function.update b (9 * stride)
    (quantize k precision (abs (abs (abs (abs c.imag - amp 16) - amp 8) - amp 4) - amp 2))
  b

/-- The member `map` of order 1024. -/
def map (b : Buffer) (stride : ℤ) : complex_type :=
  complex_type.scale AMP ⟨
    b (0 * stride) *
      (b (2 * stride) * (b (4 * stride) * (b (6 * stride) * (b (8 * stride) + 2) + 4) + 8)
        + 16),
    b (1 * stride) *
      (b (3 * stride) * (b (5 * stride) * (b (7 * stride) * (b (9 * stride) + 2) + 4) + 8)
        + 16)⟩

end Q1024

/-! ## Selection of the order

The primary template `QuadratureAmplitudeModulation<NUM, TYPE, CODE>` is declared but
not defined, so `NUM` ranges over the four specialisations only.  The functions below
select the member of the specialisation for a given order. -/

/-- The values of `NUM` for which a specialisation exists. -/
inductive Order where
  | n16
  | n64
  | n256
  | n1024
deriving DecidableEq

def Order.NUM : Order → ℕ
  | .n16 => Q16.NUM
  | .n64 => Q64.NUM
  | .n256 => Q256.NUM
  | .n1024 => Q1024.NUM

def Order.BITS : Order → ℤ
  | .n16 => Q16.BITS
  | .n64 => Q64.BITS
  | .n256 => Q256.BITS
  | .n1024 => Q1024.BITS

def Order.FAC : Order → ℚ
  | .n16 => Q16.FAC
  | .n64 => Q64.FAC
  | .n256 => Q256.FAC
  | .n1024 => Q1024.FAC

def Order.RCP : Order → ℚ
  | .n16 => Q16.RCP
  | .n64 => Q64.RCP
  | .n256 => Q256.RCP
  | .n1024 => Q1024.RCP

def Order.AMP : Order → ℚ
  | .n16 => Q16.AMP
  | .n64 => Q64.AMP
  | .n256 => Q256.AMP
  | .n1024 => Q1024.AMP

def Order.DIST : Order → ℚ
  | .n16 => Q16.DIST
  | .n64 => Q64.DIST
  | .n256 => Q256.DIST
  | .n1024 => Q1024.DIST

def amp : Order → ℤ → ℚ
  | .n16 => Q16.amp
  | .n64 => Q64.amp
  | .n256 => Q256.amp
  | .n1024 => Q1024.amp

def quantize : Order → CodeKind → ℚ → ℚ → ℚ
  | .n16 => Q16.quantize
  | .n64 => Q64.quantize
  | .n256 => Q256.quantize
  | .n1024 => Q1024.quantize

def bits : Order → ℤ
  | .n16 => Q16.bits
  | .n64 => Q64.bits
  | .n256 => Q256.bits
  | .n1024 => Q1024.bits

def hard : Order → Buffer → complex_type → ℤ → Buffer
  | .n16 => Q16.hard
  | .n64 => Q64.hard
  | .n256 => Q256.hard
  | .n1024 => Q1024.hard

def soft : Order → CodeKind → Buffer → complex_type → ℚ → ℤ → Buffer
  | .n16 => Q16.soft
  | .n64 => Q64.soft
  | .n256 => Q256.soft
  | .n1024 => Q1024.soft

def map : Order → Buffer → ℤ → complex_type
  | .n16 => Q16.map
  | .n64 => Q64.map
  | .n256 => Q256.map
  | .n1024 => Q1024.map

/-! ## Code words -/

/-- The array whose first slots hold the entries of `l` (slots outside `l` hold `0`). -/
def ofList (l : List ℚ) : Buffer :=
  fun i => if 0 ≤ i then l.getD i.toNat 0 else 0

/-- All sequences of `n` bipolar codes. -/
def codeWords : ℕ → List (List ℚ)
  | 0 => [[]]
  | n + 1 => (codeWords n).map (List.cons (-1)) ++ (codeWords n).map (List.cons 1)

/-- Mean of `|map b|²` over all `2 ^ BITS` code words. -/
def meanEnergy (o : Order) : ℚ :=
  (((codeWords o.BITS.toNat).map (fun w => (map o (ofList w) 1).normSq)).sum) /
    (2 ^ o.BITS.toNat : ℚ)

/-! ## Auxiliary definitions used to state and prove the properties -/

/-- The buffer obtained by storing the values `vs` at the slots `k*s`, `(k+1)*s`, ...,
one after the other. -/
def storeFrom (b : Buffer) (s : ℤ) (k : ℤ) : List ℚ → Buffer
  | [] => b
  | v :: vs => storeFrom (Function.update b (k * s) v) s (k + 1) vs

/-- The codes stored by `hard`, in the order of the stores. -/
def hardCodes (o : Order) (c : complex_type) : List ℚ :=
  (List.range o.BITS.toNat).map (fun i : ℕ => hard o (fun _ => 0) c 1 (i : ℤ))

/-- The codes stored by `soft`, in the order of the stores. -/
def softCodes (o : Order) (k : CodeKind) (c : complex_type) (precision : ℚ) : List ℚ :=
  (List.range o.BITS.toNat).map
    (fun i : ℕ => soft o k (fun _ => 0) c precision 1 (i : ℤ))

/-- All sequences of `n` bipolar codes, as integers. -/
def codeWordsZ : ℕ → List (List ℤ)
  | 0 => [[]]
  | n + 1 => (codeWordsZ n).map (List.cons (-1)) ++ (codeWordsZ n).map (List.cons 1)

/-- The value `|map b|² / AMP²` for a code word of `BITS` integer codes, computed in
integers. -/
def levelSq : Order → List ℤ → ℤ
  | .n16, [b0, b1, b2, b3] =>
    (b0 * (b2 + 2)) *
        (b0 * (b2 + 2)) +
      (b1 * (b3 + 2)) *
        (b1 * (b3 + 2))
  | .n64, [b0, b1, b2, b3, b4, b5] =>
    (b0 * (b2 * (b4 + 2) + 4)) *
        (b0 * (b2 * (b4 + 2) + 4)) +
      (b1 * (b3 * (b5 + 2) + 4)) *
        (b1 * (b3 * (b5 + 2) + 4))
  | .n256, [b0, b1, b2, b3, b4, b5, b6, b7] =>
    (b0 * (b2 * (b4 * (b6 + 2) + 4) + 8)) *
        (b0 * (b2 * (b4 * (b6 + 2) + 4) + 8)) +
      (b1 * (b3 * (b5 * (b7 + 2) + 4) + 8)) *
        (b1 * (b3 * (b5 * (b7 + 2) + 4) + 8))
  | .n1024, [b0, b1, b2, b3, b4, b5, b6, b7, b8, b9] =>
    (b0 * (b2 * (b4 * (b6 * (b8 + 2) + 4) + 8) + 16)) *
        (b0 * (b2 * (b4 * (b6 * (b8 + 2) + 4) + 8) + 16)) +
      (b1 * (b3 * (b5 * (b7 * (b9 + 2) + 4) + 8) + 16)) *
        (b1 * (b3 * (b5 * (b7 * (b9 + 2) + 4) + 8) + 16))
  | _, _ => 0

/-! ## The hierarchical slicer as the specification words it (§4.2)

These definitions follow the text of the specification, not the source; the properties
below relate them to the unrolled `hard` of each order. -/

/-- Per-axis depth `k = BITS / 2`. -/
def Order.depth (o : Order) : ℕ := (o.BITS / 2).toNat

/-- The step size of level `j`: level `0` compares against `amp 0`; the step size of
level `1` is `2 ^ (k - 1)` and it halves at each further level. -/
def specStepSize (o : Order) : ℕ → ℤ
  | 0 => 0
  | 1 => 2 ^ (o.depth - 1)
  | j + 2 => specStepSize o (j + 1) / 2

/-- The folded residual at level `j`: the raw axis value at level `0`, its absolute
value at level `1`, and `|r - amp stepSize|` of the previous level afterwards. -/
def specResidual (o : Order) : ℕ → ℚ → ℚ
  | 0, x => x
  | 1, x => abs x
  | j + 2, x => abs (specResidual o (j + 1) x - amp o (specStepSize o (j + 1)))

/-! ## The composition rule as the specification words it (§4.3) -/

/-- The `compose` of the specification for depth `k`, counted down from the innermost
code: `specComposeDown k b d` is `compose (k - 1 - d)`, so that
`compose (k - 1) = b_{2(k-1)}` and
`compose j = b_{2j} * (compose (j + 1) + 2 ^ (k - 1 - j))`. -/
def specComposeDown (k : ℕ) (b : Buffer) : ℕ → ℚ
  | 0 => b (2 * ((k : ℤ) - 1))
  | d + 1 => b (2 * ((k : ℤ) - 1 - ((d : ℤ) + 1))) * (specComposeDown k b d + 2 ^ (d + 1))

/-- The `compose j` of the specification for depth `k`. -/
def specCompose (k : ℕ) (b : Buffer) (j : ℕ) : ℚ :=
  specComposeDown k b (k - 1 - j)

/-! ## Levels of one axis

Auxiliary definitions for the properties of the constellation: the level of an axis as a
function of its codes, written once for all depths. -/

/-- The magnitude, in units of `AMP`, selected by the `n` codes `f j, …, f (j + n - 1)`:
`1` when no code is left, and `f j * (magnitude of the rest) + 2 ^ n'` with `n'` the
number of codes from `f j` on. -/
def magFrom (f : ℕ → ℚ) : ℕ → ℕ → ℚ
  | 0, _ => 1
  | n + 1, j => f j * magFrom f n (j + 1) + 2 ^ (n + 1)

/-- The level, in units of `AMP`, selected by the `k` codes `f 0, …, f (k - 1)` of one
axis: the sign code `f 0` times the magnitude selected by the other codes. -/
def axisLevel (f : ℕ → ℚ) (k : ℕ) : ℚ :=
  f 0 * magFrom f (k - 1) 1

/-- The codes of the real axis of a code word: slots `0, 2, 4, …`. -/
def evenCodes (b : Buffer) (j : ℕ) : ℚ := b (2 * (j : ℤ))

/-- The codes of the imaginary axis of a code word: slots `1, 3, 5, …`. -/
def oddCodes (b : Buffer) (j : ℕ) : ℚ := b (2 * (j : ℤ) + 1)

/-- The code word whose real axis has the codes `f` and whose imaginary axis has the
codes `g`. -/
def interleave (f g : ℕ → ℚ) : Buffer :=
  fun i => if i % 2 = 0 then f (i / 2).toNat else g (i / 2).toNat

/-- The difference of two complex values. -/
def complex_type.sub (z w : complex_type) : complex_type :=
  ⟨z.real - w.real, z.imag - w.imag⟩

/-! ## Floating-point rounding

The real numbers that a binary floating-point format represents, and the rounding of a
real number to the nearest of them.  Signed zeros, infinities and NaN are not modelled:
a result that rounds to `-0.0` is the number `0`, which compares as `-0.0` does. -/

/-- The power `2 ^ e` for an integer exponent. -/
def pow2 (e : ℤ) : ℚ :=
  if 0 ≤ e then ((2 ^ e.toNat : ℕ) : ℚ) else 1 / ((2 ^ (-e).toNat : ℕ) : ℚ)

/-- The number of halvings that bring `n` below `2`, with at most `fuel` steps. -/
def log2Aux : ℕ → ℕ → ℕ
  | 0, _ => 0
  | fuel + 1, n => if n < 2 then 0 else log2Aux fuel (n / 2) + 1

/-- The integer part of the binary logarithm of a positive natural number. -/
def natLog2 (n : ℕ) : ℕ := log2Aux n n

/-- The integer part of the binary logarithm of a positive rational number: the exponent
`e` with `2 ^ e ≤ a < 2 ^ (e + 1)`. -/
def ilog2 (a : ℚ) : ℤ :=
  let c : ℤ := (natLog2 a.num.natAbs : ℤ) - (natLog2 a.den : ℤ)
  if pow2 c ≤ a then c else c - 1

/-- Rounding to the binary floating-point format with `prec` significant bits and least
normal exponent `emin`, in the default rounding mode (to nearest, a tie going to the even
significand).  A number below the normal range is rounded on the subnormal grid, so a
small enough magnitude rounds to zero.  The largest finite number of the format is not
modelled: there is no overflow to infinity. -/
def roundBinary (prec : ℕ) (emin : ℤ) (x : ℚ) : ℚ :=
  if x = 0 then 0
  else
    let e : ℤ := max (ilog2 (abs x)) emin
    let u : ℚ := pow2 (e - ((prec : ℤ) - 1))
    nearbyint (x / u) * u

/-- Rounding to IEEE-754 binary64, the format of `double`. -/
def roundDouble (x : ℚ) : ℚ := roundBinary 53 (-1022) x

/-- Rounding to IEEE-754 binary32, the format of `float`. -/
def roundSingle (x : ℚ) : ℚ := roundBinary 24 (-126) x

/-! ## The source in rounded arithmetic

The members of the four specialisations once more, with a rounding function `fl` applied
to the result of every floating-point operation of the source, in the order in which the
source performs them.  `std::abs`, `std::min`, `std::max`, `std::nearbyint` and the
comparisons are exact on floating-point numbers and are not wrapped. -/

namespace Rounded

/-- The product `value_type * complex_type` used by `map`: two rounded multiplications. -/
def scale (fl : ℚ → ℚ) (a : ℚ) (z : complex_type) : complex_type :=
  ⟨fl (a * z.real), fl (a * z.imag)⟩

/-- The body shared by the four `quantize` members: `value *= DIST * precision` is two
rounded multiplications. -/
def quantizeWith (fl : ℚ → ℚ) (DIST : ℚ) (k : CodeKind) (precision value : ℚ) : ℚ :=
  let value := fl (value * fl (DIST * precision))
  let value := if k.is_integral then nearbyint value else value
  let value := if k.is_int8 then min (max value (-128)) 127 else value
  k.convert value


/-! ### Order 16 -/
namespace Q16

def FAC (fl : ℚ → ℚ) : ℚ := fl 1.0540925533894596
def RCP (fl : ℚ → ℚ) : ℚ := fl (3 * FAC fl)
def AMP (fl : ℚ → ℚ) : ℚ := fl (1 / RCP fl)
def DIST (fl : ℚ → ℚ) : ℚ := fl (2 * AMP fl)

/-- The member `amp` of order 16, one rounded multiplication. -/
def amp (fl : ℚ → ℚ) (i : ℤ) : ℚ := fl (AMP fl * i)

/-- The member `quantize` of order 16. -/
def quantize (fl : ℚ → ℚ) (k : CodeKind) (precision value : ℚ) : ℚ :=
  quantizeWith fl (DIST fl) k precision value

/-- The member `hard` of order 16: a rounded subtraction at each fold. -/
def hard (fl : ℚ → ℚ) (b : Buffer) (c : complex_type) (stride : ℤ) : Buffer :=
  let b := Function.update b (0 * stride)
    (if c.real < amp fl 0 then -1 else 1)
  let b := Function.update b (1 * stride)
    (if c.imag < amp fl 0 then -1 else 1)
  let b := Function.update b (2 * stride)
    (if abs c.real < amp fl 2 then -1 else 1)
  let b := Function.update b (3 * stride)
    (if abs c.imag < amp fl 2 then -1 else 1)
  b

/-- The member `soft` of order 16: a rounded subtraction at each fold. -/
def soft (fl : ℚ → ℚ) (k : CodeKind) (b : Buffer) (c : complex_type) (precision : ℚ)
    (stride : ℤ) : Buffer :=
  let b := Function.update b (0 * stride)
    (quantize fl k precision c.real)
  let b := Function.update b (1 * stride)
    (quantize fl k precision c.imag)
  let b := Function.update b (2 * stride)
    (quantize fl k precision (fl (abs c.real - amp fl 2)))
  let b := Function.update b (3 * stride)
    (quantize fl k precision (fl (abs c.imag - amp fl 2)))
  b

/-- The member `map` of order 16: every sum and product is rounded, and so is the
product with `AMP`. -/
def map (fl : ℚ → ℚ) (b : Buffer) (stride : ℤ) : complex_type :=
  scale fl (AMP fl) ⟨
    fl (b (0 * stride) * fl (b (2 * stride) + 2)),
    fl (b (1 * stride) * fl (b (3 * stride) + 2))⟩

end Q16


/-! ### Order 64 -/
namespace Q64

def FAC (fl : ℚ → ℚ) : ℚ := fl 0.9258200997725516
def RCP (fl : ℚ → ℚ) : ℚ := fl (7 * FAC fl)
def AMP (fl : ℚ → ℚ) : ℚ := fl (1 / RCP fl)
def DIST (fl : ℚ → ℚ) : ℚ := fl (2 * AMP fl)

/-- The member `amp` of order 64, one rounded multiplication. -/
def amp (fl : ℚ → ℚ) (i : ℤ) : ℚ := fl (AMP fl * i)

/-- The member `quantize` of order 64. -/
def quantize (fl : ℚ → ℚ) (k : CodeKind) (precision value : ℚ) : ℚ :=
  quantizeWith fl (DIST fl) k precision value

/-- The member `hard` of order 64: a rounded subtraction at each fold. -/
def hard (fl : ℚ → ℚ) (b : Buffer) (c : complex_type) (stride : ℤ) : Buffer :=
  let b := Function.update b (0 * stride)
    (if c.real < amp fl 0 then -1 else 1)
  let b := Function.update b (1 * stride)
    (if c.imag < amp fl 0 then -1 else 1)
  let b := Function.update b (2 * stride)
    (if abs c.real < amp fl 4 then -1 else 1)
  let b := Function.update b (3 * stride)
    (if abs c.imag < amp fl 4 then -1 else 1)
  let b := Function.update b (4 * stride)
    (if abs (fl (abs c.real - amp fl 4)) < amp fl 2 then -1 else 1)
  let b := Function.update b (5 * stride)
    (if abs (fl (abs c.imag - amp fl 4)) < amp fl 2 then -1 else 1)
  b

/-- The member `soft` of order 64: a rounded subtraction at each fold. -/
def soft (fl : ℚ → ℚ) (k : CodeKind) (b : Buffer) (c : complex_type) (precision : ℚ)
    (stride : ℤ) : Buffer :=
  let b := Function.update b (0 * stride)
    (quantize fl k precision c.real)
  let b := Function.update b (1 * stride)
    (quantize fl k precision c.imag)
  let b := Function.update b (2 * stride)
    (quantize fl k precision (fl (abs c.real - amp fl 4)))
  let b := Function.update b (3 * stride)
    (quantize fl k precision (fl (abs c.imag - amp fl 4)))
  let b := Function.update b (4 * stride)
    (quantize fl k precision (fl (abs (fl (abs c.real - amp fl 4)) - amp fl 2)))
  let b := Function.update b (5 * stride)
    (quantize fl k precision (fl (abs (fl (abs c.imag - amp fl 4)) - amp fl 2)))
  b

/-- The member `map` of order 64: every sum and product is rounded, and so is the
product with `AMP`. -/
def map (fl : ℚ → ℚ) (b : Buffer) (stride : ℤ) : complex_type :=
  scale fl (AMP fl) ⟨
    fl (b (0 * stride) * fl (fl (b (2 * stride) * fl (b (4 * stride) + 2)) + 4)),
    fl (b (1 * stride) * fl (fl (b (3 * stride) * fl (b (5 * stride) + 2)) + 4))⟩

end Q64


/-! ### Order 256 -/
namespace Q256

def FAC (fl : ℚ → ℚ) : ℚ := fl 0.8692269873603529
def RCP (fl : ℚ → ℚ) : ℚ := fl (15 * FAC fl)
def AMP (fl : ℚ → ℚ) : ℚ := fl (1 / RCP fl)
def DIST (fl : ℚ → ℚ) : ℚ := fl (2 * AMP fl)

/-- The member `amp` of order 256, one rounded multiplication. -/
def amp (fl : ℚ → ℚ) (i : ℤ) : ℚ := fl (AMP fl * i)

/-- The member `quantize` of order 256. -/
def quantize (fl : ℚ → ℚ) (k : CodeKind) (precision value : ℚ) : ℚ :=
  quantizeWith fl (DIST fl) k precision value

/-- The member `hard` of order 256: a rounded subtraction at each fold. -/
def hard (fl : ℚ → ℚ) (b : Buffer) (c : complex_type) (stride : ℤ) : Buffer :=
  let b := Function.update b (0 * stride)
    (if c.real < amp fl 0 then -1 else 1)
  let b := Function.update b (1 * stride)
    (if c.imag < amp fl 0 then -1 else 1)
  let b := Function.update b (2 * stride)
    (if abs c.real < amp fl 8 then -1 else 1)
  let b := Function.update b (3 * stride)
    (if abs c.imag < amp fl 8 then -1 else 1)
  let b := Function.update b (4 * stride)
    (if abs (fl (abs c.real - amp fl 8)) < amp fl 4 then -1 else 1)
  let b := Function.update b (5 * stride)
    (if abs (fl (abs c.imag - amp fl 8)) < amp fl 4 then -1 else 1)
  let b := Function.update b (6 * stride)
    (if abs (fl (abs (fl (abs c.real - amp fl 8)) - amp fl 4)) < amp fl 2 then -1 else 1)
  let b := Function.update b (7 * stride)
    (if abs (fl (abs (fl (abs c.imag - amp fl 8)) - amp fl 4)) < amp fl 2 then -1 else 1)
  b

/-- The member `soft` of order 256: a rounded subtraction at each fold. -/
def soft (fl : ℚ → ℚ) (k : CodeKind) (b : Buffer) (c : complex_type) (precision : ℚ)
    (stride : ℤ) : Buffer :=
  let b := Function.update b (0 * stride)
    (quantize fl k precision c.real)
  let b := Function.update b (1 * stride)
    (quantize fl k precision c.imag)
  let b := Function.update b (2 * stride)
    (quantize fl k precision (fl (abs c.real - amp fl 8)))
  let b := Function.update b (3 * stride)
    (quantize fl k precision (fl (abs c.imag - amp fl 8)))
  let b := Function.update b (4 * stride)
    (quantize fl k precision (fl (abs (fl (abs c.real - amp fl 8)) - amp fl 4)))
  let b := Function.update b (5 * stride)
    (quantize fl k precision (fl (abs (fl (abs c.imag - amp fl 8)) - amp fl 4)))
  let b := Function.update b (6 * stride)
    (quantize fl k precision (fl (abs (fl (abs (fl (abs c.real - amp fl 8)) - amp fl 4))
      - amp fl 2)))
  let b := Function.update b (7 * stride)
    (quantize fl k precision (fl (abs (fl (abs (fl (abs c.imag - amp fl 8)) - amp fl 4))
      - amp fl 2)))
  b

/-- The member `map` of order 256: every sum and product is rounded, and so is the
product with `AMP`. -/
def map (fl : ℚ → ℚ) (b : Buffer) (stride : ℤ) : complex_type :=
  scale fl (AMP fl) ⟨
    fl (b (0 * stride) * fl (fl (b (2 * stride) * fl (fl (b (4 * stride) * fl (b (6 * stride)
      + 2)) + 4)) + 8)),
    fl (b (1 * stride) * fl (fl (b (3 * stride) * fl (fl (b (5 * stride) * fl (b (7 * stride)
      + 2)) + 4)) + 8))⟩

end Q256


/-! ### Order 1024 -/
namespace Q1024

def FAC (fl : ℚ → ℚ) : ℚ := fl 0.8424235391742344
def RCP (fl : ℚ → ℚ) : ℚ := fl (31 * FAC fl)
def AMP (fl : ℚ → ℚ) : ℚ := fl (1 / RCP fl)
def DIST (fl : ℚ → ℚ) : ℚ := fl (2 * AMP fl)

/-- The member `amp` of order 1024, one rounded multiplication. -/
def amp (fl : ℚ → ℚ) (i : ℤ) : ℚ := fl (AMP fl * i)

/-- The member `quantize` of order 1024. -/
def quantize (fl : ℚ → ℚ) (k : CodeKind) (precision value : ℚ) : ℚ :=
  quantizeWith fl (DIST fl) k precision value

/-- The member `hard` of order 1024: a rounded subtraction at each fold. -/
def hard (fl : ℚ → ℚ) (b : Buffer) (c : complex_type) (stride : ℤ) : Buffer :=
  let b := Function.update b (0 * stride)
    (if c.real < amp fl 0 then -1 else 1)
  let b := Function.update b (1 * stride)
    (if c.imag < amp fl 0 then -1 else 1)
  let b := Function.update b (2 * stride)
    (if abs c.real < amp fl 16 then -1 else 1)
  let b := Function.update b (3 * stride)
    (if abs c.imag < amp fl 16 then -1 else 1)
  let b := Function.update b (4 * stride)
    (if abs (fl (abs c.real - amp fl 16)) < amp fl 8 then -1 else 1)
  let b := Function.update b (5 * stride)
    (if abs (fl (abs c.imag - amp fl 16)) < amp fl 8 then -1 else 1)
  let b := Function.update b (6 * stride)
    (if abs (fl (abs (fl (abs c.real - amp fl 16)) - amp fl 8)) < amp fl 4 then -1 else 1)
  let b := Function.update b (7 * stride)
    (if abs (fl (abs (fl (abs c.imag - amp fl 16)) - amp fl 8)) < amp fl 4 then -1 else 1)
  let b := Function.update b (8 * stride)
    (if abs (fl (abs (fl (abs (fl (abs c.real - amp fl 16)) - amp fl 8)) - amp fl 4))
      < amp fl 2 then -1 else 1)
  let b := Function.update b (9 * stride)
    (if abs (fl (abs (fl (abs (fl (abs c.imag - amp fl 16)) - amp fl 8)) - amp fl 4))
      < amp fl 2 then -1 else 1)
  b

/-- The member `soft` of order 1024: a rounded subtraction at each fold. -/
def soft (fl : ℚ → ℚ) (k : CodeKind) (b : Buffer) (c : complex_type) (precision : ℚ)
    (stride : ℤ) : Buffer :=
  let b := Function.update b (0 * stride)
    (quantize fl k precision c.real)
  let b := Function.update b (1 * stride)
    (quantize fl k precision c.imag)
  let b := Function.update b (2 * stride)
    (quantize fl k precision (fl (abs c.real - amp fl 16)))
  let b := Function.update b (3 * stride)
    (quantize fl k precision (fl (abs c.imag - amp fl 16)))
  let b := Function.update b (4 * stride)
    (quantize fl k precision (fl (abs (fl (abs c.real - amp fl 16)) - amp fl 8)))
  let b := Function.update b (5 * stride)
    (quantize fl k precision (fl (abs (fl (abs c.imag - amp fl 16)) - amp fl 8)))
  let b := Function.update b (6 * stride)
    (quantize fl k precision (fl (abs (fl (abs (fl (abs c.real - amp fl 16)) - amp fl 8))
      - amp fl 4)))
  let b := Function.update b (7 * stride)
    (quantize fl k precision (fl (abs (fl (abs (fl (abs c.imag - amp fl 16)) - amp fl 8))
      - amp fl 4)))
  let b := Function.update b (8 * stride)
    (quantize fl k precision (fl (abs (fl (abs (fl (abs (fl (abs c.real - amp fl 16))
      - amp fl 8)) - amp fl 4)) - amp fl 2)))
  let b := Function.update b (9 * stride)
    (quantize fl k precision (fl (abs (fl (abs (fl (abs (fl (abs c.imag - amp fl 16))
      - amp fl 8)) - amp fl 4)) - amp fl 2)))
  b

/-- The member `map` of order 1024: every sum and product is rounded, and so is the
product with `AMP`. -/
def map (fl : ℚ → ℚ) (b : Buffer) (stride : ℤ) : complex_type :=
  scale fl (AMP fl) ⟨
    fl (b (0 * stride) * fl (fl (b (2 * stride) * fl (fl (b (4 * stride)
      * fl (fl (b (6 * stride) * fl (b (8 * stride) + 2)) + 4)) + 8)) + 16)),
    fl (b (1 * stride) * fl (fl (b (3 * stride) * fl (fl (b (5 * stride)
      * fl (fl (b (7 * stride) * fl (b (9 * stride) + 2)) + 4)) + 8)) + 16))⟩

end Q1024


/-! ### Selection of the order -/

def FAC (fl : ℚ → ℚ) : Order → ℚ
  | .n16 => Q16.FAC fl
  | .n64 => Q64.FAC fl
  | .n256 => Q256.FAC fl
  | .n1024 => Q1024.FAC fl

def AMP (fl : ℚ → ℚ) : Order → ℚ
  | .n16 => Q16.AMP fl
  | .n64 => Q64.AMP fl
  | .n256 => Q256.AMP fl
  | .n1024 => Q1024.AMP fl

def DIST (fl : ℚ → ℚ) : Order → ℚ
  | .n16 => Q16.DIST fl
  | .n64 => Q64.DIST fl
  | .n256 => Q256.DIST fl
  | .n1024 => Q1024.DIST fl

def amp (fl : ℚ → ℚ) : Order → ℤ → ℚ
  | .n16 => Q16.amp fl
  | .n64 => Q64.amp fl
  | .n256 => Q256.amp fl
  | .n1024 => Q1024.amp fl

def quantize (fl : ℚ → ℚ) : Order → CodeKind → ℚ → ℚ → ℚ
  | .n16 => Q16.quantize fl
  | .n64 => Q64.quantize fl
  | .n256 => Q256.quantize fl
  | .n1024 => Q1024.quantize fl

def hard (fl : ℚ → ℚ) : Order → Buffer → complex_type → ℤ → Buffer
  | .n16 => Q16.hard fl
  | .n64 => Q64.hard fl
  | .n256 => Q256.hard fl
  | .n1024 => Q1024.hard fl

def soft (fl : ℚ → ℚ) : Order → CodeKind → Buffer → complex_type → ℚ → ℤ → Buffer
  | .n16 => Q16.soft fl
  | .n64 => Q64.soft fl
  | .n256 => Q256.soft fl
  | .n1024 => Q1024.soft fl

def map (fl : ℚ → ℚ) : Order → Buffer → ℤ → complex_type
  | .n16 => Q16.map fl
  | .n64 => Q64.map fl
  | .n256 => Q256.map fl
  | .n1024 => Q1024.map fl

end Rounded

end QAM

/-! # Properties -/

namespace QAM

/-! ## Stores -/

theorem storeFrom_other (s : ℤ) (vs : List ℚ) : ∀ (b : Buffer) (k j : ℤ),
    (∀ i : ℕ, i < vs.length → j ≠ (k + i) * s) → storeFrom b s k vs j = b j := by
  induction vs with
  | nil => intro b k j _; rfl
  | cons v vs ih =>
    intro b k j h
    have h0 : j ≠ k * s := by simpa using h 0 (by simp)
    rw [storeFrom, ih _ _ _ (fun i hi => ?_), Function.update_noteq h0]
    have := h (i + 1) (by simpa using hi)
    push_cast at this
    rwa [add_assoc, add_comm (1 : ℤ)]

theorem storeFrom_at (s : ℤ) (hs : s ≠ 0) (vs : List ℚ) : ∀ (b : Buffer) (k : ℤ) (i : ℕ),
    i < vs.length → storeFrom b s k vs ((k + i) * s) = vs.getD i 0 := by
  induction vs with
  | nil => intro b k i hi; simp at hi
  | cons v vs ih =>
    intro b k i hi
    cases i with
    | zero =>
      rw [storeFrom, storeFrom_other]
      · have e : (k + ((0 : ℕ) : ℤ)) * s = k * s := by simp
        rw [e, Function.update_same]
        rfl
      · intro i _ h
        have := mul_right_cancel₀ hs h
        push_cast at this
        omega
    | succ i =>
      have := ih (Function.update b (k * s) v) (k + 1) i (by simpa using hi)
      rw [storeFrom]
      push_cast
      rw [show k + ((i : ℤ) + 1) = k + 1 + i by ring, this]
      simp

theorem hard_eq_storeFrom (o : Order) (b : Buffer) (c : complex_type) (s : ℤ) :
    hard o b c s = storeFrom b s 0 (hardCodes o c) := by
  cases o <;> rfl

theorem soft_eq_storeFrom (o : Order) (k : CodeKind) (b : Buffer) (c : complex_type)
    (p : ℚ) (s : ℤ) :
    soft o k b c p s = storeFrom b s 0 (softCodes o k c p) := by
  cases o <;> rfl

/-! ## The amplitude is positive -/

theorem AMP_pos_16 : 0 < Q16.AMP := by norm_num [Q16.AMP, Q16.RCP, Q16.FAC]

theorem AMP_pos_64 : 0 < Q64.AMP := by norm_num [Q64.AMP, Q64.RCP, Q64.FAC]

theorem AMP_pos_256 : 0 < Q256.AMP := by norm_num [Q256.AMP, Q256.RCP, Q256.FAC]

theorem AMP_pos_1024 : 0 < Q1024.AMP := by norm_num [Q1024.AMP, Q1024.RCP, Q1024.FAC]

theorem AMP_pos (o : Order) : 0 < o.AMP := by
  cases o
  · exact AMP_pos_16
  · exact AMP_pos_64
  · exact AMP_pos_256
  · exact AMP_pos_1024

theorem abs_scale {A : ℚ} (hA : 0 < A) (u : ℚ) : |A * u| = A * |u| := by
  rw [abs_mul, abs_of_pos hA]

/-! ## Round trip -/

theorem axis16 {A : ℚ} (hA : 0 < A) {b0 b2 : ℚ}
    (h0 : b0 = -1 ∨ b0 = 1) (h2 : b2 = -1 ∨ b2 = 1) :
    (if A * (b0 * (b2 + 2)) < A * 0 then (-1 : ℚ) else 1) = b0 ∧
    (if abs (A * (b0 * (b2 + 2))) < A * 2
      then (-1 : ℚ) else 1) = b2 := by
  rcases h0 with rfl | rfl <;>
  rcases h2 with rfl | rfl <;>
    simp only [abs_scale hA, ← mul_sub, mul_lt_mul_left hA] <;> norm_num

theorem axis64 {A : ℚ} (hA : 0 < A) {b0 b2 b4 : ℚ}
    (h0 : b0 = -1 ∨ b0 = 1) (h2 : b2 = -1 ∨ b2 = 1) (h4 : b4 = -1 ∨ b4 = 1) :
    (if A * (b0 * (b2 * (b4 + 2) + 4)) < A * 0 then (-1 : ℚ) else 1) = b0 ∧
    (if abs (A * (b0 * (b2 * (b4 + 2) + 4))) < A * 4
      then (-1 : ℚ) else 1) = b2 ∧
    (if abs (abs (A * (b0 * (b2 * (b4 + 2) + 4))) - A * 4) < A * 2
      then (-1 : ℚ) else 1) = b4 := by
  rcases h0 with rfl | rfl <;>
  rcases h2 with rfl | rfl <;>
  rcases h4 with rfl | rfl <;>
    simp only [abs_scale hA, ← mul_sub, mul_lt_mul_left hA] <;> norm_num

theorem axis256 {A : ℚ} (hA : 0 < A) {b0 b2 b4 b6 : ℚ}
    (h0 : b0 = -1 ∨ b0 = 1) (h2 : b2 = -1 ∨ b2 = 1) (h4 : b4 = -1 ∨ b4 = 1) (h6 : b6 = -1 ∨ b6 = 1) :
    (if A * (b0 * (b2 * (b4 * (b6 + 2) + 4) + 8)) < A * 0 then (-1 : ℚ) else 1) = b0 ∧
    (if abs (A * (b0 * (b2 * (b4 * (b6 + 2) + 4) + 8))) < A * 8
      then (-1 : ℚ) else 1) = b2 ∧
    (if abs (abs (A * (b0 * (b2 * (b4 * (b6 + 2) + 4) + 8))) - A * 8) < A * 4
      then (-1 : ℚ) else 1) = b4 ∧
    (if abs (abs (abs (A * (b0 * (b2 * (b4 * (b6 + 2) + 4) + 8))) - A * 8) - A * 4) < A * 2
      then (-1 : ℚ) else 1) = b6 := by
  rcases h0 with rfl | rfl <;>
  rcases h2 with rfl | rfl <;>
  rcases h4 with rfl | rfl <;>
  rcases h6 with rfl | rfl <;>
    simp only [abs_scale hA, ← mul_sub, mul_lt_mul_left hA] <;> norm_num

theorem axis1024 {A : ℚ} (hA : 0 < A) {b0 b2 b4 b6 b8 : ℚ}
    (h0 : b0 = -1 ∨ b0 = 1) (h2 : b2 = -1 ∨ b2 = 1) (h4 : b4 = -1 ∨ b4 = 1) (h6 : b6 = -1 ∨ b6 = 1) (h8 : b8 = -1 ∨ b8 = 1) :
    (if A * (b0 * (b2 * (b4 * (b6 * (b8 + 2) + 4) + 8) + 16)) < A * 0 then (-1 : ℚ) else 1) = b0 ∧
    (if abs (A * (b0 * (b2 * (b4 * (b6 * (b8 + 2) + 4) + 8) + 16))) < A * 16
      then (-1 : ℚ) else 1) = b2 ∧
    (if abs (abs (A * (b0 * (b2 * (b4 * (b6 * (b8 + 2) + 4) + 8) + 16))) - A * 16) < A * 8
      then (-1 : ℚ) else 1) = b4 ∧
    (if abs (abs (abs (A * (b0 * (b2 * (b4 * (b6 * (b8 + 2) + 4) + 8) + 16))) - A * 16) - A * 8) < A * 4
      then (-1 : ℚ) else 1) = b6 ∧
    (if abs (abs (abs (abs (A * (b0 * (b2 * (b4 * (b6 * (b8 + 2) + 4) + 8) + 16))) - A * 16) - A * 8) - A * 4) < A * 2
      then (-1 : ℚ) else 1) = b8 := by
  rcases h0 with rfl | rfl <;>
  rcases h2 with rfl | rfl <;>
  rcases h4 with rfl | rfl <;>
  rcases h6 with rfl | rfl <;>
  rcases h8 with rfl | rfl <;>
    simp only [abs_scale hA, ← mul_sub, mul_lt_mul_left hA] <;> norm_num

theorem round_trip_16 (b out : Buffer)
    (hb : ∀ i : ℤ, 0 ≤ i → i < 4 → (b i = -1 ∨ b i = 1)) :
    ∀ i : ℤ, 0 ≤ i → i < 4 → Q16.hard out (Q16.map b 1) 1 i = b i := by
  intro i h0 h1
  have a0 := hb 0 (by norm_num) (by norm_num)
  have a1 := hb 1 (by norm_num) (by norm_num)
  have a2 := hb 2 (by norm_num) (by norm_num)
  have a3 := hb 3 (by norm_num) (by norm_num)
  obtain ⟨x0, x2⟩ := axis16 AMP_pos_16 a0 a2
  obtain ⟨x1, x3⟩ := axis16 AMP_pos_16 a1 a3
  interval_cases i
  · simpa [Q16.hard, Q16.map, complex_type.scale, Q16.amp, Function.update_apply]
      using x0
  · simpa [Q16.hard, Q16.map, complex_type.scale, Q16.amp, Function.update_apply]
      using x1
  · simpa [Q16.hard, Q16.map, complex_type.scale, Q16.amp, Function.update_apply]
      using x2
  · simpa [Q16.hard, Q16.map, complex_type.scale, Q16.amp, Function.update_apply]
      using x3

theorem round_trip_64 (b out : Buffer)
    (hb : ∀ i : ℤ, 0 ≤ i → i < 6 → (b i = -1 ∨ b i = 1)) :
    ∀ i : ℤ, 0 ≤ i → i < 6 → Q64.hard out (Q64.map b 1) 1 i = b i := by
  intro i h0 h1
  have a0 := hb 0 (by norm_num) (by norm_num)
  have a1 := hb 1 (by norm_num) (by norm_num)
  have a2 := hb 2 (by norm_num) (by norm_num)
  have a3 := hb 3 (by norm_num) (by norm_num)
  have a4 := hb 4 (by norm_num) (by norm_num)
  have a5 := hb 5 (by norm_num) (by norm_num)
  obtain ⟨x0, x2, x4⟩ := axis64 AMP_pos_64 a0 a2 a4
  obtain ⟨x1, x3, x5⟩ := axis64 AMP_pos_64 a1 a3 a5
  interval_cases i
  · simpa [Q64.hard, Q64.map, complex_type.scale, Q64.amp, Function.update_apply]
      using x0
  · simpa [Q64.hard, Q64.map, complex_type.scale, Q64.amp, Function.update_apply]
      using x1
  · simpa [Q64.hard, Q64.map, complex_type.scale, Q64.amp, Function.update_apply]
      using x2
  · simpa [Q64.hard, Q64.map, complex_type.scale, Q64.amp, Function.update_apply]
      using x3
  · simpa [Q64.hard, Q64.map, complex_type.scale, Q64.amp, Function.update_apply]
      using x4
  · simpa [Q64.hard, Q64.map, complex_type.scale, Q64.amp, Function.update_apply]
      using x5

theorem round_trip_256 (b out : Buffer)
    (hb : ∀ i : ℤ, 0 ≤ i → i < 8 → (b i = -1 ∨ b i = 1)) :
    ∀ i : ℤ, 0 ≤ i → i < 8 → Q256.hard out (Q256.map b 1) 1 i = b i := by
  intro i h0 h1
  have a0 := hb 0 (by norm_num) (by norm_num)
  have a1 := hb 1 (by norm_num) (by norm_num)
  have a2 := hb 2 (by norm_num) (by norm_num)
  have a3 := hb 3 (by norm_num) (by norm_num)
  have a4 := hb 4 (by norm_num) (by norm_num)
  have a5 := hb 5 (by norm_num) (by norm_num)
  have a6 := hb 6 (by norm_num) (by norm_num)
  have a7 := hb 7 (by norm_num) (by norm_num)
  obtain ⟨x0, x2, x4, x6⟩ := axis256 AMP_pos_256 a0 a2 a4 a6
  obtain ⟨x1, x3, x5, x7⟩ := axis256 AMP_pos_256 a1 a3 a5 a7
  interval_cases i
  · simpa [Q256.hard, Q256.map, complex_type.scale, Q256.amp, Function.update_apply]
      using x0
  · simpa [Q256.hard, Q256.map, complex_type.scale, Q256.amp, Function.update_apply]
      using x1
  · simpa [Q256.hard, Q256.map, complex_type.scale, Q256.amp, Function.update_apply]
      using x2
  · simpa [Q256.hard, Q256.map, complex_type.scale, Q256.amp, Function.update_apply]
      using x3
  · simpa [Q256.hard, Q256.map, complex_type.scale, Q256.amp, Function.update_apply]
      using x4
  · simpa [Q256.hard, Q256.map, complex_type.scale, Q256.amp, Function.update_apply]
      using x5
  · simpa [Q256.hard, Q256.map, complex_type.scale, Q256.amp, Function.update_apply]
      using x6
  · simpa [Q256.hard, Q256.map, complex_type.scale, Q256.amp, Function.update_apply]
      using x7

theorem round_trip_1024 (b out : Buffer)
    (hb : ∀ i : ℤ, 0 ≤ i → i < 10 → (b i = -1 ∨ b i = 1)) :
    ∀ i : ℤ, 0 ≤ i → i < 10 → Q1024.hard out (Q1024.map b 1) 1 i = b i := by
  intro i h0 h1
  have a0 := hb 0 (by norm_num) (by norm_num)
  have a1 := hb 1 (by norm_num) (by norm_num)
  have a2 := hb 2 (by norm_num) (by norm_num)
  have a3 := hb 3 (by norm_num) (by norm_num)
  have a4 := hb 4 (by norm_num) (by norm_num)
  have a5 := hb 5 (by norm_num) (by norm_num)
  have a6 := hb 6 (by norm_num) (by norm_num)
  have a7 := hb 7 (by norm_num) (by norm_num)
  have a8 := hb 8 (by norm_num) (by norm_num)
  have a9 := hb 9 (by norm_num) (by norm_num)
  obtain ⟨x0, x2, x4, x6, x8⟩ := axis1024 AMP_pos_1024 a0 a2 a4 a6 a8
  obtain ⟨x1, x3, x5, x7, x9⟩ := axis1024 AMP_pos_1024 a1 a3 a5 a7 a9
  interval_cases i
  · simpa [Q1024.hard, Q1024.map, complex_type.scale, Q1024.amp, Function.update_apply]
      using x0
  · simpa [Q1024.hard, Q1024.map, complex_type.scale, Q1024.amp, Function.update_apply]
      using x1
  · simpa [Q1024.hard, Q1024.map, complex_type.scale, Q1024.amp, Function.update_apply]
      using x2
  · simpa [Q1024.hard, Q1024.map, complex_type.scale, Q1024.amp, Function.update_apply]
      using x3
  · simpa [Q1024.hard, Q1024.map, complex_type.scale, Q1024.amp, Function.update_apply]
      using x4
  · simpa [Q1024.hard, Q1024.map, complex_type.scale, Q1024.amp, Function.update_apply]
      using x5
  · simpa [Q1024.hard, Q1024.map, complex_type.scale, Q1024.amp, Function.update_apply]
      using x6
  · simpa [Q1024.hard, Q1024.map, complex_type.scale, Q1024.amp, Function.update_apply]
      using x7
  · simpa [Q1024.hard, Q1024.map, complex_type.scale, Q1024.amp, Function.update_apply]
      using x8
  · simpa [Q1024.hard, Q1024.map, complex_type.scale, Q1024.amp, Function.update_apply]
      using x9

/-- C1: noiseless round trip.  For every order and every code word `b` whose first
`BITS` codes are bipolar, `hard` applied to `map b` stores, in each of the `BITS` slots,
the corresponding code of `b` (whatever the output buffer held before). -/
theorem hard_map_round_trip (o : Order) (b out : Buffer)
    (hb : ∀ i : ℤ, 0 ≤ i → i < o.BITS → (b i = -1 ∨ b i = 1)) :
    ∀ i : ℤ, 0 ≤ i → i < o.BITS → hard o out (map o b 1) 1 i = b i := by
  cases o
  · exact round_trip_16 b out hb
  · exact round_trip_64 b out hb
  · exact round_trip_256 b out hb
  · exact round_trip_1024 b out hb

theorem ofList_bipolar (l : List ℚ) (hl : ∀ x ∈ l, x = -1 ∨ x = 1) (n : ℤ)
    (hn : n = l.length) : ∀ i : ℤ, 0 ≤ i → i < n → (ofList l i = -1 ∨ ofList l i = 1) := by
  intro i h0 h1
  have hi : i.toNat < l.length := by omega
  simp only [ofList, h0, if_true, List.getD_eq_getElem _ _ hi]
  exact hl _ (List.getElem_mem _)

/-- Witness of C1: order 1024, the code word `[1,-1,-1,1,1,-1,1,1,-1,-1]`, slot 8. -/
theorem hard_map_round_trip_witness :
    hard .n1024 (fun _ => 0) (map .n1024 (ofList [1, -1, -1, 1, 1, -1, 1, 1, -1, -1]) 1) 1 8
      = -1 :=
  hard_map_round_trip .n1024 (ofList [1, -1, -1, 1, 1, -1, 1, 1, -1, -1]) (fun _ => 0)
    (ofList_bipolar _ (by simp) _ rfl) 8 (by decide) (by decide)


/-! ## The enumeration of the code words -/

theorem mem_codeWords (n : ℕ) : ∀ w : List ℚ,
    w ∈ codeWords n ↔ w.length = n ∧ ∀ x ∈ w, x = -1 ∨ x = 1 := by
  induction n with
  | zero =>
    intro w
    simp only [codeWords, List.mem_singleton, List.length_eq_zero]
    constructor
    · rintro rfl
      simp
    · exact fun h => h.1
  | succ n ih =>
    intro w
    simp only [codeWords, List.mem_append, List.mem_map]
    constructor
    · rintro (⟨v, hv, rfl⟩ | ⟨v, hv, rfl⟩)
      · obtain ⟨h1, h2⟩ := (ih v).mp hv
        refine ⟨by simp [h1], ?_⟩
        intro x hx
        rcases List.mem_cons.mp hx with rfl | hx
        · exact Or.inl rfl
        · exact h2 x hx
      · obtain ⟨h1, h2⟩ := (ih v).mp hv
        refine ⟨by simp [h1], ?_⟩
        intro x hx
        rcases List.mem_cons.mp hx with rfl | hx
        · exact Or.inr rfl
        · exact h2 x hx
    · rintro ⟨h1, h2⟩
      cases w with
      | nil => simp at h1
      | cons x v =>
        have hv : v ∈ codeWords n :=
          (ih v).mpr ⟨by simpa using h1, fun y hy => h2 y (List.mem_cons_of_mem _ hy)⟩
        rcases h2 x (List.mem_cons_self _ _) with rfl | rfl
        · exact Or.inl ⟨v, hv, rfl⟩
        · exact Or.inr ⟨v, hv, rfl⟩

theorem codeWords_length (n : ℕ) : (codeWords n).length = 2 ^ n := by
  induction n with
  | zero => rfl
  | succ n ih =>
    simp only [codeWords, List.length_append, List.length_map, ih]
    ring

theorem codeWords_nodup (n : ℕ) : (codeWords n).Nodup := by
  induction n with
  | zero => simp [codeWords]
  | succ n ih =>
    simp only [codeWords]
    refine List.Nodup.append ?_ ?_ ?_
    · exact ih.map (fun a b h => List.tail_eq_of_cons_eq h)
    · exact ih.map (fun a b h => List.tail_eq_of_cons_eq h)
    · intro w h1 h2
      simp only [List.mem_map] at h1 h2
      obtain ⟨a, _, rfl⟩ := h1
      obtain ⟨b, _, hb⟩ := h2
      have := List.head_eq_of_cons_eq hb
      norm_num at this

/-! ## Energy normalisation -/

theorem codeWords_eq_cast (n : ℕ) :
    codeWords n = (codeWordsZ n).map (List.map (Int.cast : ℤ → ℚ)) := by
  induction n with
  | zero => rfl
  | succ n ih =>
    simp only [codeWords, codeWordsZ, ih, List.map_append, List.map_map]
    congr 1

theorem length_of_mem_codeWordsZ (n : ℕ) : ∀ w ∈ codeWordsZ n, w.length = n := by
  induction n with
  | zero => intro w hw; simp [codeWordsZ] at hw; simp [hw]
  | succ n ih =>
    intro w hw
    simp only [codeWordsZ, List.mem_append, List.mem_map] at hw
    rcases hw with ⟨v, hv, rfl⟩ | ⟨v, hv, rfl⟩ <;> simp [ih v hv]

theorem normSq_map_cast (o : Order) (w : List ℤ) (hw : w.length = o.BITS.toNat) :
    (map o (ofList (w.map (Int.cast : ℤ → ℚ))) 1).normSq = o.AMP ^ 2 * (levelSq o w : ℚ) := by
  have t2 : Int.toNat 2 = 2 := rfl
  have t3 : Int.toNat 3 = 3 := rfl
  have t4 : Int.toNat 4 = 4 := rfl
  have t5 : Int.toNat 5 = 5 := rfl
  have t6 : Int.toNat 6 = 6 := rfl
  have t7 : Int.toNat 7 = 7 := rfl
  have t8 : Int.toNat 8 = 8 := rfl
  have t9 : Int.toNat 9 = 9 := rfl
  cases o
  · have hw : w.length = 4 := hw
    rcases w with _ | ⟨b0, _ | ⟨b1, _ | ⟨b2, _ | ⟨b3, w⟩⟩⟩⟩ <;>
      simp only [List.length_cons, List.length_nil] at hw <;> try omega
    rw [List.length_eq_zero.mp (by omega : w.length = 0)]
    simp only [map, Q16.map, complex_type.scale, complex_type.normSq, levelSq, Order.AMP,
      ofList, List.map_cons, List.map_nil]
    norm_num [t2, t3, t4, t5, t6, t7, t8, t9]
    ring
  · have hw : w.length = 6 := hw
    rcases w with _ | ⟨b0, _ | ⟨b1, _ | ⟨b2, _ | ⟨b3, _ | ⟨b4, _ | ⟨b5, w⟩⟩⟩⟩⟩⟩ <;>
      simp only [List.length_cons, List.length_nil] at hw <;> try omega
    rw [List.length_eq_zero.mp (by omega : w.length = 0)]
    simp only [map, Q64.map, complex_type.scale, complex_type.normSq, levelSq, Order.AMP,
      ofList, List.map_cons, List.map_nil]
    norm_num [t2, t3, t4, t5, t6, t7, t8, t9]
    ring
  · have hw : w.length = 8 := hw
    rcases w with _ | ⟨b0, _ | ⟨b1, _ | ⟨b2, _ | ⟨b3, _ | ⟨b4, _ | ⟨b5, _ | ⟨b6, _ | ⟨b7, w⟩⟩⟩⟩⟩⟩⟩⟩ <;>
      simp only [List.length_cons, List.length_nil] at hw <;> try omega
    rw [List.length_eq_zero.mp (by omega : w.length = 0)]
    simp only [map, Q256.map, complex_type.scale, complex_type.normSq, levelSq, Order.AMP,
      ofList, List.map_cons, List.map_nil]
    norm_num [t2, t3, t4, t5, t6, t7, t8, t9]
    ring
  · have hw : w.length = 10 := hw
    rcases w with _ | ⟨b0, _ | ⟨b1, _ | ⟨b2, _ | ⟨b3, _ | ⟨b4, _ | ⟨b5, _ | ⟨b6, _ | ⟨b7, _ | ⟨b8, _ | ⟨b9, w⟩⟩⟩⟩⟩⟩⟩⟩⟩⟩ <;>
      simp only [List.length_cons, List.length_nil] at hw <;> try omega
    rw [List.length_eq_zero.mp (by omega : w.length = 0)]
    simp only [map, Q1024.map, complex_type.scale, complex_type.normSq, levelSq, Order.AMP,
      ofList, List.map_cons, List.map_nil]
    norm_num [t2, t3, t4, t5, t6, t7, t8, t9]
    ring

theorem sum_scaled_cast (a : ℚ) (g : List ℤ → ℤ) (l : List (List ℤ)) :
    (l.map (fun w => a * (g w : ℚ))).sum = a * (((l.map g).sum : ℤ) : ℚ) := by
  induction l with
  | nil => simp
  | cons w l ih => simp [ih, mul_add]

theorem meanEnergy_eq (o : Order) :
    meanEnergy o =
      o.AMP ^ 2 * ((((codeWordsZ o.BITS.toNat).map (levelSq o)).sum : ℤ) : ℚ) /
        (2 ^ o.BITS.toNat : ℚ) := by
  rw [meanEnergy, codeWords_eq_cast, List.map_map, ← sum_scaled_cast]
  congr 2
  apply List.map_congr_left
  intro w hw
  exact normSq_map_cast o w (length_of_mem_codeWordsZ _ w hw)

theorem levelSq_sum_16 : ((codeWordsZ 4).map (levelSq .n16)).sum = 160 := by decide!

theorem levelSq_sum_64 : ((codeWordsZ 6).map (levelSq .n64)).sum = 2688 := by decide!

theorem levelSq_sum_256 : ((codeWordsZ 8).map (levelSq .n256)).sum = 43520 := by decide!

theorem levelSq_sum_1024 : ((codeWordsZ 10).map (levelSq .n1024)).sum = 698368 := by decide!

theorem levelSq_sum (o : Order) :
    ((codeWordsZ o.BITS.toNat).map (levelSq o)).sum =
      match o with
      | .n16 => 160
      | .n64 => 2688
      | .n256 => 43520
      | .n1024 => 698368 := by
  cases o
  · exact levelSq_sum_16
  · exact levelSq_sum_64
  · exact levelSq_sum_256
  · exact levelSq_sum_1024

/-- C2: energy normalisation.  With `FAC` the decimal constant of the source and
`AMP = 1/((√N - 1) * FAC)`, the mean of `|map b|²` over all `2 ^ BITS` code words
differs from `1` by at most `10⁻⁹`, for each of the four orders. -/
theorem mean_energy_normalized (o : Order) :
    o.AMP = 1 / (((Nat.sqrt o.NUM : ℕ) - 1 : ℚ) * o.FAC) ∧
      |meanEnergy o - 1| ≤ 1 / 10 ^ 9 := by
  refine ⟨?_, ?_⟩
  · cases o
    · have : Nat.sqrt Q16.NUM = 4 := Nat.sqrt_eq 4
      simp only [Order.AMP, Q16.AMP, Q16.RCP, Order.FAC, Order.NUM, this]
      norm_num
    · have : Nat.sqrt Q64.NUM = 8 := Nat.sqrt_eq 8
      simp only [Order.AMP, Q64.AMP, Q64.RCP, Order.FAC, Order.NUM, this]
      norm_num
    · have : Nat.sqrt Q256.NUM = 16 := Nat.sqrt_eq 16
      simp only [Order.AMP, Q256.AMP, Q256.RCP, Order.FAC, Order.NUM, this]
      norm_num
    · have : Nat.sqrt Q1024.NUM = 32 := Nat.sqrt_eq 32
      simp only [Order.AMP, Q1024.AMP, Q1024.RCP, Order.FAC, Order.NUM, this]
      norm_num
  · rw [meanEnergy_eq, levelSq_sum, abs_le]
    cases o
    · norm_num [Order.AMP, Q16.AMP, Q16.RCP, Q16.FAC, Order.BITS, Q16.BITS,
      show Int.toNat 4 = 4 from rfl]
    · norm_num [Order.AMP, Q64.AMP, Q64.RCP, Q64.FAC, Order.BITS, Q64.BITS,
      show Int.toNat 6 = 6 from rfl]
    · norm_num [Order.AMP, Q256.AMP, Q256.RCP, Q256.FAC, Order.BITS, Q256.BITS,
      show Int.toNat 8 = 8 from rfl]
    · norm_num [Order.AMP, Q1024.AMP, Q1024.RCP, Q1024.FAC, Order.BITS, Q1024.BITS,
      show Int.toNat 10 = 10 from rfl]


/-! ## The mapper -/

/-- C3: `map` computes the nested formula on each axis.  For every buffer `b` (read at
the slots `i * s`), the real part is `AMP*b0*(b2+2)` for order 16, `AMP*b0*(b2*(b4+2)+4)`
for order 64, `AMP*b0*(b2*(b4*(b6+2)+4)+8)` for order 256 and
`AMP*b0*(b2*(b4*(b6*(b8+2)+4)+8)+16)` for order 1024, and the imaginary part is the same
expression in the odd-indexed codes; for order 64 the real part of `map [1,1,1,1,1,1]` is
`AMP * 7` with `AMP = 1/(7 * 0.9258200997725516)`. -/
theorem map_nested_formula (b : Buffer) (s : ℤ) :
    ((map .n16 b s).real =
        Order.n16.AMP * b (0 * s) * (b (2 * s) + 2) ∧
      (map .n16 b s).imag =
        Order.n16.AMP * b (1 * s) * (b (3 * s) + 2)) ∧
    ((map .n64 b s).real =
        Order.n64.AMP * b (0 * s) * (b (2 * s) * (b (4 * s) + 2) + 4) ∧
      (map .n64 b s).imag =
        Order.n64.AMP * b (1 * s) * (b (3 * s) * (b (5 * s) + 2) + 4)) ∧
    ((map .n256 b s).real =
        Order.n256.AMP * b (0 * s) * (b (2 * s) * (b (4 * s) * (b (6 * s) + 2) + 4) + 8) ∧
      (map .n256 b s).imag =
        Order.n256.AMP * b (1 * s) * (b (3 * s) * (b (5 * s) * (b (7 * s) + 2) + 4) + 8)) ∧
    ((map .n1024 b s).real =
        Order.n1024.AMP * b (0 * s) * (b (2 * s) * (b (4 * s) * (b (6 * s) * (b (8 * s) + 2) + 4) + 8) + 16) ∧
      (map .n1024 b s).imag =
        Order.n1024.AMP * b (1 * s) * (b (3 * s) * (b (5 * s) * (b (7 * s) * (b (9 * s) + 2) + 4) + 8) + 16)) ∧
    ((map .n64 (ofList [1, 1, 1, 1, 1, 1]) 1).real = Order.n64.AMP * 7 ∧
      Order.n64.AMP = 1 / (7 * 0.9258200997725516)) := by
  refine ⟨⟨?_, ?_⟩, ⟨?_, ?_⟩, ⟨?_, ?_⟩, ⟨?_, ?_⟩, ⟨?_, ?_⟩⟩
  · simp only [map, Q16.map, complex_type.scale, Order.AMP]; ring
  · simp only [map, Q16.map, complex_type.scale, Order.AMP]; ring
  · simp only [map, Q64.map, complex_type.scale, Order.AMP]; ring
  · simp only [map, Q64.map, complex_type.scale, Order.AMP]; ring
  · simp only [map, Q256.map, complex_type.scale, Order.AMP]; ring
  · simp only [map, Q256.map, complex_type.scale, Order.AMP]; ring
  · simp only [map, Q1024.map, complex_type.scale, Order.AMP]; ring
  · simp only [map, Q1024.map, complex_type.scale, Order.AMP]; ring
  · have t2 : Int.toNat 2 = 2 := rfl
    have t4 : Int.toNat 4 = 4 := rfl
    simp only [map, Q64.map, complex_type.scale, Order.AMP, ofList]
    norm_num [t2, t4]
  · simp only [Order.AMP, Q64.AMP, Q64.RCP, Q64.FAC]

/-! ## Frame of `hard` -/

theorem hardCodes_length (o : Order) (c : complex_type) :
    (hardCodes o c).length = o.BITS.toNat := by
  simp [hardCodes]

theorem softCodes_length (o : Order) (k : CodeKind) (c : complex_type) (p : ℚ) :
    (softCodes o k c p).length = o.BITS.toNat := by
  simp [softCodes]

theorem hard_slot (o : Order) (b : Buffer) (c : complex_type) (s : ℤ) (hs : s ≠ 0)
    (i : ℤ) (h0 : 0 ≤ i) (h1 : i < o.BITS) :
    hard o b c s (i * s) = (hardCodes o c).getD i.toNat 0 := by
  have hi : i.toNat < (hardCodes o c).length := by rw [hardCodes_length]; omega
  have := storeFrom_at s hs (hardCodes o c) b 0 i.toNat hi
  rw [zero_add, Int.toNat_of_nonneg h0] at this
  rw [hard_eq_storeFrom, this]

theorem soft_slot (o : Order) (k : CodeKind) (b : Buffer) (c : complex_type) (p : ℚ)
    (s : ℤ) (hs : s ≠ 0) (i : ℤ) (h0 : 0 ≤ i) (h1 : i < o.BITS) :
    soft o k b c p s (i * s) = (softCodes o k c p).getD i.toNat 0 := by
  have hi : i.toNat < (softCodes o k c p).length := by rw [softCodes_length]; omega
  have := storeFrom_at s hs (softCodes o k c p) b 0 i.toNat hi
  rw [zero_add, Int.toNat_of_nonneg h0] at this
  rw [soft_eq_storeFrom, this]

theorem hard_other (o : Order) (b : Buffer) (c : complex_type) (s : ℤ) (j : ℤ)
    (hj : ∀ i : ℤ, 0 ≤ i → i < o.BITS → j ≠ i * s) : hard o b c s j = b j := by
  rw [hard_eq_storeFrom]
  apply storeFrom_other
  intro i hi
  rw [hardCodes_length] at hi
  rw [zero_add]
  exact hj i (Int.natCast_nonneg i) (by omega)

theorem soft_other (o : Order) (k : CodeKind) (b : Buffer) (c : complex_type) (p : ℚ)
    (s : ℤ) (j : ℤ) (hj : ∀ i : ℤ, 0 ≤ i → i < o.BITS → j ≠ i * s) :
    soft o k b c p s j = b j := by
  rw [soft_eq_storeFrom]
  apply storeFrom_other
  intro i hi
  rw [softCodes_length] at hi
  rw [zero_add]
  exact hj i (Int.natCast_nonneg i) (by omega)

theorem hard_one_bipolar (o : Order) (b : Buffer) (c : complex_type) (i : ℤ) (h0 : 0 ≤ i)
    (h1 : i < o.BITS) : hard o b c 1 i = -1 ∨ hard o b c 1 i = 1 := by
  cases o
  · have h1 : i < 4 := h1
    interval_cases i <;> simp only [hard, Q16.hard, Function.update_apply] <;>
      norm_num <;> exact lt_or_le _ _
  · have h1 : i < 6 := h1
    interval_cases i <;> simp only [hard, Q64.hard, Function.update_apply] <;>
      norm_num <;> exact lt_or_le _ _
  · have h1 : i < 8 := h1
    interval_cases i <;> simp only [hard, Q256.hard, Function.update_apply] <;>
      norm_num <;> exact lt_or_le _ _
  · have h1 : i < 10 := h1
    interval_cases i <;> simp only [hard, Q1024.hard, Function.update_apply] <;>
      norm_num <;> exact lt_or_le _ _

/-- C4: frame and range of `hard`.  For every order, symbol, stride `s ≥ 1` and initial
buffer, `hard` stores a code `-1` or `+1` in each of the `BITS` slots `i * s`
(`0 ≤ i < BITS`), that code being the one a stride-1 call stores in slot `i`, and leaves
every other slot as it was. -/
theorem hard_frame (o : Order) (buf buf' : Buffer) (c : complex_type) (s : ℤ)
    (hs : 1 ≤ s) :
    (∀ i : ℤ, 0 ≤ i → i < o.BITS →
        (hard o buf c s (i * s) = -1 ∨ hard o buf c s (i * s) = 1) ∧
          hard o buf c s (i * s) = hard o buf' c 1 i) ∧
      (∀ j : ℤ, (∀ i : ℤ, 0 ≤ i → i < o.BITS → j ≠ i * s) → hard o buf c s j = buf j) := by
  refine ⟨fun i h0 h1 => ?_, fun j hj => hard_other o buf c s j hj⟩
  have e : hard o buf c s (i * s) = hard o buf' c 1 i := by
    have h := hard_slot o buf' c 1 one_ne_zero i h0 h1
    rw [mul_one] at h
    rw [hard_slot o buf c s (by omega) i h0 h1, h]
  exact ⟨e ▸ hard_one_bipolar o buf' c i h0 h1, e⟩

/-- Witness of C4: order 64, stride 3, a buffer filled with `7`: slot `4 * 3` holds the
code of position 4 and slot `5`, which is no multiple of `3`, keeps its `7`. -/
theorem hard_frame_witness :
    (1 : ℤ) ≤ 3 ∧
      hard .n64 (fun _ => 7) ⟨1 / 2, -1 / 10⟩ 3 (4 * 3)
        = hard .n64 (fun _ => 0) ⟨1 / 2, -1 / 10⟩ 1 4 ∧
      hard .n64 (fun _ => 7) ⟨1 / 2, -1 / 10⟩ 3 5 = 7 :=
  ⟨by decide,
    ((hard_frame .n64 (fun _ => 7) (fun _ => 0) ⟨1 / 2, -1 / 10⟩ 3 (by decide)).1 4
      (by decide) (by decide)).2,
    (hard_frame .n64 (fun _ => 7) (fun _ => 0) ⟨1 / 2, -1 / 10⟩ 3 (by decide)).2 5
      (fun i _ _ => by omega)⟩


/-! ## The codes stored by `hard` and `soft`, slot by slot -/

theorem hardCodes_16 (c : complex_type) :
    hardCodes .n16 c =
      [if c.real < Q16.amp 0 then -1 else 1,
       if c.imag < Q16.amp 0 then -1 else 1,
       if abs c.real < Q16.amp 2 then -1 else 1,
       if abs c.imag < Q16.amp 2 then -1 else 1] :=
  rfl

theorem softCodes_16 (k : CodeKind) (c : complex_type) (p : ℚ) :
    softCodes .n16 k c p =
      [Q16.quantize k p c.real,
       Q16.quantize k p c.imag,
       Q16.quantize k p (abs c.real - Q16.amp 2),
       Q16.quantize k p (abs c.imag - Q16.amp 2)] :=
  rfl

theorem hardCodes_64 (c : complex_type) :
    hardCodes .n64 c =
      [if c.real < Q64.amp 0 then -1 else 1,
       if c.imag < Q64.amp 0 then -1 else 1,
       if abs c.real < Q64.amp 4 then -1 else 1,
       if abs c.imag < Q64.amp 4 then -1 else 1,
       if abs (abs c.real - Q64.amp 4) < Q64.amp 2 then -1 else 1,
       if abs (abs c.imag - Q64.amp 4) < Q64.amp 2 then -1 else 1] :=
  rfl

theorem softCodes_64 (k : CodeKind) (c : complex_type) (p : ℚ) :
    softCodes .n64 k c p =
      [Q64.quantize k p c.real,
       Q64.quantize k p c.imag,
       Q64.quantize k p (abs c.real - Q64.amp 4),
       Q64.quantize k p (abs c.imag - Q64.amp 4),
       Q64.quantize k p (abs (abs c.real - Q64.amp 4) - Q64.amp 2),
       Q64.quantize k p (abs (abs c.imag - Q64.amp 4) - Q64.amp 2)] :=
  rfl

theorem hardCodes_256 (c : complex_type) :
    hardCodes .n256 c =
      [if c.real < Q256.amp 0 then -1 else 1,
       if c.imag < Q256.amp 0 then -1 else 1,
       if abs c.real < Q256.amp 8 then -1 else 1,
       if abs c.imag < Q256.amp 8 then -1 else 1,
       if abs (abs c.real - Q256.amp 8) < Q256.amp 4 then -1 else 1,
       if abs (abs c.imag - Q256.amp 8) < Q256.amp 4 then -1 else 1,
       if abs (abs (abs c.real - Q256.amp 8) - Q256.amp 4) < Q256.amp 2 then -1 else 1,
       if abs (abs (abs c.imag - Q256.amp 8) - Q256.amp 4) < Q256.amp 2 then -1 else 1] :=
  rfl

theorem softCodes_256 (k : CodeKind) (c : complex_type) (p : ℚ) :
    softCodes .n256 k c p =
      [Q256.quantize k p c.real,
       Q256.quantize k p c.imag,
       Q256.quantize k p (abs c.real - Q256.amp 8),
       Q256.quantize k p (abs c.imag - Q256.amp 8),
       Q256.quantize k p (abs (abs c.real - Q256.amp 8) - Q256.amp 4),
       Q256.quantize k p (abs (abs c.imag - Q256.amp 8) - Q256.amp 4),
       Q256.quantize k p (abs (abs (abs c.real - Q256.amp 8) - Q256.amp 4) - Q256.amp 2),
       Q256.quantize k p (abs (abs (abs c.imag - Q256.amp 8) - Q256.amp 4) - Q256.amp 2)] :=
  rfl

theorem hardCodes_1024 (c : complex_type) :
    hardCodes .n1024 c =
      [if c.real < Q1024.amp 0 then -1 else 1,
       if c.imag < Q1024.amp 0 then -1 else 1,
       if abs c.real < Q1024.amp 16 then -1 else 1,
       if abs c.imag < Q1024.amp 16 then -1 else 1,
       if abs (abs c.real - Q1024.amp 16) < Q1024.amp 8 then -1 else 1,
       if abs (abs c.imag - Q1024.amp 16) < Q1024.amp 8 then -1 else 1,
       if abs (abs (abs c.real - Q1024.amp 16) - Q1024.amp 8) < Q1024.amp 4 then -1 else 1,
       if abs (abs (abs c.imag - Q1024.amp 16) - Q1024.amp 8) < Q1024.amp 4 then -1 else 1,
       if abs (abs (abs (abs c.real - Q1024.amp 16) - Q1024.amp 8) - Q1024.amp 4) < Q1024.amp 2 then -1 else 1,
       if abs (abs (abs (abs c.imag - Q1024.amp 16) - Q1024.amp 8) - Q1024.amp 4) < Q1024.amp 2 then -1 else 1] :=
  rfl

theorem softCodes_1024 (k : CodeKind) (c : complex_type) (p : ℚ) :
    softCodes .n1024 k c p =
      [Q1024.quantize k p c.real,
       Q1024.quantize k p c.imag,
       Q1024.quantize k p (abs c.real - Q1024.amp 16),
       Q1024.quantize k p (abs c.imag - Q1024.amp 16),
       Q1024.quantize k p (abs (abs c.real - Q1024.amp 16) - Q1024.amp 8),
       Q1024.quantize k p (abs (abs c.imag - Q1024.amp 16) - Q1024.amp 8),
       Q1024.quantize k p (abs (abs (abs c.real - Q1024.amp 16) - Q1024.amp 8) - Q1024.amp 4),
       Q1024.quantize k p (abs (abs (abs c.imag - Q1024.amp 16) - Q1024.amp 8) - Q1024.amp 4),
       Q1024.quantize k p (abs (abs (abs (abs c.real - Q1024.amp 16) - Q1024.amp 8) - Q1024.amp 4) - Q1024.amp 2),
       Q1024.quantize k p (abs (abs (abs (abs c.imag - Q1024.amp 16) - Q1024.amp 8) - Q1024.amp 4) - Q1024.amp 2)] :=
  rfl

theorem hard_one (o : Order) (b : Buffer) (c : complex_type) (i : ℤ) (h0 : 0 ≤ i)
    (h1 : i < o.BITS) : hard o b c 1 i = (hardCodes o c).getD i.toNat 0 := by
  have h := hard_slot o b c 1 one_ne_zero i h0 h1
  rwa [mul_one] at h

theorem soft_one (o : Order) (k : CodeKind) (b : Buffer) (c : complex_type) (p : ℚ)
    (i : ℤ) (h0 : 0 ≤ i) (h1 : i < o.BITS) :
    soft o k b c p 1 i = (softCodes o k c p).getD i.toNat 0 := by
  have h := soft_slot o k b c p 1 one_ne_zero i h0 h1
  rwa [mul_one] at h


/-! ## Rounding and quantisation -/

theorem nearbyint_spec (x : ℚ) : ∃ n : ℤ, nearbyint x = n ∧ |(n : ℚ) - x| ≤ 1 / 2 := by
  have hf : ((⌊x⌋ : ℤ) : ℚ) ≤ x := Int.floor_le x
  have hlt : x < (⌊x⌋ : ℤ) + 1 := Int.lt_floor_add_one x
  unfold nearbyint
  simp only
  split_ifs with h1 h2 h3
  · exact ⟨⌊x⌋, rfl, by rw [abs_le]; constructor <;> linarith⟩
  · exact ⟨⌊x⌋ + 1, by push_cast; rfl, by rw [abs_le]; push_cast; constructor <;> linarith⟩
  · exact ⟨⌊x⌋, rfl, by rw [abs_le]; constructor <;> linarith⟩
  · exact ⟨⌊x⌋ + 1, by push_cast; rfl, by rw [abs_le]; push_cast; constructor <;> linarith⟩

theorem nearest_of_half {x : ℚ} {n : ℤ} (h : |(n : ℚ) - x| ≤ 1 / 2) (m : ℤ) :
    |(n : ℚ) - x| ≤ |(m : ℚ) - x| := by
  by_cases e : m = n
  · rw [e]
  · have h1 : (1 : ℚ) ≤ |(m : ℚ) - n| := by
      have : (1 : ℤ) ≤ |m - n| := Int.one_le_abs (sub_ne_zero.mpr e)
      exact_mod_cast this
    have h2 : |(m : ℚ) - n| ≤ |(m : ℚ) - x| + |(n : ℚ) - x| := by
      have := abs_sub_le (m : ℚ) x n
      rwa [abs_sub_comm x (n : ℚ)] at this
    linarith

theorem int_le_of_lt_add_one {n m : ℤ} (h : (n : ℚ) < m + 1) : n ≤ m := by
  have : n < m + 1 := by exact_mod_cast h
  omega

theorem clamp_int (n : ℤ) :
    ∃ r : ℤ, min (max (n : ℚ) (-128)) 127 = r ∧ -128 ≤ r ∧ r ≤ 127 := by
  refine ⟨min (max n (-128)) 127, by push_cast; rfl, ?_, ?_⟩
  · exact le_min (le_max_right _ _) (by norm_num)
  · exact min_le_right _ _

theorem nearbyint_zero : nearbyint 0 = 0 := by
  simp [nearbyint]

/-! ## The conversion to the code type -/

theorem truncate_intCast (n : ℤ) : truncate (n : ℚ) = n := by
  unfold truncate
  split_ifs <;> simp

theorem wrapInt_of_range (w : ℕ) (hw : 1 ≤ w) (n : ℤ) (h0 : -(2 ^ (w - 1)) ≤ n)
    (h1 : n ≤ 2 ^ (w - 1) - 1) : wrapInt w n = n := by
  unfold wrapInt
  have hpow : (2 : ℤ) ^ w = 2 * 2 ^ (w - 1) := by
    obtain ⟨m, rfl⟩ : ∃ m, w = m + 1 := ⟨w - 1, by omega⟩
    rw [Nat.add_sub_cancel, pow_succ]
    ring
  rw [Int.emod_eq_of_lt (by linarith) (by linarith)]
  ring

theorem width_pos (k : CodeKind) (hk : k.is_integral = true) : 1 ≤ k.width := by
  cases k
  · cases hk
  all_goals decide

/-- A representable integer is converted to itself. -/
theorem convert_of_fits (k : CodeKind) (n : ℤ) (h : k.fits n) : k.convert n = n := by
  unfold CodeKind.convert
  split_ifs with hk
  · obtain ⟨h0, h1⟩ := h hk
    have h0' : k.lowest ≤ n := by exact_mod_cast h0
    have h1' : n ≤ k.highest := by exact_mod_cast h1
    rw [truncate_intCast, wrapInt_of_range _ (width_pos k hk) _ h0' h1']
  · rfl

theorem convert_zero (k : CodeKind) : k.convert 0 = 0 := by
  have h := convert_of_fits k 0 (fun _ => by
    constructor
    · have : k.lowest ≤ 0 := by
        unfold CodeKind.lowest
        have : (0 : ℤ) < 2 ^ (k.width - 1) := by positivity
        linarith
      exact_mod_cast this
    · have : 0 ≤ k.highest := by
        unfold CodeKind.highest
        have : (1 : ℤ) ≤ 2 ^ (k.width - 1) := one_le_pow₀ (by norm_num)
        linarith
      exact_mod_cast this)
  simpa using h

/-! ## The value returned by `quantize` -/

/-- The value that `quantize` rounds and clamps. -/
theorem quantizeWith_floating (D p v : ℚ) : quantizeWith D .floating p v = v * (D * p) :=
  rfl

theorem quantizeWith_int8 (D p v : ℚ) :
    quantizeWith D .int8 p v = min (max (nearbyint (v * (D * p))) (-128)) 127 := by
  have e : quantizeWith D .int8 p v =
      CodeKind.int8.convert (min (max (nearbyint (v * (D * p))) (-128)) 127) := rfl
  obtain ⟨n, hn, -⟩ := nearbyint_spec (v * (D * p))
  obtain ⟨r, hr, h0, h1⟩ := clamp_int n
  rw [e, hn, hr]
  refine convert_of_fits _ _ (fun _ => ⟨?_, ?_⟩)
  · have : CodeKind.int8.lowest ≤ r := h0
    exact_mod_cast this
  · have : r ≤ CodeKind.int8.highest := h1
    exact_mod_cast this

theorem quantizeWith_wide (D p v : ℚ) (k : CodeKind) (hk : k.is_integral = true)
    (h8 : k.is_int8 = false) :
    quantizeWith D k p v = k.convert (nearbyint (v * (D * p))) := by
  cases k
  · cases hk
  · cases h8
  all_goals rfl

/-- An integral code type other than `int8_t` returns the rounded value when that value
is representable. -/
theorem quantizeWith_of_fits (D p v : ℚ) (k : CodeKind) (hk : k.is_integral = true)
    (h8 : k.is_int8 = false) (hfit : k.fits (nearbyint (v * (D * p)))) :
    quantizeWith D k p v = nearbyint (v * (D * p)) := by
  rw [quantizeWith_wide D p v k hk h8]
  obtain ⟨n, hn, -⟩ := nearbyint_spec (v * (D * p))
  rw [hn] at hfit ⊢
  exact convert_of_fits k n hfit

theorem quantizeWith_sign (D : ℚ) (hD : 0 < D) (k : CodeKind) (p : ℚ) (hp : 0 < p)
    (v : ℚ) (hfit : k.is_int8 = false → k.fits (nearbyint (v * (D * p)))) :
    (quantizeWith D k p v < 0 → v < 0) ∧ (0 < quantizeWith D k p v → 0 < v) ∧
      (k = .floating → (v < 0 → quantizeWith D k p v < 0)) := by
  have hDp : 0 < D * p := mul_pos hD hp
  obtain ⟨n, hn, hx⟩ := nearbyint_spec (v * (D * p))
  rw [abs_le] at hx
  have neg_of : (n : ℚ) < 0 → v < 0 := by
    intro h
    have : n ≤ -1 := int_le_of_lt_add_one (by push_cast; linarith)
    have : (n : ℚ) ≤ -1 := by exact_mod_cast this
    by_contra hv
    have : 0 ≤ v * (D * p) := mul_nonneg (not_lt.mp hv) hDp.le
    linarith
  have pos_of : (0 : ℚ) < n → 0 < v := by
    intro h
    have : (1 : ℤ) ≤ n := by
      have : (0 : ℤ) < n := by exact_mod_cast h
      omega
    have : (1 : ℚ) ≤ n := by exact_mod_cast this
    by_contra hv
    have : v * (D * p) ≤ 0 := mul_nonpos_of_nonpos_of_nonneg (not_lt.mp hv) hDp.le
    linarith
  have wide : k.is_integral = true → k.is_int8 = false →
      (quantizeWith D k p v < 0 → v < 0) ∧ (0 < quantizeWith D k p v → 0 < v) ∧
        (k = .floating → (v < 0 → quantizeWith D k p v < 0)) := by
    intro hk h8
    rw [quantizeWith_of_fits D p v k hk h8 (hfit h8), hn]
    exact ⟨neg_of, pos_of, fun h => by rw [h] at hk; cases hk⟩
  cases k
  · rw [quantizeWith_floating]
    refine ⟨fun h => ?_, fun h => ?_, fun _ h => mul_neg_of_neg_of_pos h hDp⟩
    · by_contra hv
      have : 0 ≤ v * (D * p) := mul_nonneg (not_lt.mp hv) hDp.le
      linarith
    · by_contra hv
      have : v * (D * p) ≤ 0 := mul_nonpos_of_nonpos_of_nonneg (not_lt.mp hv) hDp.le
      linarith
  · rw [quantizeWith_int8, hn]
    refine ⟨fun h => neg_of ?_, fun h => pos_of ?_, fun h => by cases h⟩
    · by_contra hn0
      have h0 : (0 : ℚ) ≤ n := not_lt.mp hn0
      have : (0 : ℚ) ≤ min (max (n : ℚ) (-128)) 127 :=
        le_min (le_max_of_le_left h0) (by norm_num)
      linarith
    · by_contra hn0
      have h0 : (n : ℚ) ≤ 0 := not_lt.mp hn0
      have : min (max (n : ℚ) (-128)) 127 ≤ 0 :=
        le_trans (min_le_left _ _) (max_le h0 (by norm_num))
      linarith
  · exact wide rfl rfl
  · exact wide rfl rfl
  · exact wide rfl rfl

theorem quantizeWith_zero (D : ℚ) (k : CodeKind) (v : ℚ) : quantizeWith D k 0 v = 0 := by
  cases k
  · rw [quantizeWith_floating]; ring
  · rw [quantizeWith_int8, mul_zero, mul_zero, nearbyint_zero]
    norm_num
  · rw [quantizeWith_wide D 0 v .int16 rfl rfl, mul_zero, mul_zero, nearbyint_zero]
    exact convert_zero _
  · rw [quantizeWith_wide D 0 v .int32 rfl rfl, mul_zero, mul_zero, nearbyint_zero]
    exact convert_zero _
  · rw [quantizeWith_wide D 0 v .int64 rfl rfl, mul_zero, mul_zero, nearbyint_zero]
    exact convert_zero _

/-! ## Soft codes and hard decisions -/

theorem DIST_pos_16 : 0 < Q16.DIST := mul_pos (by norm_num) AMP_pos_16

theorem DIST_pos_64 : 0 < Q64.DIST := mul_pos (by norm_num) AMP_pos_64

theorem DIST_pos_256 : 0 < Q256.DIST := mul_pos (by norm_num) AMP_pos_256

theorem DIST_pos_1024 : 0 < Q1024.DIST := mul_pos (by norm_num) AMP_pos_1024

theorem DIST_pos (o : Order) : 0 < o.DIST := by
  cases o
  · exact DIST_pos_16
  · exact DIST_pos_64
  · exact DIST_pos_256
  · exact DIST_pos_1024

theorem amp_zero_16 : Q16.amp 0 = 0 := by simp [Q16.amp]

theorem amp_zero_64 : Q64.amp 0 = 0 := by simp [Q64.amp]

theorem amp_zero_256 : Q256.amp 0 = 0 := by simp [Q256.amp]

theorem amp_zero_1024 : Q1024.amp 0 = 0 := by simp [Q1024.amp]

theorem sign_level {D : ℚ} (hD : 0 < D) (k : CodeKind) {p : ℚ} (hp : 0 < p) (v t : ℚ)
    (hfit : k.is_int8 = false → k.fits (nearbyint (quantizeWith D .floating p (v - t)))) :
    (quantizeWith D k p (v - t) < 0 → (if v < t then (-1 : ℚ) else 1) = -1) ∧
      (0 < quantizeWith D k p (v - t) → (if v < t then (-1 : ℚ) else 1) = 1) ∧
      (k = .floating →
        (quantizeWith D k p (v - t) < 0 ↔ (if v < t then (-1 : ℚ) else 1) = -1)) := by
  obtain ⟨h1, h2, h3⟩ := quantizeWith_sign D hD k p hp (v - t) hfit
  refine ⟨fun h => ?_, fun h => ?_, fun hk => ⟨fun h => ?_, fun h => ?_⟩⟩
  · rw [if_pos (by linarith [h1 h])]
  · rw [if_neg (by linarith [h2 h])]
  · rw [if_pos (by linarith [h1 h])]
  · apply h3 hk
    by_contra hv
    rw [if_neg (by linarith)] at h
    norm_num at h

/-- The distances that `soft` quantises and `hard` compares: slot by slot, a folded
residual and the threshold it is compared with. -/
theorem soft_hard_levels (o : Order) (c : complex_type) (p : ℚ) :
    ∃ ds : List (ℚ × ℚ),
      (∀ k, softCodes o k c p = ds.map (fun d => quantizeWith o.DIST k p (d.1 - d.2))) ∧
        hardCodes o c = ds.map (fun d => if d.1 < d.2 then (-1 : ℚ) else 1) := by
  cases o
  · refine ⟨[(c.real, 0), (c.imag, 0), (abs c.real, Q16.amp 2), (abs c.imag, Q16.amp 2)],
      fun k => ?_, ?_⟩
    · rw [softCodes_16]
      simp only [List.map, sub_zero, Q16.quantize, Order.DIST]
    · rw [hardCodes_16]
      simp only [List.map, amp_zero_16]
  · refine ⟨[(c.real, 0), (c.imag, 0), (abs c.real, Q64.amp 4), (abs c.imag, Q64.amp 4),
      (abs (abs c.real - Q64.amp 4), Q64.amp 2), (abs (abs c.imag - Q64.amp 4), Q64.amp 2)],
      fun k => ?_, ?_⟩
    · rw [softCodes_64]
      simp only [List.map, sub_zero, Q64.quantize, Order.DIST]
    · rw [hardCodes_64]
      simp only [List.map, amp_zero_64]
  · refine ⟨[(c.real, 0), (c.imag, 0), (abs c.real, Q256.amp 8), (abs c.imag, Q256.amp 8),
      (abs (abs c.real - Q256.amp 8), Q256.amp 4),
      (abs (abs c.imag - Q256.amp 8), Q256.amp 4),
      (abs (abs (abs c.real - Q256.amp 8) - Q256.amp 4), Q256.amp 2),
      (abs (abs (abs c.imag - Q256.amp 8) - Q256.amp 4), Q256.amp 2)],
      fun k => ?_, ?_⟩
    · rw [softCodes_256]
      simp only [List.map, sub_zero, Q256.quantize, Order.DIST]
    · rw [hardCodes_256]
      simp only [List.map, amp_zero_256]
  · refine ⟨[(c.real, 0), (c.imag, 0), (abs c.real, Q1024.amp 16),
      (abs c.imag, Q1024.amp 16),
      (abs (abs c.real - Q1024.amp 16), Q1024.amp 8),
      (abs (abs c.imag - Q1024.amp 16), Q1024.amp 8),
      (abs (abs (abs c.real - Q1024.amp 16) - Q1024.amp 8), Q1024.amp 4),
      (abs (abs (abs c.imag - Q1024.amp 16) - Q1024.amp 8), Q1024.amp 4),
      (abs (abs (abs (abs c.real - Q1024.amp 16) - Q1024.amp 8) - Q1024.amp 4),
        Q1024.amp 2),
      (abs (abs (abs (abs c.imag - Q1024.amp 16) - Q1024.amp 8) - Q1024.amp 4),
        Q1024.amp 2)],
      fun k => ?_, ?_⟩
    · rw [softCodes_1024]
      simp only [List.map, sub_zero, Q1024.quantize, Order.DIST]
    · rw [hardCodes_1024]
      simp only [List.map, amp_zero_1024]

/-- In exact arithmetic the sign of a soft code indicates the hard decision, for a code
type that is floating-point, `int8_t`, or a wider signed integral type in which the rounded
scaled distance is representable; for the floating-point code type the soft code is
negative exactly when the hard code is `-1`. -/
theorem soft_sign_exact (o : Order) (k : CodeKind) (c : complex_type) (p : ℚ) (hp : 0 < p)
    (buf buf' : Buffer) (i : ℤ) (h0 : 0 ≤ i) (h1 : i < o.BITS)
    (hfit : k.is_int8 = false → k.fits (nearbyint (soft o .floating buf c p 1 i))) :
    (soft o k buf c p 1 i < 0 → hard o buf' c 1 i = -1) ∧
      (0 < soft o k buf c p 1 i → hard o buf' c 1 i = 1) ∧
      (k = .floating → (soft o k buf c p 1 i < 0 ↔ hard o buf' c 1 i = -1)) := by
  obtain ⟨ds, hsoft, hhard⟩ := soft_hard_levels o c p
  have hlen : ds.length = o.BITS.toNat := by
    have h := congrArg List.length hhard
    rw [hardCodes_length, List.length_map] at h
    exact h.symm
  have hi : i.toNat < ds.length := by rw [hlen]; omega
  have hm : ∀ g : ℚ × ℚ → ℚ, (ds.map g).getD i.toNat 0 = g (ds.get ⟨i.toNat, hi⟩) := by
    intro g
    rw [List.getD_eq_getElem _ _ (by rw [List.length_map]; exact hi), List.getElem_map]
    rfl
  rw [soft_one o .floating buf c p i h0 h1, hsoft .floating, hm] at hfit
  rw [soft_one o k buf c p i h0 h1, hard_one o buf' c i h0 h1, hsoft k, hhard, hm, hm]
  exact sign_level (DIST_pos o) k hp _ _ hfit

/-! ## Saturation and the definition of `quantize` -/

theorem quantize_eq (o : Order) (k : CodeKind) (p v : ℚ) :
    quantize o k p v = quantizeWith o.DIST k p v := by
  cases o <;> rfl

theorem nearbyint_neg_half_255 : nearbyint (-255 / 2) = -128 := by
  have h : ⌊(-255 / 2 : ℚ)⌋ = -128 := by
    rw [Int.floor_eq_iff]
    norm_num
  unfold nearbyint
  simp only [h]
  norm_num

theorem quantize_int8_cases (o : Order) (p v : ℚ) :
    (127 < v * o.DIST * p → quantize o .int8 p v = 127) ∧
      (v * o.DIST * p ≤ -255 / 2 → quantize o .int8 p v = -128) ∧
      (-255 / 2 < v * o.DIST * p → v * o.DIST * p < -127 → quantize o .int8 p v = -127) ∧
      (-128 ≤ v * o.DIST * p → v * o.DIST * p ≤ 127 →
        |quantize o .int8 p v - v * o.DIST * p| ≤ 1 / 2) := by
  rw [quantize_eq, quantizeWith_int8, mul_assoc]
  obtain ⟨n, hn, hx⟩ := nearbyint_spec (v * (o.DIST * p))
  rw [abs_le] at hx
  refine ⟨fun h => ?_, fun h => ?_, fun h1 h2 => ?_, fun h1 h2 => ?_⟩
  · rw [hn]
    have : (127 : ℤ) ≤ n := by
      have : ((126 : ℤ) : ℚ) < n := by push_cast; linarith
      have : (126 : ℤ) < n := by exact_mod_cast this
      omega
    have h127 : (127 : ℚ) ≤ n := by exact_mod_cast this
    rw [max_eq_left (by linarith), min_eq_right h127]
  · rcases h.lt_or_eq with h | h
    · rw [hn]
      have : n ≤ -128 := int_le_of_lt_add_one (by push_cast; linarith)
      have h128 : (n : ℚ) ≤ -128 := by exact_mod_cast this
      rw [max_eq_right h128, min_eq_left (by norm_num)]
    · rw [h, nearbyint_neg_half_255]
      norm_num
  · rw [hn]
    have hn' : n = -127 := by
      have a : n ≤ -127 := int_le_of_lt_add_one (by push_cast; linarith)
      have b : ((-128 : ℤ) : ℚ) < n := by push_cast; linarith
      have b' : (-128 : ℤ) < n := by exact_mod_cast b
      omega
    rw [hn']
    norm_num
  · rw [hn]
    have a : n ≤ 127 := int_le_of_lt_add_one (by push_cast; linarith)
    have b : -128 ≤ n := by
      have b : ((-129 : ℤ) : ℚ) < n := by push_cast; linarith
      have b' : (-129 : ℤ) < n := by exact_mod_cast b
      omega
    have a' : (n : ℚ) ≤ 127 := by exact_mod_cast a
    have b' : (-128 : ℚ) ≤ n := by exact_mod_cast b
    rw [max_eq_left b', min_eq_left a', abs_le]
    exact hx

/-- C6, as stated, fails: for order 16 and `int8` codes, `quantize(1, -201)` has the
scaled value `-201 * DIST ≈ -127.12`, of magnitude above `127`, and returns `-127`, which
is neither `-128` nor `127`. -/
theorem quantize_saturation_counterexample :
    127 < |(-201 : ℚ) * Order.n16.DIST * 1| ∧ quantize .n16 .int8 1 (-201) = -127 ∧
      ¬ (quantize .n16 .int8 1 (-201) = -128 ∨ quantize .n16 .int8 1 (-201) = 127) := by
  have hx : (-255 / 2 : ℚ) < (-201 : ℚ) * Order.n16.DIST * 1 ∧
      (-201 : ℚ) * Order.n16.DIST * 1 < -127 := by
    norm_num [Order.DIST, Q16.DIST, Q16.AMP, Q16.RCP, Q16.FAC]
  have hq := (quantize_int8_cases .n16 1 (-201)).2.2.1 hx.1 hx.2
  refine ⟨?_, hq, ?_⟩
  · rw [abs_of_neg (by linarith [hx.2])]
    linarith [hx.2]
  · rw [hq]
    norm_num

/-- C6, amended: for the signed 8-bit code type and every value and precision whose
scaled magnitude `|value * DIST * precision|` exceeds `127`, `quantize` returns exactly
`127` when the scaled value is above `127`, exactly `-128` when it is at most `-127.5`,
and exactly `-127` when it lies strictly between `-127.5` and `-127`. -/
theorem quantize_saturation (o : Order) (p v : ℚ) (h : 127 < |v * o.DIST * p|) :
    (127 < v * o.DIST * p ∧ quantize o .int8 p v = 127) ∨
      (v * o.DIST * p ≤ -255 / 2 ∧ quantize o .int8 p v = -128) ∨
      ((-255 / 2 < v * o.DIST * p ∧ v * o.DIST * p < -127) ∧
        quantize o .int8 p v = -127) := by
  obtain ⟨c1, c2, c3, _⟩ := quantize_int8_cases o p v
  rcases lt_abs.mp h with h | h
  · exact Or.inl ⟨h, c1 h⟩
  · have hneg : v * o.DIST * p < -127 := by linarith
    rcases le_or_lt (v * o.DIST * p) (-255 / 2) with h' | h'
    · exact Or.inr (Or.inl ⟨h', c2 h'⟩)
    · exact Or.inr (Or.inr ⟨⟨h', hneg⟩, c3 h' hneg⟩)

/-- Witness of the amended C6: order 64, `quantize(500, 1)` has a scaled value above
`127`, so the first alternative is the one that holds and the result is `127`. -/
theorem quantize_saturation_witness :
    127 < |(1 : ℚ) * Order.n64.DIST * 500| ∧ quantize .n64 .int8 500 1 = 127 := by
  have hx : (127 : ℚ) < (1 : ℚ) * Order.n64.DIST * 500 := by
    norm_num [Order.DIST, Q64.DIST, Q64.AMP, Q64.RCP, Q64.FAC]
  have habs : 127 < |(1 : ℚ) * Order.n64.DIST * 500| := lt_of_lt_of_le hx (le_abs_self _)
  refine ⟨habs, ?_⟩
  rcases quantize_saturation .n64 500 1 habs with h | h | h
  · exact h.2
  · linarith [h.1]
  · linarith [h.1.2]

/-- C7: `quantize` follows its definition.  For a floating-point code type it returns
exactly `value * DIST * precision`.  For the signed 8-bit code type it returns a nearest
integer of `value * DIST * precision` clamped to `[-128, 127]`: the result is an integer
between `-128` and `127`, and it is within `1/2` of the scaled value whenever the scaled
value lies in `[-128, 127]`. -/
theorem quantize_spec (o : Order) (p v : ℚ) :
    quantize o .floating p v = v * o.DIST * p ∧
      (∃ n : ℤ, (∀ m : ℤ, |(n : ℚ) - v * o.DIST * p| ≤ |(m : ℚ) - v * o.DIST * p|) ∧
        quantize o .int8 p v = min (max (n : ℚ) (-128)) 127) ∧
      (∃ r : ℤ, quantize o .int8 p v = r ∧ -128 ≤ r ∧ r ≤ 127) ∧
      (-128 ≤ v * o.DIST * p → v * o.DIST * p ≤ 127 →
        |quantize o .int8 p v - v * o.DIST * p| ≤ 1 / 2) := by
  obtain ⟨n, hn, hx⟩ := nearbyint_spec (v * (o.DIST * p))
  refine ⟨?_, ⟨n, ?_, ?_⟩, ?_, (quantize_int8_cases o p v).2.2.2⟩
  · rw [quantize_eq, quantizeWith_floating, mul_assoc]
  · intro m
    rw [mul_assoc]
    exact nearest_of_half hx m
  · rw [quantize_eq, quantizeWith_int8, hn]
  · rw [quantize_eq, quantizeWith_int8, hn]
    exact clamp_int n

/-- Witness of C7: order 256, `quantize(10, 3)`, whose scaled value `30 * DIST ≈ 4.6`
lies in `[-128, 127]`. -/
theorem quantize_spec_witness :
    |quantize .n256 .int8 10 3 - 3 * Order.n256.DIST * 10| ≤ 1 / 2 :=
  (quantize_spec .n256 10 3).2.2.2
    (by norm_num [Order.DIST, Q256.DIST, Q256.AMP, Q256.RCP, Q256.FAC])
    (by norm_num [Order.DIST, Q256.DIST, Q256.AMP, Q256.RCP, Q256.FAC])

/-! ## Zero precision -/

theorem softCodes_zero (o : Order) (k : CodeKind) (c : complex_type) :
    ∀ x ∈ softCodes o k c 0, x = 0 := by
  cases o
  · rw [softCodes_16]
    simp [Q16.quantize, quantizeWith_zero]
  · rw [softCodes_64]
    simp [Q64.quantize, quantizeWith_zero]
  · rw [softCodes_256]
    simp [Q256.quantize, quantizeWith_zero]
  · rw [softCodes_1024]
    simp [Q1024.quantize, quantizeWith_zero]

/-- C8: zero-precision soft decode.  For every order, code type, symbol and initial
buffer, `soft` with `precision = 0` stores `0` in each of the `BITS` code slots. -/
theorem soft_zero_precision (o : Order) (k : CodeKind) (buf : Buffer) (c : complex_type)
    (i : ℤ) (h0 : 0 ≤ i) (h1 : i < o.BITS) : soft o k buf c 0 1 i = 0 := by
  have hs : i.toNat < (softCodes o k c 0).length := by rw [softCodes_length]; omega
  rw [soft_one o k buf c 0 i h0 h1, List.getD_eq_getElem _ _ hs]
  exact softCodes_zero o k c _ (List.getElem_mem _)

/-- Witness of C8: order 1024, `int8` codes, a buffer filled with `9`, slot 7. -/
theorem soft_zero_precision_witness :
    soft .n1024 .int8 (fun _ => 9) ⟨3 / 7, -22⟩ 0 1 7 = 0 :=
  soft_zero_precision .n1024 .int8 (fun _ => 9) ⟨3 / 7, -22⟩ 7 (by decide) (by decide)


/-! ## Decision boundaries -/

theorem specStepSize_values :
    (specStepSize .n16 1 = 2) ∧
      (specStepSize .n64 1 = 4 ∧ specStepSize .n64 2 = 2) ∧
      (specStepSize .n256 1 = 8 ∧ specStepSize .n256 2 = 4 ∧ specStepSize .n256 3 = 2) ∧
      (specStepSize .n1024 1 = 16 ∧ specStepSize .n1024 2 = 8 ∧
        specStepSize .n1024 3 = 4 ∧ specStepSize .n1024 4 = 2) := by
  decide

/-- The codes of `hard`, level by level, in terms of the folded residual and the step
size of the specification. -/
theorem hardCodes_level (o : Order) (c : complex_type) (j : ℕ) (hj : j < o.depth) :
    (hardCodes o c).getD (2 * j) 0 =
        (if specResidual o j c.real < amp o (specStepSize o j) then -1 else 1) ∧
      (hardCodes o c).getD (2 * j + 1) 0 =
        (if specResidual o j c.imag < amp o (specStepSize o j) then -1 else 1) := by
  obtain ⟨a1, ⟨b1, b2⟩, ⟨c1, c2, c3⟩, ⟨d1, d2, d3, d4⟩⟩ := specStepSize_values
  cases o
  · have hj : j < 2 := hj
    rw [hardCodes_16]
    interval_cases j <;> simp only [specResidual, a1, amp] <;> exact ⟨rfl, rfl⟩
  · have hj : j < 3 := hj
    rw [hardCodes_64]
    interval_cases j <;> simp only [specResidual, b1, b2, amp] <;> exact ⟨rfl, rfl⟩
  · have hj : j < 4 := hj
    rw [hardCodes_256]
    interval_cases j <;> simp only [specResidual, c1, c2, c3, amp] <;> exact ⟨rfl, rfl⟩
  · have hj : j < 5 := hj
    rw [hardCodes_1024]
    interval_cases j <;> simp only [specResidual, d1, d2, d3, d4, amp] <;> exact ⟨rfl, rfl⟩

theorem log2_NUM (o : Order) : Nat.log2 o.NUM = o.BITS.toNat := by
  cases o
  · exact (Nat.log2_two_pow : (2 ^ 4).log2 = 4)
  · exact (Nat.log2_two_pow : (2 ^ 6).log2 = 6)
  · exact (Nat.log2_two_pow : (2 ^ 8).log2 = 8)
  · exact (Nat.log2_two_pow : (2 ^ 10).log2 = 10)

theorem map_reads_16 (j : ℤ) (h0 : 0 ≤ j) (h1 : j < 4) :
    Q16.map (fun _ => 1) 1 ≠ Q16.map (Function.update (fun _ => 1) j (-1)) 1 := by
  intro h
  have hr := congrArg complex_type.real h
  have hi := congrArg complex_type.imag h
  have hA := AMP_pos_16.ne'
  interval_cases j <;>
    simp [Q16.map, complex_type.scale, Function.update_apply, hA] at hr hi <;>
    norm_num at hr hi

theorem map_reads_64 (j : ℤ) (h0 : 0 ≤ j) (h1 : j < 6) :
    Q64.map (fun _ => 1) 1 ≠ Q64.map (Function.update (fun _ => 1) j (-1)) 1 := by
  intro h
  have hr := congrArg complex_type.real h
  have hi := congrArg complex_type.imag h
  have hA := AMP_pos_64.ne'
  interval_cases j <;>
    simp [Q64.map, complex_type.scale, Function.update_apply, hA] at hr hi <;>
    norm_num at hr hi

theorem map_reads_256 (j : ℤ) (h0 : 0 ≤ j) (h1 : j < 8) :
    Q256.map (fun _ => 1) 1 ≠ Q256.map (Function.update (fun _ => 1) j (-1)) 1 := by
  intro h
  have hr := congrArg complex_type.real h
  have hi := congrArg complex_type.imag h
  have hA := AMP_pos_256.ne'
  interval_cases j <;>
    simp [Q256.map, complex_type.scale, Function.update_apply, hA] at hr hi <;>
    norm_num at hr hi

theorem map_reads_1024 (j : ℤ) (h0 : 0 ≤ j) (h1 : j < 10) :
    Q1024.map (fun _ => 1) 1 ≠ Q1024.map (Function.update (fun _ => 1) j (-1)) 1 := by
  intro h
  have hr := congrArg complex_type.real h
  have hi := congrArg complex_type.imag h
  have hA := AMP_pos_1024.ne'
  interval_cases j <;>
    simp [Q1024.map, complex_type.scale, Function.update_apply, hA] at hr hi <;>
    norm_num at hr hi

theorem map_congr_slots (o : Order) (b b' : Buffer)
    (h : ∀ j : ℤ, 0 ≤ j → j < bits o → b j = b' j) : map o b 1 = map o b' 1 := by
  cases o
  · have h : ∀ j : ℤ, 0 ≤ j → j < 4 → b j = b' j := h
    simp only [map, Q16.map, zero_mul, mul_one]
    rw [h 0, h 1, h 2, h 3] <;> norm_num
  · have h : ∀ j : ℤ, 0 ≤ j → j < 6 → b j = b' j := h
    simp only [map, Q64.map, zero_mul, mul_one]
    rw [h 0, h 1, h 2, h 3, h 4, h 5] <;> norm_num
  · have h : ∀ j : ℤ, 0 ≤ j → j < 8 → b j = b' j := h
    simp only [map, Q256.map, zero_mul, mul_one]
    rw [h 0, h 1, h 2, h 3, h 4, h 5, h 6, h 7] <;> norm_num
  · have h : ∀ j : ℤ, 0 ≤ j → j < 10 → b j = b' j := h
    simp only [map, Q1024.map, zero_mul, mul_one]
    rw [h 0, h 1, h 2, h 3, h 4, h 5, h 6, h 7, h 8, h 9] <;> norm_num

theorem bits_eq_BITS (o : Order) : bits o = o.BITS := by
  cases o <;> rfl

/-- C10: for each order `N ∈ {16, 64, 256, 1024}`, `bits()` returns `log2 N`, that is
`4`, `6`, `8` and `10`; and the slots `0 ≤ j < bits()` are exactly the slots that `hard`
and `soft` (stride 1) overwrite, every other slot keeping its content, and exactly the
slots on which the result of `map` (stride 1) depends. -/
theorem bits_eq_log2 (o : Order) :
    bits o = (Nat.log2 o.NUM : ℤ) ∧
      (bits .n16 = 4 ∧ bits .n64 = 6 ∧ bits .n256 = 8 ∧ bits .n1024 = 10) ∧
      (∀ (c : complex_type) (buf buf' : Buffer) (j : ℤ),
        (0 ≤ j ∧ j < bits o → hard o buf c 1 j = hard o buf' c 1 j) ∧
          (¬ (0 ≤ j ∧ j < bits o) → hard o buf c 1 j = buf j)) ∧
      (∀ (k : CodeKind) (c : complex_type) (p : ℚ) (buf buf' : Buffer) (j : ℤ),
        (0 ≤ j ∧ j < bits o → soft o k buf c p 1 j = soft o k buf' c p 1 j) ∧
          (¬ (0 ≤ j ∧ j < bits o) → soft o k buf c p 1 j = buf j)) ∧
      (∀ b b' : Buffer, (∀ j : ℤ, 0 ≤ j → j < bits o → b j = b' j) →
        map o b 1 = map o b' 1) ∧
      (∀ j : ℤ, 0 ≤ j → j < bits o →
        ∃ b b' : Buffer, (∀ i : ℤ, i ≠ j → b i = b' i) ∧ map o b 1 ≠ map o b' 1) := by
  have hb := bits_eq_BITS o
  refine ⟨?_, ⟨rfl, rfl, rfl, rfl⟩, ?_, ?_, map_congr_slots o, ?_⟩
  · rw [log2_NUM, hb]
    cases o <;> rfl
  · intro c buf buf' j
    rw [hb]
    refine ⟨fun h => ?_, fun h => ?_⟩
    · rw [hard_one o buf c j h.1 h.2, hard_one o buf' c j h.1 h.2]
    · apply hard_other
      intro i h0 h1 e
      rw [mul_one] at e
      exact h (e ▸ ⟨h0, h1⟩)
  · intro k c p buf buf' j
    rw [hb]
    refine ⟨fun h => ?_, fun h => ?_⟩
    · rw [soft_one o k buf c p j h.1 h.2, soft_one o k buf' c p j h.1 h.2]
    · apply soft_other
      intro i h0 h1 e
      rw [mul_one] at e
      exact h (e ▸ ⟨h0, h1⟩)
  · intro j h0 h1
    refine ⟨fun _ => 1, Function.update (fun _ => 1) j (-1),
      fun i hi => by rw [Function.update_noteq hi], ?_⟩
    cases o
    · exact map_reads_16 j h0 h1
    · exact map_reads_64 j h0 h1
    · exact map_reads_256 j h0 h1
    · exact map_reads_1024 j h0 h1

/-- Witness of C10: for order 64, slot 6 lies outside `0 ≤ j < bits()` and `hard` leaves
it as it was. -/
theorem bits_eq_log2_witness :
    ¬ ((0 : ℤ) ≤ 6 ∧ (6 : ℤ) < bits .n64) ∧
      hard .n64 (fun _ => 5) ⟨1, 1⟩ 1 6 = 5 :=
  ⟨by decide,
    ((bits_eq_log2 .n64).2.2.1 ⟨1, 1⟩ (fun _ => 5) (fun _ => 0) 6).2 (by decide)⟩


/-! ## The amplitude table -/

/-- C11: the amplitude table.  For each order, `RCP = (√N - 1) * FAC` with the
multipliers `3, 7, 15, 31`, `AMP = 1 / RCP`, `DIST = 2 * AMP` and `amp i = AMP * i` for
every integer `i`; for order 16, with `FAC = 1.0540925533894596` evaluated exactly,
`RCP`, `AMP` and both parts of `map [1,1,1,1] = (3 * AMP, 3 * AMP)` agree with
`3.1622776601683795`, `0.31622776601683794` and `0.9486832980505138` to within `10⁻¹²`. -/
theorem amplitude_table (o : Order) (i : ℤ) :
    (o.RCP = ((Nat.sqrt o.NUM : ℕ) - 1 : ℚ) * o.FAC ∧
        o.AMP = 1 / o.RCP ∧ o.DIST = 2 * o.AMP ∧ amp o i = o.AMP * i) ∧
      (Nat.sqrt Order.n16.NUM - 1 = 3 ∧ Nat.sqrt Order.n64.NUM - 1 = 7 ∧
        Nat.sqrt Order.n256.NUM - 1 = 15 ∧ Nat.sqrt Order.n1024.NUM - 1 = 31) ∧
      (Order.n16.FAC = 1.0540925533894596 ∧
        |Order.n16.RCP - 3.1622776601683795| ≤ 1 / 10 ^ 12 ∧
        |Order.n16.AMP - 0.31622776601683794| ≤ 1 / 10 ^ 12 ∧
        map .n16 (ofList [1, 1, 1, 1]) 1 = ⟨3 * Order.n16.AMP, 3 * Order.n16.AMP⟩ ∧
        |(map .n16 (ofList [1, 1, 1, 1]) 1).real - 0.9486832980505138| ≤ 1 / 10 ^ 12 ∧
        |(map .n16 (ofList [1, 1, 1, 1]) 1).imag - 0.9486832980505138| ≤ 1 / 10 ^ 12) := by
  have s16 : Nat.sqrt Q16.NUM = 4 := Nat.sqrt_eq 4
  have s64 : Nat.sqrt Q64.NUM = 8 := Nat.sqrt_eq 8
  have s256 : Nat.sqrt Q256.NUM = 16 := Nat.sqrt_eq 16
  have s1024 : Nat.sqrt Q1024.NUM = 32 := Nat.sqrt_eq 32
  have t2 : Int.toNat 2 = 2 := rfl
  have t3 : Int.toNat 3 = 3 := rfl
  have hmap : map .n16 (ofList [1, 1, 1, 1]) 1 = ⟨3 * Order.n16.AMP, 3 * Order.n16.AMP⟩ := by
    simp only [map, Q16.map, complex_type.scale, Order.AMP, ofList]
    norm_num [t2, t3]
    ring
  refine ⟨?_, ⟨?_, ?_, ?_, ?_⟩, rfl, ?_, ?_, hmap, ?_, ?_⟩
  · cases o
    · simp only [Order.RCP, Order.NUM, Order.FAC, Order.AMP, Order.DIST, amp, s16]
      exact ⟨by norm_num [Q16.RCP], rfl, rfl, rfl⟩
    · simp only [Order.RCP, Order.NUM, Order.FAC, Order.AMP, Order.DIST, amp, s64]
      exact ⟨by norm_num [Q64.RCP], rfl, rfl, rfl⟩
    · simp only [Order.RCP, Order.NUM, Order.FAC, Order.AMP, Order.DIST, amp, s256]
      exact ⟨by norm_num [Q256.RCP], rfl, rfl, rfl⟩
    · simp only [Order.RCP, Order.NUM, Order.FAC, Order.AMP, Order.DIST, amp, s1024]
      exact ⟨by norm_num [Q1024.RCP], rfl, rfl, rfl⟩
  · simp only [Order.NUM, s16]
  · simp only [Order.NUM, s64]
  · simp only [Order.NUM, s256]
  · simp only [Order.NUM, s1024]
  · rw [abs_le]
    norm_num [Order.RCP, Q16.RCP, Q16.FAC]
  · rw [abs_le]
    norm_num [Order.AMP, Q16.AMP, Q16.RCP, Q16.FAC]
  · rw [hmap, abs_le]
    norm_num [Order.AMP, Q16.AMP, Q16.RCP, Q16.FAC]
  · rw [hmap, abs_le]
    norm_num [Order.AMP, Q16.AMP, Q16.RCP, Q16.FAC]

/-! ## The general composition rule -/

/-- The recursion that defines the `compose` of the specification. -/
theorem specCompose_rule (k : ℕ) (b : Buffer) :
    specCompose k b (k - 1) = b (2 * ((k : ℤ) - 1)) ∧
      ∀ j : ℕ, j + 1 < k →
        specCompose k b j = b (2 * (j : ℤ)) * (specCompose k b (j + 1) + 2 ^ (k - 1 - j)) := by
  refine ⟨?_, fun j hj => ?_⟩
  · simp [specCompose, specComposeDown]
  · obtain ⟨d, hd⟩ : ∃ d, k - 1 - j = d + 1 := ⟨k - 1 - j - 1, by omega⟩
    have e1 : k - 1 - (j + 1) = d := by omega
    have e2 : ((k : ℤ) - 1 - ((d : ℤ) + 1)) = j := by omega
    simp only [specCompose, hd, e1, specComposeDown, e2]

/-- C12, as stated, fails: for order 16 (`k = 2`) and the code word `[1,1,1,1]` the rule
of the specification gives `AMP * b0 * compose 1 = AMP`, while the real part of `map` is
`3 * AMP`. -/
theorem compose_rule_counterexample :
    Order.n16.AMP * ofList [1, 1, 1, 1] 0 * specCompose 2 (ofList [1, 1, 1, 1]) 1
        = Order.n16.AMP ∧
      (map .n16 (ofList [1, 1, 1, 1]) 1).real = 3 * Order.n16.AMP ∧
      (map .n16 (ofList [1, 1, 1, 1]) 1).real ≠
        Order.n16.AMP * ofList [1, 1, 1, 1] 0 * specCompose 2 (ofList [1, 1, 1, 1]) 1 := by
  have t2 : Int.toNat 2 = 2 := rfl
  have e1 : Order.n16.AMP * ofList [1, 1, 1, 1] 0 * specCompose 2 (ofList [1, 1, 1, 1]) 1
      = Order.n16.AMP := by
    simp only [specCompose, specComposeDown, ofList]
    norm_num [t2]
  have e2 : (map .n16 (ofList [1, 1, 1, 1]) 1).real = 3 * Order.n16.AMP := by
    simp only [map, Q16.map, complex_type.scale, Order.AMP, ofList]
    norm_num [t2]
    ring
  refine ⟨e1, e2, ?_⟩
  rw [e1, e2]
  have := AMP_pos .n16
  intro h
  linarith

/-- C12, amended: with `compose` as the specification defines it
(`compose (k - 1) = b_{2(k-1)}`, `compose j = b_{2j} * (compose (j + 1) + 2 ^ (k - 1 - j))`
for `j = k - 2` down to `1`), the real part of `map b` is
`AMP * b0 * (compose 1 + 2 ^ (k - 1))` for `k = 2, 3, 4, 5` (orders 16, 64, 256, 1024) and
every code word `b`. -/
theorem compose_rule (o : Order) (b : Buffer) :
    (map o b 1).real = o.AMP * b 0 * (specCompose o.depth b 1 + 2 ^ (o.depth - 1)) := by
  cases o
  · simp only [map, Q16.map, complex_type.scale, Order.AMP, specCompose, specComposeDown,
      show Order.n16.depth = 2 from rfl]
    norm_num
    ring
  · simp only [map, Q64.map, complex_type.scale, Order.AMP, specCompose, specComposeDown,
      show Order.n64.depth = 3 from rfl]
    norm_num
    ring
  · simp only [map, Q256.map, complex_type.scale, Order.AMP, specCompose, specComposeDown,
      show Order.n256.depth = 4 from rfl]
    norm_num
    ring
  · simp only [map, Q1024.map, complex_type.scale, Order.AMP, specCompose, specComposeDown,
      show Order.n1024.depth = 5 from rfl]
    norm_num
    ring

/-! ## The unrolled slicers and the hierarchical slicer of the specification -/

theorem depth_eq (o : Order) : (o.depth : ℤ) * 2 = o.BITS := by
  cases o <;> rfl

/-- The codes of `soft`, level by level, in terms of the folded residual and the step
size of the specification. -/
theorem softCodes_level (o : Order) (k : CodeKind) (c : complex_type) (p : ℚ) (j : ℕ)
    (hj : j < o.depth) :
    (softCodes o k c p).getD (2 * j) 0 =
        quantize o k p
          (if j = 0 then c.real else specResidual o j c.real - amp o (specStepSize o j)) ∧
      (softCodes o k c p).getD (2 * j + 1) 0 =
        quantize o k p
          (if j = 0 then c.imag else specResidual o j c.imag - amp o (specStepSize o j)) := by
  obtain ⟨a1, ⟨b1, b2⟩, ⟨c1, c2, c3⟩, ⟨d1, d2, d3, d4⟩⟩ := specStepSize_values
  cases o
  · have hj : j < 2 := hj
    rw [softCodes_16]
    interval_cases j <;> simp only [specResidual, a1, amp, quantize] <;> exact ⟨rfl, rfl⟩
  · have hj : j < 3 := hj
    rw [softCodes_64]
    interval_cases j <;> simp only [specResidual, b1, b2, amp, quantize] <;>
      exact ⟨rfl, rfl⟩
  · have hj : j < 4 := hj
    rw [softCodes_256]
    interval_cases j <;> simp only [specResidual, c1, c2, c3, amp, quantize] <;>
      exact ⟨rfl, rfl⟩
  · have hj : j < 5 := hj
    rw [softCodes_1024]
    interval_cases j <;> simp only [specResidual, d1, d2, d3, d4, amp, quantize] <;>
      exact ⟨rfl, rfl⟩

theorem hard_level (o : Order) (buf : Buffer) (c : complex_type) (s : ℤ) (hs : s ≠ 0)
    (j : ℕ) (hj : j < o.depth) :
    hard o buf c s ((2 * j : ℕ) * s) =
        (if specResidual o j c.real < amp o (specStepSize o j) then -1 else 1) ∧
      hard o buf c s ((2 * j + 1 : ℕ) * s) =
        (if specResidual o j c.imag < amp o (specStepSize o j) then -1 else 1) := by
  have hd := depth_eq o
  obtain ⟨e0, e1⟩ := hardCodes_level o c j hj
  have s0 := hard_slot o buf c s hs ((2 * j : ℕ) : ℤ) (Int.natCast_nonneg _) (by omega)
  have s1 := hard_slot o buf c s hs ((2 * j + 1 : ℕ) : ℤ) (Int.natCast_nonneg _) (by omega)
  rw [Int.toNat_natCast] at s0 s1
  rw [s0, s1, e0, e1]
  exact ⟨rfl, rfl⟩

theorem soft_level (o : Order) (k : CodeKind) (buf : Buffer) (c : complex_type) (p : ℚ)
    (s : ℤ) (hs : s ≠ 0) (j : ℕ) (hj : j < o.depth) :
    soft o k buf c p s ((2 * j : ℕ) * s) =
        quantize o k p
          (if j = 0 then c.real else specResidual o j c.real - amp o (specStepSize o j)) ∧
      soft o k buf c p s ((2 * j + 1 : ℕ) * s) =
        quantize o k p
          (if j = 0 then c.imag else specResidual o j c.imag - amp o (specStepSize o j)) := by
  have hd := depth_eq o
  obtain ⟨e0, e1⟩ := softCodes_level o k c p j hj
  have s0 := soft_slot o k buf c p s hs ((2 * j : ℕ) : ℤ) (Int.natCast_nonneg _) (by omega)
  have s1 := soft_slot o k buf c p s hs ((2 * j + 1 : ℕ) : ℤ) (Int.natCast_nonneg _)
    (by omega)
  rw [Int.toNat_natCast] at s0 s1
  rw [s0, s1, e0, e1]
  exact ⟨rfl, rfl⟩

theorem amp_zero (o : Order) : amp o 0 = 0 := by
  cases o
  · exact amp_zero_16
  · exact amp_zero_64
  · exact amp_zero_256
  · exact amp_zero_1024

theorem depth_pos (o : Order) : 0 < o.depth := by
  cases o <;> decide

/-- The recursion that defines the folded residual and the step size. -/
theorem slicer_rule (o : Order) :
    (o.depth : ℤ) = o.BITS / 2 ∧
      (∀ x : ℚ, specResidual o 1 x = |x|) ∧ specStepSize o 1 = 2 ^ (o.depth - 1) ∧
      (∀ (j : ℕ) (x : ℚ), 1 ≤ j →
        specResidual o (j + 1) x = |specResidual o j x - amp o (specStepSize o j)| ∧
          specStepSize o (j + 1) = specStepSize o j / 2) := by
  refine ⟨by cases o <;> rfl, fun x => rfl, rfl, fun j x hj => ?_⟩
  obtain ⟨i, rfl⟩ : ∃ i, j = i + 1 := ⟨j - 1, by omega⟩
  exact ⟨rfl, rfl⟩

/-- C14: the unrolled `hard` of each order is the hierarchical slicer with `k = BITS/2`.
For every symbol and stride `s ≥ 1`: code 0 of an axis with value `x` is `-1` if `x < 0`
and `+1` otherwise; for the levels `j = 1 .. k-1`, with `r_1 = |x|`, `s_1 = 2^(k-1)`,
`r_{j+1} = |r_j - amp s_j|` and `s_{j+1} = s_j / 2`, the `j`-th code of the axis is `-1` if
`r_j < amp s_j` and `+1` otherwise; the thresholds are `amp 2` for order 16, `amp 4, amp 2`
for 64, `amp 8, amp 4, amp 2` for 256 and `amp 16, amp 8, amp 4, amp 2` for 1024; the real
axis fills the even slots and the imaginary axis the odd slots. -/
theorem hard_eq_slicer (o : Order) (buf : Buffer) (c : complex_type) (s : ℤ)
    (hs : 1 ≤ s) :
    (hard o buf c s (0 * s) = (if c.real < 0 then -1 else 1) ∧
        hard o buf c s (1 * s) = (if c.imag < 0 then -1 else 1)) ∧
      (∀ j : ℕ, 1 ≤ j → j < o.depth →
        hard o buf c s ((2 * j : ℕ) * s) =
            (if specResidual o j c.real < amp o (specStepSize o j) then -1 else 1) ∧
          hard o buf c s ((2 * j + 1 : ℕ) * s) =
            (if specResidual o j c.imag < amp o (specStepSize o j) then -1 else 1)) ∧
      ((o.depth : ℤ) = o.BITS / 2 ∧
        (∀ x : ℚ, specResidual o 1 x = |x|) ∧ specStepSize o 1 = 2 ^ (o.depth - 1) ∧
        (∀ (j : ℕ) (x : ℚ), 1 ≤ j →
          specResidual o (j + 1) x = |specResidual o j x - amp o (specStepSize o j)| ∧
            specStepSize o (j + 1) = specStepSize o j / 2)) ∧
      ((specStepSize .n16 1 = 2) ∧
        (specStepSize .n64 1 = 4 ∧ specStepSize .n64 2 = 2) ∧
        (specStepSize .n256 1 = 8 ∧ specStepSize .n256 2 = 4 ∧ specStepSize .n256 3 = 2) ∧
        (specStepSize .n1024 1 = 16 ∧ specStepSize .n1024 2 = 8 ∧
          specStepSize .n1024 3 = 4 ∧ specStepSize .n1024 4 = 2)) := by
  have hs0 : s ≠ 0 := by omega
  refine ⟨?_, fun j _ hj => hard_level o buf c s hs0 j hj, slicer_rule o,
    specStepSize_values⟩
  have h := hard_level o buf c s hs0 0 (depth_pos o)
  simp only [specResidual, specStepSize, amp_zero] at h
  exact h

/-- Witness of C14: order 1024, stride 2, level 3 of the imaginary axis (slot `7 * 2`). -/
theorem hard_eq_slicer_witness :
    hard .n1024 (fun _ => 0) ⟨1 / 3, -5 / 7⟩ 2 ((2 * 3 + 1 : ℕ) * 2) =
      (if specResidual .n1024 3 (-5 / 7) < amp .n1024 (specStepSize .n1024 3)
        then -1 else 1) :=
  ((hard_eq_slicer .n1024 (fun _ => 0) ⟨1 / 3, -5 / 7⟩ 2 (by decide)).2.1 3 (by decide)
    (by decide)).2

/-- C15: `soft` records the quantised signed distance to the threshold along the fold
sequence of `hard`.  For every order, code type, symbol, precision and stride `s ≥ 1`:
code 0 of an axis with value `x` is `quantize(precision, x)`; for the levels
`j = 1 .. k-1`, with `r_1 = |x|`, `s_1 = 2^(k-1)`, `r_{j+1} = |r_j - amp s_j|` and
`s_{j+1} = s_j / 2`, the `j`-th code of the axis is `quantize(precision, r_j - amp s_j)`;
the codes of the real axis go to the even slots and those of the imaginary axis to the odd
slots, spaced by the stride. -/
theorem soft_eq_slicer (o : Order) (k : CodeKind) (buf : Buffer) (c : complex_type)
    (p : ℚ) (s : ℤ) (hs : 1 ≤ s) :
    (soft o k buf c p s (0 * s) = quantize o k p c.real ∧
        soft o k buf c p s (1 * s) = quantize o k p c.imag) ∧
      (∀ j : ℕ, 1 ≤ j → j < o.depth →
        soft o k buf c p s ((2 * j : ℕ) * s) =
            quantize o k p (specResidual o j c.real - amp o (specStepSize o j)) ∧
          soft o k buf c p s ((2 * j + 1 : ℕ) * s) =
            quantize o k p (specResidual o j c.imag - amp o (specStepSize o j))) ∧
      ((o.depth : ℤ) = o.BITS / 2 ∧
        (∀ x : ℚ, specResidual o 1 x = |x|) ∧ specStepSize o 1 = 2 ^ (o.depth - 1) ∧
        (∀ (j : ℕ) (x : ℚ), 1 ≤ j →
          specResidual o (j + 1) x = |specResidual o j x - amp o (specStepSize o j)| ∧
            specStepSize o (j + 1) = specStepSize o j / 2)) := by
  have hs0 : s ≠ 0 := by omega
  refine ⟨?_, fun j h1 hj => ?_, slicer_rule o⟩
  · have h := soft_level o k buf c p s hs0 0 (depth_pos o)
    simp only [if_true] at h
    exact h
  · have h := soft_level o k buf c p s hs0 j hj
    rw [if_neg (by omega), if_neg (by omega)] at h
    exact h

/-- Witness of C15: order 64, `int8` codes, stride 3, level 2 of the real axis (slot
`4 * 3`). -/
theorem soft_eq_slicer_witness :
    soft .n64 .int8 (fun _ => 0) ⟨1 / 3, -5 / 7⟩ 20 3 ((2 * 2 : ℕ) * 3) =
      quantize .n64 .int8 20
        (specResidual .n64 2 (1 / 3) - amp .n64 (specStepSize .n64 2)) :=
  ((soft_eq_slicer .n64 .int8 (fun _ => 0) ⟨1 / 3, -5 / 7⟩ 20 3 (by decide)).2.1 2
    (by decide) (by decide)).1

/-! ## Independence of the two axes -/

/-- C18: the two axes are decoded independently and identically.  For every order, pair
of reals `(x, y)`, precision and `j < BITS/2`: the code of slot `2j` of `hard` and of
`soft` does not depend on `y`, the code of slot `2j+1` does not depend on `x`, and the code
of slot `2j+1` for the symbol `(x, y)` is the code of slot `2j` for the swapped symbol
`(y, x)`. -/
theorem axes_independent (o : Order) (k : CodeKind) (x y x' y' p : ℚ) (buf buf' : Buffer)
    (j : ℕ) (hj : j < o.depth) :
    (hard o buf ⟨x, y⟩ 1 (2 * j : ℕ) = hard o buf' ⟨x, y'⟩ 1 (2 * j : ℕ) ∧
        hard o buf ⟨x, y⟩ 1 (2 * j + 1 : ℕ) = hard o buf' ⟨x', y⟩ 1 (2 * j + 1 : ℕ) ∧
        hard o buf ⟨x, y⟩ 1 (2 * j + 1 : ℕ) = hard o buf' ⟨y, x⟩ 1 (2 * j : ℕ)) ∧
      (soft o k buf ⟨x, y⟩ p 1 (2 * j : ℕ) = soft o k buf' ⟨x, y'⟩ p 1 (2 * j : ℕ) ∧
        soft o k buf ⟨x, y⟩ p 1 (2 * j + 1 : ℕ)
          = soft o k buf' ⟨x', y⟩ p 1 (2 * j + 1 : ℕ) ∧
        soft o k buf ⟨x, y⟩ p 1 (2 * j + 1 : ℕ)
          = soft o k buf' ⟨y, x⟩ p 1 (2 * j : ℕ)) := by
  have H : ∀ (b : Buffer) (c : complex_type),
      hard o b c 1 (2 * j : ℕ) =
          (if specResidual o j c.real < amp o (specStepSize o j) then -1 else 1) ∧
        hard o b c 1 (2 * j + 1 : ℕ) =
          (if specResidual o j c.imag < amp o (specStepSize o j) then -1 else 1) := by
    intro b c
    have h := hard_level o b c 1 one_ne_zero j hj
    rwa [mul_one, mul_one] at h
  have S : ∀ (b : Buffer) (c : complex_type),
      soft o k b c p 1 (2 * j : ℕ) =
          quantize o k p
            (if j = 0 then c.real else specResidual o j c.real - amp o (specStepSize o j)) ∧
        soft o k b c p 1 (2 * j + 1 : ℕ) =
          quantize o k p
            (if j = 0 then c.imag
              else specResidual o j c.imag - amp o (specStepSize o j)) := by
    intro b c
    have h := soft_level o k b c p 1 one_ne_zero j hj
    rwa [mul_one, mul_one] at h
  refine ⟨⟨?_, ?_, ?_⟩, ?_, ?_, ?_⟩
  · rw [(H buf ⟨x, y⟩).1, (H buf' ⟨x, y'⟩).1]
  · rw [(H buf ⟨x, y⟩).2, (H buf' ⟨x', y⟩).2]
  · rw [(H buf ⟨x, y⟩).2, (H buf' ⟨y, x⟩).1]
  · rw [(S buf ⟨x, y⟩).1, (S buf' ⟨x, y'⟩).1]
  · rw [(S buf ⟨x, y⟩).2, (S buf' ⟨x', y⟩).2]
  · rw [(S buf ⟨x, y⟩).2, (S buf' ⟨y, x⟩).1]

/-- Witness of C18: order 256, level 3: slot 7 for the symbol `(1/3, -5/7)` holds the
code of slot 6 for the swapped symbol. -/
theorem axes_independent_witness :
    soft .n256 .int32 (fun _ => 0) ⟨1 / 3, -5 / 7⟩ 9 1 (2 * 3 + 1 : ℕ)
      = soft .n256 .int32 (fun _ => 1) ⟨-5 / 7, 1 / 3⟩ 9 1 (2 * 3 : ℕ) :=
  (axes_independent .n256 .int32 (1 / 3) (-5 / 7) 0 0 9 (fun _ => 0) (fun _ => 1) 3
    (by decide)).2.2.2


/-! ## Levels of one axis -/

theorem map_eq_axisLevel (o : Order) (b : Buffer) :
    (map o b 1).real = o.AMP * axisLevel (evenCodes b) o.depth ∧
      (map o b 1).imag = o.AMP * axisLevel (oddCodes b) o.depth := by
  cases o
  · simp only [map, Q16.map, complex_type.scale, Order.AMP, axisLevel, magFrom, evenCodes,
      oddCodes, show Order.n16.depth = 2 from rfl]
    norm_num
  · simp only [map, Q64.map, complex_type.scale, Order.AMP, axisLevel, magFrom, evenCodes,
      oddCodes, show Order.n64.depth = 3 from rfl]
    norm_num
  · simp only [map, Q256.map, complex_type.scale, Order.AMP, axisLevel, magFrom, evenCodes,
      oddCodes, show Order.n256.depth = 4 from rfl]
    norm_num
  · simp only [map, Q1024.map, complex_type.scale, Order.AMP, axisLevel, magFrom,
      evenCodes, oddCodes, show Order.n1024.depth = 5 from rfl]
    norm_num

theorem magFrom_congr (f g : ℕ → ℚ) : ∀ (n j : ℕ),
    (∀ i, j ≤ i → i < j + n → f i = g i) → magFrom f n j = magFrom g n j := by
  intro n
  induction n with
  | zero => intro j _; rfl
  | succ n ih =>
    intro j h
    rw [magFrom, magFrom, h j le_rfl (by omega),
      ih (j + 1) (fun i h1 h2 => h i (by omega) (by omega))]

/-- The magnitude selected by bipolar codes is an odd natural number below `2 ^ (n+1)`. -/
theorem magFrom_odd (f : ℕ → ℚ) : ∀ (n j : ℕ),
    (∀ i, j ≤ i → i < j + n → (f i = -1 ∨ f i = 1)) →
      ∃ t : ℕ, 2 * t + 1 < 2 ^ (n + 1) ∧ magFrom f n j = 2 * (t : ℚ) + 1 := by
  intro n
  induction n with
  | zero => intro j _; exact ⟨0, by norm_num, by simp [magFrom]⟩
  | succ n ih =>
    intro j h
    obtain ⟨t, ht, hm⟩ := ih (j + 1) (fun i h1 h2 => h i (by omega) (by omega))
    have hp : (2 : ℕ) ^ (n + 1 + 1) = 2 * 2 ^ (n + 1) := by ring
    have he : (2 : ℕ) ^ (n + 1) = 2 * 2 ^ n := by ring
    have hq : ((2 : ℚ) ^ (n + 1)) = 2 * ((2 ^ n : ℕ) : ℚ) := by push_cast; ring
    rcases h j le_rfl (by omega) with hb | hb
    · refine ⟨2 ^ n - t - 1, by omega, ?_⟩
      have hle : t + 1 ≤ 2 ^ n := by omega
      rw [magFrom, hb, hm, hq, Nat.sub_sub, Nat.cast_sub hle]
      push_cast
      ring
    · refine ⟨2 ^ n + t, by omega, ?_⟩
      rw [magFrom, hb, hm, hq]
      push_cast
      ring

theorem magFrom_pos (f : ℕ → ℚ) (n j : ℕ)
    (h : ∀ i, j ≤ i → i < j + n → (f i = -1 ∨ f i = 1)) : 1 ≤ magFrom f n j := by
  obtain ⟨t, _, hm⟩ := magFrom_odd f n j h
  rw [hm]
  have : (0 : ℚ) ≤ t := Nat.cast_nonneg t
  linarith

/-- Bipolar codes that select the same magnitude are the same codes. -/
theorem magFrom_inj (f g : ℕ → ℚ) : ∀ (n j : ℕ),
    (∀ i, j ≤ i → i < j + n → (f i = -1 ∨ f i = 1)) →
    (∀ i, j ≤ i → i < j + n → (g i = -1 ∨ g i = 1)) →
    magFrom f n j = magFrom g n j → ∀ i, j ≤ i → i < j + n → f i = g i := by
  intro n
  induction n with
  | zero => intro j _ _ _ i h1 h2; omega
  | succ n ih =>
    intro j hf hg e i h1 h2
    have hf' : ∀ i, j + 1 ≤ i → i < j + 1 + n → (f i = -1 ∨ f i = 1) :=
      fun i h1 h2 => hf i (by omega) (by omega)
    have hg' : ∀ i, j + 1 ≤ i → i < j + 1 + n → (g i = -1 ∨ g i = 1) :=
      fun i h1 h2 => hg i (by omega) (by omega)
    have pf := magFrom_pos f n (j + 1) hf'
    have pg := magFrom_pos g n (j + 1) hg'
    rw [magFrom, magFrom] at e
    have key : f j = g j ∧ magFrom f n (j + 1) = magFrom g n (j + 1) := by
      rcases hf j le_rfl (by omega) with a | a <;> rcases hg j le_rfl (by omega) with b | b <;>
        rw [a, b] at e
      · exact ⟨by rw [a, b], by linarith⟩
      · exfalso; linarith
      · exfalso; linarith
      · exact ⟨by rw [a, b], by linarith⟩
    rcases Nat.eq_or_lt_of_le h1 with rfl | h3
    · exact key.1
    · exact ih (j + 1) hf' hg' key.2 i h3 (by omega)

/-- Bipolar codes whose magnitudes are neighbours differ in exactly one position. -/
theorem magFrom_gray (f g : ℕ → ℚ) : ∀ (n j : ℕ),
    (∀ i, j ≤ i → i < j + n → (f i = -1 ∨ f i = 1)) →
    (∀ i, j ≤ i → i < j + n → (g i = -1 ∨ g i = 1)) →
    |magFrom f n j - magFrom g n j| = 2 →
      ∑ i in Finset.Ico j (j + n), (if f i = g i then 0 else 1) = 1 := by
  intro n
  induction n with
  | zero =>
    intro j _ _ e
    simp [magFrom] at e
  | succ n ih =>
    intro j hf hg e
    have hf' : ∀ i, j + 1 ≤ i → i < j + 1 + n → (f i = -1 ∨ f i = 1) :=
      fun i h1 h2 => hf i (by omega) (by omega)
    have hg' : ∀ i, j + 1 ≤ i → i < j + 1 + n → (g i = -1 ∨ g i = 1) :=
      fun i h1 h2 => hg i (by omega) (by omega)
    obtain ⟨tf, _, mf⟩ := magFrom_odd f n (j + 1) hf'
    obtain ⟨tg, _, mg⟩ := magFrom_odd g n (j + 1) hg'
    have ctf : (0 : ℚ) ≤ tf := Nat.cast_nonneg tf
    have ctg : (0 : ℚ) ≤ tg := Nat.cast_nonneg tg
    rw [Finset.sum_eq_sum_Ico_succ_bot (by omega), show j + (n + 1) = j + 1 + n by omega]
    rw [magFrom, magFrom] at e
    have same : f j = g j → |magFrom f n (j + 1) - magFrom g n (j + 1)| = 2 →
        (if f j = g j then 0 else 1) +
          ∑ i in Finset.Ico (j + 1) (j + 1 + n), (if f i = g i then 0 else 1) = 1 := by
      intro hb e'
      rw [if_pos hb, ih (j + 1) hf' hg' e']
    have diff : f j ≠ g j → magFrom f n (j + 1) = magFrom g n (j + 1) →
        (if f j = g j then 0 else 1) +
          ∑ i in Finset.Ico (j + 1) (j + 1 + n), (if f i = g i then 0 else 1) = 1 := by
      intro hb e'
      have hz : ∑ i in Finset.Ico (j + 1) (j + 1 + n), (if f i = g i then 0 else 1) = 0 := by
        apply Finset.sum_eq_zero
        intro i hi
        rw [Finset.mem_Ico] at hi
        rw [if_pos (magFrom_inj f g n (j + 1) hf' hg' e' i hi.1 hi.2)]
      rw [if_neg hb, hz]
    rcases hf j le_rfl (by omega) with a | a <;> rcases hg j le_rfl (by omega) with b | b <;>
      rw [a, b] at e
    · apply same (by rw [a, b])
      rw [← e, ← abs_neg]
      congr 1
      ring
    · apply diff (by rw [a, b]; norm_num)
      rw [mf, mg] at e ⊢
      rw [show -1 * (2 * (tf : ℚ) + 1) + 2 ^ (n + 1) - (1 * (2 * (tg : ℚ) + 1) + 2 ^ (n + 1))
        = -(2 * (tf : ℚ) + 2 * tg + 2) by ring, abs_neg, abs_of_nonneg (by linarith)] at e
      have h1 : (tf : ℚ) = 0 := by linarith
      have h2 : (tg : ℚ) = 0 := by linarith
      rw [h1, h2]
    · apply diff (by rw [a, b]; norm_num)
      rw [mf, mg] at e ⊢
      rw [show 1 * (2 * (tf : ℚ) + 1) + 2 ^ (n + 1) - (-1 * (2 * (tg : ℚ) + 1) + 2 ^ (n + 1))
        = 2 * (tf : ℚ) + 2 * tg + 2 by ring, abs_of_nonneg (by linarith)] at e
      have h1 : (tf : ℚ) = 0 := by linarith
      have h2 : (tg : ℚ) = 0 := by linarith
      rw [h1, h2]
    · apply same (by rw [a, b])
      rw [← e]
      congr 1
      ring

/-- Every odd natural number below `2 ^ (n+1)` is the magnitude of some bipolar codes. -/
theorem magFrom_surj : ∀ (n j t : ℕ), 2 * t + 1 < 2 ^ (n + 1) →
    ∃ f : ℕ → ℚ, (∀ i, f i = -1 ∨ f i = 1) ∧ magFrom f n j = 2 * (t : ℚ) + 1 := by
  intro n
  induction n with
  | zero =>
    intro j t ht
    have : t = 0 := by omega
    subst this
    exact ⟨fun _ => 1, fun _ => Or.inr rfl, by simp [magFrom]⟩
  | succ n ih =>
    intro j t ht
    have hp : (2 : ℕ) ^ (n + 1 + 1) = 2 * 2 ^ (n + 1) := by ring
    have he : (2 : ℕ) ^ (n + 1) = 2 * 2 ^ n := by ring
    have hq : ((2 : ℚ) ^ (n + 1)) = 2 * ((2 ^ n : ℕ) : ℚ) := by push_cast; ring
    rcases Nat.lt_or_ge t (2 ^ n) with hlt | hge
    · obtain ⟨f, hf, hm⟩ := ih (j + 1) (2 ^ n - t - 1) (by omega)
      refine ⟨Function.update f j (-1), fun i => ?_, ?_⟩
      · rcases eq_or_ne i j with rfl | hij
        · rw [Function.update_same]; exact Or.inl rfl
        · rw [Function.update_noteq hij]; exact hf i
      · have hc := magFrom_congr (Function.update f j (-1)) f n (j + 1)
          (fun i h1 _ => Function.update_noteq (by omega) _ _)
        have hle : t + 1 ≤ 2 ^ n := by omega
        rw [magFrom, Function.update_same, hc, hm, hq, Nat.sub_sub, Nat.cast_sub hle]
        push_cast
        ring
    · obtain ⟨f, hf, hm⟩ := ih (j + 1) (t - 2 ^ n) (by omega)
      refine ⟨Function.update f j 1, fun i => ?_, ?_⟩
      · rcases eq_or_ne i j with rfl | hij
        · rw [Function.update_same]; exact Or.inr rfl
        · rw [Function.update_noteq hij]; exact hf i
      · have hc := magFrom_congr (Function.update f j 1) f n (j + 1)
          (fun i h1 _ => Function.update_noteq (by omega) _ _)
        rw [magFrom, Function.update_same, hc, hm, hq, Nat.cast_sub hge]
        push_cast
        ring

/-- The level selected by bipolar codes is the sign code times an odd natural number
below `2 ^ k`. -/
theorem axisLevel_odd (f : ℕ → ℚ) (k : ℕ) (hk : 1 ≤ k)
    (h : ∀ i, i < k → (f i = -1 ∨ f i = 1)) :
    ∃ t : ℕ, 2 * t + 1 < 2 ^ k ∧ axisLevel f k = f 0 * (2 * (t : ℚ) + 1) := by
  obtain ⟨t, ht, hm⟩ := magFrom_odd f (k - 1) 1 (fun i _ h2 => h i (by omega))
  rw [Nat.sub_add_cancel hk] at ht
  exact ⟨t, ht, by rw [axisLevel, hm]⟩

/-- Bipolar codes that select the same level are the same codes. -/
theorem axisLevel_inj (f g : ℕ → ℚ) (k : ℕ) (hk : 1 ≤ k)
    (hf : ∀ i, i < k → (f i = -1 ∨ f i = 1)) (hg : ∀ i, i < k → (g i = -1 ∨ g i = 1))
    (e : axisLevel f k = axisLevel g k) : ∀ i, i < k → f i = g i := by
  have hf' : ∀ i, 1 ≤ i → i < 1 + (k - 1) → (f i = -1 ∨ f i = 1) :=
    fun i _ h2 => hf i (by omega)
  have hg' : ∀ i, 1 ≤ i → i < 1 + (k - 1) → (g i = -1 ∨ g i = 1) :=
    fun i _ h2 => hg i (by omega)
  have pf := magFrom_pos f (k - 1) 1 hf'
  have pg := magFrom_pos g (k - 1) 1 hg'
  rw [axisLevel, axisLevel] at e
  have key : f 0 = g 0 ∧ magFrom f (k - 1) 1 = magFrom g (k - 1) 1 := by
    rcases hf 0 (by omega) with a | a <;> rcases hg 0 (by omega) with b | b <;>
      rw [a, b] at e
    · exact ⟨by rw [a, b], by linarith⟩
    · exfalso; linarith
    · exfalso; linarith
    · exact ⟨by rw [a, b], by linarith⟩
  intro i hi
  rcases Nat.eq_zero_or_pos i with rfl | h3
  · exact key.1
  · exact magFrom_inj f g (k - 1) 1 hf' hg' key.2 i h3 (by omega)

/-- Bipolar codes whose levels are neighbours differ in exactly one position. -/
theorem axisLevel_gray (f g : ℕ → ℚ) (k : ℕ) (hk : 1 ≤ k)
    (hf : ∀ i, i < k → (f i = -1 ∨ f i = 1)) (hg : ∀ i, i < k → (g i = -1 ∨ g i = 1))
    (e : |axisLevel f k - axisLevel g k| = 2) :
    ∑ i in Finset.range k, (if f i = g i then 0 else 1) = 1 := by
  have hf' : ∀ i, 1 ≤ i → i < 1 + (k - 1) → (f i = -1 ∨ f i = 1) :=
    fun i _ h2 => hf i (by omega)
  have hg' : ∀ i, 1 ≤ i → i < 1 + (k - 1) → (g i = -1 ∨ g i = 1) :=
    fun i _ h2 => hg i (by omega)
  obtain ⟨tf, _, mf⟩ := magFrom_odd f (k - 1) 1 hf'
  obtain ⟨tg, _, mg⟩ := magFrom_odd g (k - 1) 1 hg'
  have ctf : (0 : ℚ) ≤ tf := Nat.cast_nonneg tf
  have ctg : (0 : ℚ) ≤ tg := Nat.cast_nonneg tg
  rw [Finset.range_eq_Ico, Finset.sum_eq_sum_Ico_succ_bot (by omega),
    show k = 0 + 1 + (k - 1) by omega]
  rw [axisLevel, axisLevel] at e
  have same : f 0 = g 0 → |magFrom f (k - 1) 1 - magFrom g (k - 1) 1| = 2 →
      (if f 0 = g 0 then 0 else 1) +
        ∑ i in Finset.Ico (0 + 1) (0 + 1 + (k - 1)), (if f i = g i then 0 else 1) = 1 := by
    intro hb e'
    rw [if_pos hb, magFrom_gray f g (k - 1) (0 + 1) hf' hg' e']
  have diff : f 0 ≠ g 0 → magFrom f (k - 1) 1 = magFrom g (k - 1) 1 →
      (if f 0 = g 0 then 0 else 1) +
        ∑ i in Finset.Ico (0 + 1) (0 + 1 + (k - 1)), (if f i = g i then 0 else 1) = 1 := by
    intro hb e'
    have hz : ∑ i in Finset.Ico (0 + 1) (0 + 1 + (k - 1)),
        (if f i = g i then 0 else 1) = 0 := by
      apply Finset.sum_eq_zero
      intro i hi
      rw [Finset.mem_Ico] at hi
      rw [if_pos (magFrom_inj f g (k - 1) 1 hf' hg' e' i hi.1 (by omega))]
    rw [if_neg hb, hz]
  rcases hf 0 (by omega) with a | a <;> rcases hg 0 (by omega) with b | b <;>
    rw [a, b] at e
  · apply same (by rw [a, b])
    rw [← e, ← abs_neg]
    congr 1
    ring
  · apply diff (by rw [a, b]; norm_num)
    rw [mf, mg] at e ⊢
    rw [show -1 * (2 * (tf : ℚ) + 1) - 1 * (2 * (tg : ℚ) + 1)
      = -(2 * (tf : ℚ) + 2 * tg + 2) by ring, abs_neg, abs_of_nonneg (by linarith)] at e
    have h1 : (tf : ℚ) = 0 := by linarith
    have h2 : (tg : ℚ) = 0 := by linarith
    rw [h1, h2]
  · apply diff (by rw [a, b]; norm_num)
    rw [mf, mg] at e ⊢
    rw [show 1 * (2 * (tf : ℚ) + 1) - -1 * (2 * (tg : ℚ) + 1)
      = 2 * (tf : ℚ) + 2 * tg + 2 by ring, abs_of_nonneg (by linarith)] at e
    have h1 : (tf : ℚ) = 0 := by linarith
    have h2 : (tg : ℚ) = 0 := by linarith
    rw [h1, h2]
  · apply same (by rw [a, b])
    rw [← e]
    congr 1
    ring

/-- Every odd integer of magnitude below `2 ^ k` is the level of some bipolar codes. -/
theorem axisLevel_surj (k : ℕ) (hk : 1 ≤ k) (z : ℤ) (hz : Odd z) (hlt : |z| < 2 ^ k) :
    ∃ f : ℕ → ℚ, (∀ i, f i = -1 ∨ f i = 1) ∧ axisLevel f k = z := by
  obtain ⟨t, ht⟩ : ∃ t : ℕ, z.natAbs = 2 * t + 1 := by
    obtain ⟨t, ht⟩ := (Int.natAbs_odd.mpr hz)
    exact ⟨t, ht⟩
  have hlt' : 2 * t + 1 < 2 ^ (k - 1 + 1) := by
    rw [Nat.sub_add_cancel hk]
    have : ((2 * t + 1 : ℕ) : ℤ) < 2 ^ k := by rw [← ht, Int.natCast_natAbs]; exact hlt
    exact_mod_cast this
  obtain ⟨f, hf, hm⟩ := magFrom_surj (k - 1) 1 t hlt'
  have habs : |z| = 2 * (t : ℤ) + 1 := by rw [← Int.natCast_natAbs, ht]; push_cast; rfl
  rcases le_or_lt 0 z with hz0 | hz0
  · refine ⟨Function.update f 0 1, fun i => ?_, ?_⟩
    · rcases eq_or_ne i 0 with rfl | hi
      · rw [Function.update_same]; exact Or.inr rfl
      · rw [Function.update_noteq hi]; exact hf i
    · have hc := magFrom_congr (Function.update f 0 1) f (k - 1) 1
        (fun i h1 _ => Function.update_noteq (by omega) _ _)
      rw [abs_of_nonneg hz0] at habs
      rw [axisLevel, Function.update_same, hc, hm, habs]
      push_cast
      ring
  · refine ⟨Function.update f 0 (-1), fun i => ?_, ?_⟩
    · rcases eq_or_ne i 0 with rfl | hi
      · rw [Function.update_same]; exact Or.inl rfl
      · rw [Function.update_noteq hi]; exact hf i
    · have hc := magFrom_congr (Function.update f 0 (-1)) f (k - 1) 1
        (fun i h1 _ => Function.update_noteq (by omega) _ _)
      rw [abs_of_neg hz0] at habs
      have hz' : z = -(2 * (t : ℤ) + 1) := by omega
      rw [axisLevel, Function.update_same, hc, hm, hz']
      push_cast
      ring

theorem evenCodes_interleave (f g : ℕ → ℚ) : evenCodes (interleave f g) = f := by
  funext j
  have h1 : (2 * (j : ℤ)) % 2 = 0 := by omega
  have h2 : (2 * (j : ℤ)) / 2 = j := by omega
  simp only [evenCodes, interleave, h1, h2, if_true, Int.toNat_natCast]

theorem oddCodes_interleave (f g : ℕ → ℚ) : oddCodes (interleave f g) = g := by
  funext j
  have h1 : (2 * (j : ℤ) + 1) % 2 ≠ 0 := by omega
  have h2 : (2 * (j : ℤ) + 1) / 2 = j := by omega
  simp only [oddCodes, interleave, if_neg h1, h2, Int.toNat_natCast]

theorem interleave_bipolar (f g : ℕ → ℚ) (hf : ∀ i, f i = -1 ∨ f i = 1)
    (hg : ∀ i, g i = -1 ∨ g i = 1) (i : ℤ) :
    interleave f g i = -1 ∨ interleave f g i = 1 := by
  unfold interleave
  split_ifs
  · exact hf _
  · exact hg _

theorem codes_bipolar (o : Order) (b : Buffer)
    (hb : ∀ i : ℤ, 0 ≤ i → i < o.BITS → (b i = -1 ∨ b i = 1)) :
    (∀ j, j < o.depth → (evenCodes b j = -1 ∨ evenCodes b j = 1)) ∧
      (∀ j, j < o.depth → (oddCodes b j = -1 ∨ oddCodes b j = 1)) := by
  have hd := depth_eq o
  exact ⟨fun j hj => hb _ (by omega) (by omega), fun j hj => hb _ (by omega) (by omega)⟩

theorem sum_range_two_mul (a : ℕ → ℕ) (k : ℕ) :
    ∑ i in Finset.range (2 * k), a i =
      ∑ j in Finset.range k, a (2 * j) + ∑ j in Finset.range k, a (2 * j + 1) := by
  induction k with
  | zero => simp
  | succ k ih =>
    rw [show 2 * (k + 1) = 2 * k + 1 + 1 by ring, Finset.sum_range_succ,
      Finset.sum_range_succ, ih, Finset.sum_range_succ, Finset.sum_range_succ]
    ring

theorem axisLevel_int (f : ℕ → ℚ) (k : ℕ) (hk : 1 ≤ k)
    (h : ∀ i, i < k → (f i = -1 ∨ f i = 1)) :
    ∃ z : ℤ, Odd z ∧ |z| < 2 ^ k ∧ axisLevel f k = z := by
  obtain ⟨t, ht, hl⟩ := axisLevel_odd f k hk h
  have ht' : (2 * (t : ℤ) + 1) < 2 ^ k := by exact_mod_cast ht
  rcases h 0 (by omega) with a | a
  · refine ⟨-(2 * (t : ℤ) + 1), ⟨-t - 1, by ring⟩, ?_, ?_⟩
    · rw [abs_neg, abs_of_nonneg (by omega)]; exact ht'
    · rw [hl, a]; push_cast; ring
  · refine ⟨2 * (t : ℤ) + 1, ⟨t, rfl⟩, ?_, ?_⟩
    · rw [abs_of_nonneg (by omega)]; exact ht'
    · rw [hl, a]; push_cast; ring

theorem sqrt_NUM (o : Order) : Nat.sqrt o.NUM = 2 ^ o.depth := by
  cases o
  · exact Nat.sqrt_eq 4
  · exact Nat.sqrt_eq 8
  · exact Nat.sqrt_eq 16
  · exact Nat.sqrt_eq 32

/-- The levels of a bipolar code word: both parts of `map b` are `AMP` times an odd
integer of magnitude below `2 ^ k`. -/
theorem map_levels (o : Order) (b : Buffer)
    (hb : ∀ i : ℤ, 0 ≤ i → i < o.BITS → (b i = -1 ∨ b i = 1)) :
    ∃ n m : ℤ, (Odd n ∧ |n| < 2 ^ o.depth ∧ (map o b 1).real = o.AMP * n) ∧
      (Odd m ∧ |m| < 2 ^ o.depth ∧ (map o b 1).imag = o.AMP * m) := by
  obtain ⟨he, ho⟩ := codes_bipolar o b hb
  obtain ⟨n, hn1, hn2, hn3⟩ := axisLevel_int (evenCodes b) o.depth (depth_pos o) he
  obtain ⟨m, hm1, hm2, hm3⟩ := axisLevel_int (oddCodes b) o.depth (depth_pos o) ho
  obtain ⟨e1, e2⟩ := map_eq_axisLevel o b
  exact ⟨n, m, ⟨hn1, hn2, by rw [e1, hn3]⟩, ⟨hm1, hm2, by rw [e2, hm3]⟩⟩

theorem odd_int_apart {n m : ℤ} (hn : Odd n) (hm : Odd m) (h : n ≠ m) : 2 ≤ |n - m| := by
  obtain ⟨a, rfl⟩ := hn
  obtain ⟨c, rfl⟩ := hm
  have : a ≠ c := fun e => h (by rw [e])
  rw [show 2 * a + 1 - (2 * c + 1) = 2 * (a - c) by ring, abs_mul]
  have h1 : 1 ≤ |a - c| := Int.one_le_abs (sub_ne_zero.mpr this)
  norm_num
  linarith

/-- C17, amended: in exact arithmetic, the constellation is square with equally spaced
levels.  For each order with `k = BITS/2`: both parts of `map b`, divided by `AMP`, are odd
integers of magnitude at most `2^k - 1` for every bipolar code word `b`; the codes of an
axis are determined by its level; every pair of odd integers of magnitude at most `2^k - 1`
is the pair of levels of a bipolar code word.  Hence `map` is injective on bipolar code
words, two constellation points are at least `DIST` apart on an axis where they differ,
and every axis value has magnitude at most `(√N - 1) * AMP = 1 / FAC`. -/
theorem square_constellation (o : Order) :
    (∀ b : Buffer, (∀ i : ℤ, 0 ≤ i → i < o.BITS → (b i = -1 ∨ b i = 1)) →
        ∃ n m : ℤ, (Odd n ∧ |n| ≤ 2 ^ o.depth - 1 ∧ (map o b 1).real = o.AMP * n) ∧
          (Odd m ∧ |m| ≤ 2 ^ o.depth - 1 ∧ (map o b 1).imag = o.AMP * m)) ∧
      (∀ b b' : Buffer, (∀ i : ℤ, 0 ≤ i → i < o.BITS → (b i = -1 ∨ b i = 1)) →
        (∀ i : ℤ, 0 ≤ i → i < o.BITS → (b' i = -1 ∨ b' i = 1)) →
        ((map o b 1).real = (map o b' 1).real →
            ∀ j : ℕ, j < o.depth → b (2 * (j : ℤ)) = b' (2 * (j : ℤ))) ∧
          ((map o b 1).imag = (map o b' 1).imag →
            ∀ j : ℕ, j < o.depth → b (2 * (j : ℤ) + 1) = b' (2 * (j : ℤ) + 1))) ∧
      (∀ n m : ℤ, Odd n → Odd m → |n| ≤ 2 ^ o.depth - 1 → |m| ≤ 2 ^ o.depth - 1 →
        ∃ b : Buffer, (∀ i : ℤ, 0 ≤ i → i < o.BITS → (b i = -1 ∨ b i = 1)) ∧
          (map o b 1).real = o.AMP * n ∧ (map o b 1).imag = o.AMP * m) ∧
      (∀ b b' : Buffer, (∀ i : ℤ, 0 ≤ i → i < o.BITS → (b i = -1 ∨ b i = 1)) →
        (∀ i : ℤ, 0 ≤ i → i < o.BITS → (b' i = -1 ∨ b' i = 1)) →
        map o b 1 = map o b' 1 → ∀ i : ℤ, 0 ≤ i → i < o.BITS → b i = b' i) ∧
      (∀ b b' : Buffer, (∀ i : ℤ, 0 ≤ i → i < o.BITS → (b i = -1 ∨ b i = 1)) →
        (∀ i : ℤ, 0 ≤ i → i < o.BITS → (b' i = -1 ∨ b' i = 1)) →
        ((map o b 1).real ≠ (map o b' 1).real →
            o.DIST ≤ |(map o b 1).real - (map o b' 1).real|) ∧
          ((map o b 1).imag ≠ (map o b' 1).imag →
            o.DIST ≤ |(map o b 1).imag - (map o b' 1).imag|)) ∧
      (∀ b : Buffer, (∀ i : ℤ, 0 ≤ i → i < o.BITS → (b i = -1 ∨ b i = 1)) →
        |(map o b 1).real| ≤ ((Nat.sqrt o.NUM : ℚ) - 1) * o.AMP ∧
          |(map o b 1).imag| ≤ ((Nat.sqrt o.NUM : ℚ) - 1) * o.AMP) ∧
      ((Nat.sqrt o.NUM : ℚ) - 1) * o.AMP = 1 / o.FAC := by
  have hA := AMP_pos o
  have hk := depth_pos o
  have hd := depth_eq o
  have inj : ∀ b b' : Buffer, (∀ i : ℤ, 0 ≤ i → i < o.BITS → (b i = -1 ∨ b i = 1)) →
      (∀ i : ℤ, 0 ≤ i → i < o.BITS → (b' i = -1 ∨ b' i = 1)) →
      ((map o b 1).real = (map o b' 1).real →
          ∀ j : ℕ, j < o.depth → b (2 * (j : ℤ)) = b' (2 * (j : ℤ))) ∧
        ((map o b 1).imag = (map o b' 1).imag →
          ∀ j : ℕ, j < o.depth → b (2 * (j : ℤ) + 1) = b' (2 * (j : ℤ) + 1)) := by
    intro b b' hb hb'
    obtain ⟨he, ho⟩ := codes_bipolar o b hb
    obtain ⟨he', ho'⟩ := codes_bipolar o b' hb'
    obtain ⟨e1, e2⟩ := map_eq_axisLevel o b
    obtain ⟨e1', e2'⟩ := map_eq_axisLevel o b'
    refine ⟨fun h => ?_, fun h => ?_⟩
    · rw [e1, e1'] at h
      exact axisLevel_inj _ _ o.depth hk he he' (mul_left_cancel₀ hA.ne' h)
    · rw [e2, e2'] at h
      exact axisLevel_inj _ _ o.depth hk ho ho' (mul_left_cancel₀ hA.ne' h)
  refine ⟨fun b hb => ?_, inj, fun n m hn hm hn' hm' => ?_, fun b b' hb hb' e i h0 h1 => ?_,
    fun b b' hb hb' => ?_, fun b hb => ?_, ?_⟩
  · obtain ⟨n, m, ⟨a1, a2, a3⟩, ⟨c1, c2, c3⟩⟩ := map_levels o b hb
    exact ⟨n, m, ⟨a1, by omega, a3⟩, ⟨c1, by omega, c3⟩⟩
  · obtain ⟨f, hf, ef⟩ := axisLevel_surj o.depth hk n hn (by omega)
    obtain ⟨g, hg, eg⟩ := axisLevel_surj o.depth hk m hm (by omega)
    obtain ⟨e1, e2⟩ := map_eq_axisLevel o (interleave f g)
    rw [evenCodes_interleave, ef] at e1
    rw [oddCodes_interleave, eg] at e2
    exact ⟨interleave f g, fun i _ _ => interleave_bipolar f g hf hg i, e1, e2⟩
  · obtain ⟨i1, i2⟩ := inj b b' hb hb'
    have r1 := i1 (congrArg complex_type.real e)
    have r2 := i2 (congrArg complex_type.imag e)
    rcases Int.emod_two_eq_zero_or_one i with hpar | hpar
    · have := r1 (i / 2).toNat (by omega)
      rwa [show 2 * (((i / 2).toNat : ℕ) : ℤ) = i by omega] at this
    · have := r2 (i / 2).toNat (by omega)
      rwa [show 2 * (((i / 2).toNat : ℕ) : ℤ) + 1 = i by omega] at this
  · obtain ⟨n, m, ⟨a1, _, a3⟩, ⟨c1, _, c3⟩⟩ := map_levels o b hb
    obtain ⟨n', m', ⟨a1', _, a3'⟩, ⟨c1', _, c3'⟩⟩ := map_levels o b' hb'
    have hD : o.DIST = 2 * o.AMP := by cases o <;> rfl
    have sep : ∀ u v : ℤ, Odd u → Odd v → o.AMP * (u : ℚ) ≠ o.AMP * v →
        o.DIST ≤ |o.AMP * (u : ℚ) - o.AMP * v| := by
      intro u v hu hv hne
      have huv : u ≠ v := fun e => hne (by rw [e])
      have h2 : (2 : ℚ) ≤ |(u : ℚ) - v| := by
        have := odd_int_apart hu hv huv
        exact_mod_cast this
      rw [← mul_sub, abs_scale hA, hD]
      nlinarith
    refine ⟨fun h => ?_, fun h => ?_⟩
    · rw [a3, a3'] at h ⊢
      exact sep n n' a1 a1' h
    · rw [c3, c3'] at h ⊢
      exact sep m m' c1 c1' h
  · obtain ⟨n, m, ⟨_, a2, a3⟩, ⟨_, c2, c3⟩⟩ := map_levels o b hb
    have hs : ((Nat.sqrt o.NUM : ℕ) : ℚ) = 2 ^ o.depth := by rw [sqrt_NUM]; push_cast; rfl
    have bound : ∀ z : ℤ, |z| < 2 ^ o.depth →
        |o.AMP * (z : ℚ)| ≤ ((Nat.sqrt o.NUM : ℚ) - 1) * o.AMP := by
      intro z hz
      have h1 : |z| ≤ 2 ^ o.depth - 1 := by omega
      have h2 : |(z : ℚ)| ≤ 2 ^ o.depth - 1 := by exact_mod_cast h1
      rw [abs_scale hA, hs]
      nlinarith
    rw [a3, c3]
    exact ⟨bound n a2, bound m c2⟩
  · cases o
    · rw [sqrt_NUM]
      simp only [show Order.n16.depth = 2 from rfl, Order.AMP, Q16.AMP, Q16.RCP, Order.FAC]
      push_cast
      ring
    · rw [sqrt_NUM]
      simp only [show Order.n64.depth = 3 from rfl, Order.AMP, Q64.AMP, Q64.RCP, Order.FAC]
      push_cast
      ring
    · rw [sqrt_NUM]
      simp only [show Order.n256.depth = 4 from rfl, Order.AMP, Q256.AMP, Q256.RCP,
        Order.FAC]
      push_cast
      ring
    · rw [sqrt_NUM]
      simp only [show Order.n1024.depth = 5 from rfl, Order.AMP, Q1024.AMP, Q1024.RCP,
        Order.FAC]
      push_cast
      ring

/-- Witness of the amended C17: order 16 and the code word `[1,-1,-1,1]`: the real part of its symbol
has magnitude at most `(√16 - 1) * AMP`. -/
theorem square_constellation_witness :
    |(map .n16 (ofList [1, -1, -1, 1]) 1).real|
      ≤ ((Nat.sqrt Order.n16.NUM : ℚ) - 1) * Order.n16.AMP :=
  ((square_constellation .n16).2.2.2.2.2.1 (ofList [1, -1, -1, 1])
    (ofList_bipolar _ (by simp) _ rfl)).1

/-! ## Gray coding -/

/-- The number of code positions at which two code words differ, split by axis. -/
theorem differ_count (o : Order) (b b' : Buffer) :
    (Finset.filter (fun i : ℕ => b i ≠ b' i) (Finset.range o.BITS.toNat)).card =
      ∑ j in Finset.range o.depth, (if evenCodes b j = evenCodes b' j then 0 else 1) +
        ∑ j in Finset.range o.depth, (if oddCodes b j = oddCodes b' j then 0 else 1) := by
  have hd : o.BITS.toNat = 2 * o.depth := by
    have := depth_eq o
    omega
  rw [Finset.card_filter, hd, sum_range_two_mul]
  congr 1
  · apply Finset.sum_congr rfl
    intro j _
    simp only [evenCodes, ite_not]
    push_cast
    rfl
  · apply Finset.sum_congr rfl
    intro j _
    simp only [oddCodes, ite_not]
    push_cast
    rfl

theorem axis_neighbours (o : Order) (f g : ℕ → ℚ)
    (hf : ∀ i, i < o.depth → (f i = -1 ∨ f i = 1))
    (hg : ∀ i, i < o.depth → (g i = -1 ∨ g i = 1))
    (h : |o.AMP * axisLevel f o.depth - o.AMP * axisLevel g o.depth| = o.DIST) :
    ∑ i in Finset.range o.depth, (if f i = g i then 0 else 1) = 1 := by
  have hA := AMP_pos o
  have hD : o.DIST = 2 * o.AMP := by cases o <;> rfl
  apply axisLevel_gray f g o.depth (depth_pos o) hf hg
  rw [← mul_sub, abs_scale hA, hD] at h
  have : o.AMP * |axisLevel f o.depth - axisLevel g o.depth| = o.AMP * 2 := by
    rw [h]; ring
  exact mul_left_cancel₀ hA.ne' this

theorem axis_equal (o : Order) (f g : ℕ → ℚ)
    (hf : ∀ i, i < o.depth → (f i = -1 ∨ f i = 1))
    (hg : ∀ i, i < o.depth → (g i = -1 ∨ g i = 1))
    (h : o.AMP * axisLevel f o.depth = o.AMP * axisLevel g o.depth) :
    ∑ i in Finset.range o.depth, (if f i = g i then 0 else 1) = 0 := by
  apply Finset.sum_eq_zero
  intro i hi
  rw [Finset.mem_range] at hi
  rw [if_pos (axisLevel_inj f g o.depth (depth_pos o) hf hg
    (mul_left_cancel₀ (AMP_pos o).ne' h) i hi)]

/-- C13: Gray coding.  For every order and every two bipolar code words `b`, `b'` whose
symbols are neighbours on one axis (`map b` and `map b'` are equal on one axis and differ
by exactly `DIST = 2 * AMP` on the other), `b` and `b'` differ in exactly one code
position: the set of positions `i < BITS` with `b i ≠ b' i` has one element. -/
theorem gray_coding (o : Order) (b b' : Buffer)
    (hb : ∀ i : ℤ, 0 ≤ i → i < o.BITS → (b i = -1 ∨ b i = 1))
    (hb' : ∀ i : ℤ, 0 ≤ i → i < o.BITS → (b' i = -1 ∨ b' i = 1))
    (h : ((map o b 1).imag = (map o b' 1).imag ∧
          |(map o b 1).real - (map o b' 1).real| = o.DIST) ∨
        ((map o b 1).real = (map o b' 1).real ∧
          |(map o b 1).imag - (map o b' 1).imag| = o.DIST)) :
    (Finset.filter (fun i : ℕ => b i ≠ b' i) (Finset.range o.BITS.toNat)).card = 1 ∧
      ∃ i : ℕ, (i : ℤ) < o.BITS ∧ b i ≠ b' i ∧
        ∀ i' : ℕ, (i' : ℤ) < o.BITS → i' ≠ i → b i' = b' i' := by
  obtain ⟨he, ho⟩ := codes_bipolar o b hb
  obtain ⟨he', ho'⟩ := codes_bipolar o b' hb'
  obtain ⟨e1, e2⟩ := map_eq_axisLevel o b
  obtain ⟨e1', e2'⟩ := map_eq_axisLevel o b'
  have hcard : (Finset.filter (fun i : ℕ => b i ≠ b' i)
      (Finset.range o.BITS.toNat)).card = 1 := by
    rw [differ_count]
    rw [e1, e2, e1', e2'] at h
    rcases h with ⟨h1, h2⟩ | ⟨h1, h2⟩
    · rw [axis_neighbours o _ _ he he' h2, axis_equal o _ _ ho ho' h1]
    · rw [axis_equal o _ _ he he' h1, axis_neighbours o _ _ ho ho' h2]
  refine ⟨hcard, ?_⟩
  obtain ⟨i, hi⟩ := Finset.card_eq_one.mp hcard
  have hmem : ∀ x : ℕ, (x < o.BITS.toNat ∧ b x ≠ b' x) ↔ x = i := by
    intro x
    have := Finset.ext_iff.mp hi x
    simpa [Finset.mem_filter] using this
  obtain ⟨hlt, hne⟩ := (hmem i).mpr rfl
  refine ⟨i, by omega, hne, fun i' hi' hii => ?_⟩
  by_contra hcon
  exact hii ((hmem i').mp ⟨by omega, hcon⟩)

/-- Witness of C13: order 16, the code words `[1,1,1,1]` and `[1,1,-1,1]`, whose symbols
`(3*AMP, 3*AMP)` and `(AMP, 3*AMP)` are neighbours on the real axis. -/
theorem gray_coding_witness :
    (Finset.filter (fun i : ℕ => ofList [1, 1, 1, 1] i ≠ ofList [1, 1, -1, 1] i)
      (Finset.range Order.n16.BITS.toNat)).card = 1 :=
  (gray_coding .n16 (ofList [1, 1, 1, 1]) (ofList [1, 1, -1, 1])
    (ofList_bipolar _ (by simp) _ rfl) (ofList_bipolar _ (by simp) _ rfl)
    (Or.inl (by
      have hA := AMP_pos_16
      have t2 : Int.toNat 2 = 2 := rfl
      have t3 : Int.toNat 3 = 3 := rfl
      simp only [map, Q16.map, complex_type.scale, ofList, Order.DIST, Q16.DIST]
      norm_num [t2, t3]
      rw [show Q16.AMP * 3 - Q16.AMP = 2 * Q16.AMP by ring, abs_of_pos (by linarith)]))).1


/-! ## Noiseless soft decoding -/

theorem amp_eq (o : Order) (i : ℤ) : amp o i = o.AMP * i := by
  cases o <;> rfl

theorem stepSize_eq (o : Order) (j : ℕ) (h1 : 1 ≤ j) (hj : j < o.depth) :
    specStepSize o j = 2 ^ (o.depth - j) := by
  cases o
  · have hj : j < 2 := hj
    interval_cases j
    decide
  · have hj : j < 3 := hj
    interval_cases j <;> decide
  · have hj : j < 4 := hj
    interval_cases j <;> decide
  · have hj : j < 5 := hj
    interval_cases j <;> decide

theorem threshold_eq (o : Order) (j : ℕ) (h1 : 1 ≤ j) (hj : j < o.depth) :
    amp o (specStepSize o j) = o.AMP * 2 ^ (o.depth - j) := by
  rw [amp_eq, stepSize_eq o j h1 hj]
  push_cast
  rfl

theorem abs_bipolar_mul {A b m : ℚ} (hA : 0 < A) (hb : b = -1 ∨ b = 1) (hm : 1 ≤ m) :
    |A * (b * m)| = A * m := by
  rcases hb with rfl | rfl
  · rw [show A * (-1 * m) = -(A * m) by ring, abs_neg, abs_of_pos (by nlinarith)]
  · rw [one_mul, abs_of_pos (by nlinarith)]

/-- The folded residual at a constellation point: at level `j` it is `AMP` times the
magnitude selected by the codes from `j` on. -/
theorem residual_at_level (o : Order) (f : ℕ → ℚ)
    (hf : ∀ i, i < o.depth → (f i = -1 ∨ f i = 1)) (j : ℕ) (h1 : 1 ≤ j) :
    j ≤ o.depth →
      specResidual o j (o.AMP * axisLevel f o.depth) = o.AMP * magFrom f (o.depth - j) j := by
  have hA := AMP_pos o
  induction j, h1 using Nat.le_induction with
  | base =>
    intro hk
    have hm := magFrom_pos f (o.depth - 1) 1 (fun i _ h2 => hf i (by omega))
    rw [(slicer_rule o).2.1, axisLevel, abs_bipolar_mul hA (hf 0 (by omega)) hm]
  | succ j h1 ih =>
    intro hk
    have hm := magFrom_pos f (o.depth - (j + 1)) (j + 1) (fun i _ h2 => hf i (by omega))
    rw [((slicer_rule o).2.2.2 j _ h1).1, ih (by omega), threshold_eq o j h1 (by omega),
      show o.depth - j = o.depth - (j + 1) + 1 by omega, magFrom,
      show o.AMP * (f j * magFrom f (o.depth - (j + 1)) (j + 1) + 2 ^ (o.depth - (j + 1) + 1))
        - o.AMP * 2 ^ (o.depth - (j + 1) + 1)
        = o.AMP * (f j * magFrom f (o.depth - (j + 1)) (j + 1)) by ring,
      abs_bipolar_mul hA (hf j (by omega)) hm]

/-- The value that `soft` quantises at level `j` of a constellation point: `AMP` times the
code of that level times the magnitude selected by the codes that follow. -/
theorem distance_at_level (o : Order) (f : ℕ → ℚ)
    (hf : ∀ i, i < o.depth → (f i = -1 ∨ f i = 1)) (j : ℕ) (hj : j < o.depth) :
    (if j = 0 then o.AMP * axisLevel f o.depth
      else specResidual o j (o.AMP * axisLevel f o.depth) - amp o (specStepSize o j))
      = o.AMP * (f j * magFrom f (o.depth - 1 - j) (j + 1)) := by
  rcases Nat.eq_zero_or_pos j with rfl | h1
  · rw [if_pos rfl, axisLevel]
    rfl
  · rw [if_neg (by omega), residual_at_level o f hf j h1 (by omega),
      threshold_eq o j h1 hj, show o.depth - j = o.depth - 1 - j + 1 by omega, magFrom]
    ring

theorem soft_margin_axis (o : Order) (f : ℕ → ℚ)
    (hf : ∀ i, i < o.depth → (f i = -1 ∨ f i = 1)) (p : ℚ) (j : ℕ) (hj : j < o.depth) :
    ∃ m : ℕ, Odd m ∧ (j + 1 = o.depth → m = 1) ∧
      quantize o .floating p
        (if j = 0 then o.AMP * axisLevel f o.depth
          else specResidual o j (o.AMP * axisLevel f o.depth) - amp o (specStepSize o j))
        = f j * (m * (o.DIST * o.AMP * p)) := by
  obtain ⟨t, _, hm⟩ := magFrom_odd f (o.depth - 1 - j) (j + 1)
    (fun i _ h2 => hf i (by omega))
  refine ⟨2 * t + 1, ⟨t, rfl⟩, fun hlast => ?_, ?_⟩
  · have h0 : o.depth - 1 - j = 0 := by omega
    rw [h0, magFrom] at hm
    have : (t : ℚ) = 0 := by linarith
    have : t = 0 := by exact_mod_cast this
    omega
  · rw [distance_at_level o f hf j hj, quantize_eq, quantizeWith_floating, hm]
    push_cast
    ring

/-- C19, amended: in exact arithmetic, noiseless soft decoding has a full decision
margin.  For every order, bipolar code word `b`, precision `p > 0` and the floating-point
(unrounded) code type, each soft code of `soft (map b) p` is `b i` times a positive odd
integer multiple of `DIST * AMP * p`: it has the sign of `b i` and magnitude at least
`DIST * AMP * p`, with equality for the innermost (last) code of each axis, that is in the
slots `BITS - 2` and `BITS - 1`. -/
theorem soft_noiseless_margin (o : Order) (b buf : Buffer)
    (hb : ∀ i : ℤ, 0 ≤ i → i < o.BITS → (b i = -1 ∨ b i = 1)) (p : ℚ) (hp : 0 < p)
    (i : ℤ) (h0 : 0 ≤ i) (h1 : i < o.BITS) :
    (∃ m : ℕ, Odd m ∧ (o.BITS - 2 ≤ i → m = 1) ∧
        soft o .floating buf (map o b 1) p 1 i = b i * (m * (o.DIST * o.AMP * p))) ∧
      (0 < soft o .floating buf (map o b 1) p 1 i ↔ b i = 1) ∧
      (soft o .floating buf (map o b 1) p 1 i < 0 ↔ b i = -1) ∧
      o.DIST * o.AMP * p ≤ |soft o .floating buf (map o b 1) p 1 i| ∧
      (o.BITS - 2 ≤ i → |soft o .floating buf (map o b 1) p 1 i| = o.DIST * o.AMP * p) := by
  have hd := depth_eq o
  have hA := AMP_pos o
  have hD : 0 < o.DIST := by
    have : o.DIST = 2 * o.AMP := by cases o <;> rfl
    rw [this]; linarith
  have hu : 0 < o.DIST * o.AMP * p := mul_pos (mul_pos hD hA) hp
  obtain ⟨he, ho⟩ := codes_bipolar o b hb
  obtain ⟨e1, e2⟩ := map_eq_axisLevel o b
  have key : ∃ m : ℕ, Odd m ∧ (o.BITS - 2 ≤ i → m = 1) ∧
      soft o .floating buf (map o b 1) p 1 i = b i * (m * (o.DIST * o.AMP * p)) := by
    have hj : (i / 2).toNat < o.depth := by omega
    have sl := soft_level o .floating buf (map o b 1) p 1 one_ne_zero (i / 2).toNat hj
    rw [mul_one, mul_one, e1, e2] at sl
    rcases Int.emod_two_eq_zero_or_one i with hpar | hpar
    · obtain ⟨m, hm1, hm2, hm3⟩ := soft_margin_axis o (evenCodes b) he p (i / 2).toNat hj
      have hi : ((2 * (i / 2).toNat : ℕ) : ℤ) = i := by omega
      rw [hi] at sl
      refine ⟨m, hm1, fun h => hm2 (by omega), ?_⟩
      rw [sl.1, hm3, evenCodes, show 2 * (((i / 2).toNat : ℕ) : ℤ) = i by omega]
    · obtain ⟨m, hm1, hm2, hm3⟩ := soft_margin_axis o (oddCodes b) ho p (i / 2).toNat hj
      have hi : ((2 * (i / 2).toNat + 1 : ℕ) : ℤ) = i := by omega
      rw [hi] at sl
      refine ⟨m, hm1, fun h => hm2 (by omega), ?_⟩
      rw [sl.2, hm3, oddCodes, show 2 * (((i / 2).toNat : ℕ) : ℤ) + 1 = i by omega]
  obtain ⟨m, hm1, hm2, hm3⟩ := key
  have hm : (1 : ℚ) ≤ m := by
    have : 1 ≤ m := by
      rcases hm1 with ⟨t, rfl⟩
      omega
    exact_mod_cast this
  have hmu : 0 < (m : ℚ) * (o.DIST * o.AMP * p) := mul_pos (by linarith) hu
  have hge : o.DIST * o.AMP * p ≤ (m : ℚ) * (o.DIST * o.AMP * p) := by nlinarith
  refine ⟨⟨m, hm1, hm2, hm3⟩, ?_, ?_, ?_, fun h => ?_⟩
  · rw [hm3]
    rcases hb i h0 h1 with a | a <;> rw [a]
    · constructor
      · intro h; linarith
      · intro h; norm_num at h
    · constructor
      · intro _; rfl
      · intro _; linarith
  · rw [hm3]
    rcases hb i h0 h1 with a | a <;> rw [a]
    · constructor
      · intro _; rfl
      · intro _; linarith
    · constructor
      · intro h; linarith
      · intro h; norm_num at h
  · rw [hm3]
    rcases hb i h0 h1 with a | a <;> rw [a]
    · rw [show -1 * ((m : ℚ) * (o.DIST * o.AMP * p)) = -((m : ℚ) * (o.DIST * o.AMP * p))
        by ring, abs_neg, abs_of_pos hmu]
      exact hge
    · rw [one_mul, abs_of_pos hmu]
      exact hge
  · rw [hm3, hm2 h]
    rcases hb i h0 h1 with a | a <;> rw [a]
    · rw [show -1 * (((1 : ℕ) : ℚ) * (o.DIST * o.AMP * p)) = -(o.DIST * o.AMP * p)
        by push_cast; ring, abs_neg, abs_of_pos hu]
    · rw [show 1 * (((1 : ℕ) : ℚ) * (o.DIST * o.AMP * p)) = o.DIST * o.AMP * p
        by push_cast; ring, abs_of_pos hu]

/-- Witness of the amended C19: order 64, the code word `[1,-1,-1,1,1,-1]`, precision `3`, slot 5
(the last code of the imaginary axis): the soft code has magnitude `DIST * AMP * 3`. -/
theorem soft_noiseless_margin_witness :
    |soft .n64 .floating (fun _ => 0) (map .n64 (ofList [1, -1, -1, 1, 1, -1]) 1) 3 1 5|
      = Order.n64.DIST * Order.n64.AMP * 3 :=
  (soft_noiseless_margin .n64 (ofList [1, -1, -1, 1, 1, -1]) (fun _ => 0)
    (ofList_bipolar _ (by simp) _ rfl) 3 (by norm_num) 5 (by decide) (by decide)).2.2.2.2
    (by decide)

/-! ## `hard` selects a nearest constellation point -/

/-- The code that the hierarchical slicer produces at any level is bipolar. -/
theorem slicerCode_bipolar (o : Order) (x : ℚ) (j : ℕ) :
    (if specResidual o j x < amp o (specStepSize o j) then (-1 : ℚ) else 1) = -1 ∨
      (if specResidual o j x < amp o (specStepSize o j) then (-1 : ℚ) else 1) = 1 := by
  split_ifs
  · exact Or.inl rfl
  · exact Or.inr rfl

theorem residual_nonneg (o : Order) (x : ℚ) (j : ℕ) (h1 : 1 ≤ j) :
    0 ≤ specResidual o j x := by
  obtain ⟨i, rfl⟩ : ∃ i, j = i + 1 := ⟨j - 1, by omega⟩
  cases i <;> exact abs_nonneg _

theorem near_step {A : ℚ} (hA : 0 < A) (S r M : ℚ) (hr : 0 ≤ r)
    (ih : |(|r - A * S|) - A * M| ≤ A ∨ (A * (S - 1) < |r - A * S| ∧ M = S - 1)) :
    |r - A * ((if r < A * S then (-1 : ℚ) else 1) * M + S)| ≤ A ∨
      (A * (2 * S - 1) < r ∧ (if r < A * S then (-1 : ℚ) else 1) * M + S = 2 * S - 1) := by
  by_cases h : r < A * S
  · rw [if_pos h]
    have e : |r - A * S| = A * S - r := by
      rw [abs_of_neg (by linarith)]; ring
    rw [e] at ih
    left
    rcases ih with ih | ⟨h2, hM⟩
    · rw [show r - A * (-1 * M + S) = -(A * S - r - A * M) by ring, abs_neg]
      exact ih
    · rw [hM, abs_le]
      constructor <;> nlinarith
  · rw [if_neg h]
    have e : |r - A * S| = r - A * S := abs_of_nonneg (by linarith)
    rw [e] at ih
    rcases ih with ih | ⟨h2, hM⟩
    · left
      rw [show r - A * (1 * M + S) = r - A * S - A * M by ring]
      exact ih
    · right
      exact ⟨by nlinarith, by rw [hM]; ring⟩

/-- The magnitude decoded by the slicer from level `j` on is within `AMP` of the folded
residual, unless the residual lies beyond the largest magnitude, which is then decoded. -/
theorem near_mag (o : Order) (x : ℚ) : ∀ (n j : ℕ), 1 ≤ j → j + n = o.depth →
    |specResidual o j x - o.AMP * magFrom
        (fun i => if specResidual o i x < amp o (specStepSize o i) then (-1 : ℚ) else 1) n j|
        ≤ o.AMP ∨
      (o.AMP * (2 ^ (n + 1) - 1) < specResidual o j x ∧
        magFrom (fun i => if specResidual o i x < amp o (specStepSize o i)
          then (-1 : ℚ) else 1) n j = 2 ^ (n + 1) - 1) := by
  have hA := AMP_pos o
  intro n
  induction n with
  | zero =>
    intro j h1 _
    have hr := residual_nonneg o x j h1
    simp only [magFrom]
    by_cases h : specResidual o j x ≤ 2 * o.AMP
    · left
      rw [abs_le]
      constructor <;> linarith
    · right
      exact ⟨by norm_num; linarith, by norm_num⟩
  | succ n ih =>
    intro j h1 hj
    have hr := residual_nonneg o x j h1
    have ih' := ih (j + 1) (by omega) (by omega)
    have ht := threshold_eq o j h1 (by omega)
    rw [show o.depth - j = n + 1 by omega] at ht
    rw [((slicer_rule o).2.2.2 j x h1).1, ht] at ih'
    have hs := near_step hA (2 ^ (n + 1)) (specResidual o j x) _ hr ih'
    rw [magFrom]
    simp only [ht]
    rw [show (2 : ℚ) ^ (n + 1 + 1) = 2 * 2 ^ (n + 1) by ring]
    exact hs

/-- The level decoded by the slicer is within `AMP` of the axis value, unless the axis
value lies beyond the outermost level, which is then decoded. -/
theorem near_axis (o : Order) (x : ℚ) :
    |x - o.AMP * axisLevel
        (fun i => if specResidual o i x < amp o (specStepSize o i) then (-1 : ℚ) else 1)
        o.depth| ≤ o.AMP ∨
      (o.AMP * (2 ^ o.depth - 1) < x ∧
        axisLevel (fun i => if specResidual o i x < amp o (specStepSize o i)
          then (-1 : ℚ) else 1) o.depth = 2 ^ o.depth - 1) ∨
      (x < -(o.AMP * (2 ^ o.depth - 1)) ∧
        axisLevel (fun i => if specResidual o i x < amp o (specStepSize o i)
          then (-1 : ℚ) else 1) o.depth = -(2 ^ o.depth - 1)) := by
  have hA := AMP_pos o
  have hk := depth_pos o
  have hm := near_mag o x (o.depth - 1) 1 le_rfl (by omega)
  rw [Nat.sub_add_cancel hk, (slicer_rule o).2.1] at hm
  have h0 : (if specResidual o 0 x < amp o (specStepSize o 0) then (-1 : ℚ) else 1)
      = if x < 0 then (-1 : ℚ) else 1 := by
    simp only [specResidual, specStepSize, amp_zero]
  rw [axisLevel]
  simp only [h0]
  by_cases hx : x < 0
  · rw [if_pos hx]
    rw [abs_of_neg hx] at hm
    rcases hm with hm | ⟨h1, h2⟩
    · left
      rw [← abs_neg]
      rw [show -(x - o.AMP * (-1 * magFrom _ (o.depth - 1) 1))
        = -x - o.AMP * magFrom
          (fun i => if specResidual o i x < amp o (specStepSize o i) then (-1 : ℚ) else 1)
          (o.depth - 1) 1 by ring]
      exact hm
    · right; right
      exact ⟨by linarith, by rw [h2]; ring⟩
  · rw [if_neg hx]
    rw [abs_of_nonneg (not_lt.mp hx)] at hm
    rcases hm with hm | ⟨h1, h2⟩
    · left
      rw [one_mul]
      exact hm
    · right; left
      exact ⟨h1, by rw [h2]; ring⟩

theorem nearest_of_near {A x K : ℚ} (hA : 0 < A) (zL z : ℤ) (hL : Odd zL) (hz : Odd z)
    (hzK : |(z : ℚ)| ≤ K)
    (h : |x - A * zL| ≤ A ∨ (A * K < x ∧ (zL : ℚ) = K) ∨ (x < -(A * K) ∧ (zL : ℚ) = -K)) :
    |x - A * zL| ≤ |x - A * z| := by
  rcases abs_le.mp hzK with ⟨hz1, hz2⟩
  rcases h with h | ⟨h1, h2⟩ | ⟨h1, h2⟩
  · by_cases e : zL = z
    · rw [e]
    · have h2 : (2 : ℚ) ≤ |(zL : ℚ) - z| := by
        have := odd_int_apart hL hz e
        exact_mod_cast this
      have h3 : |A * (zL : ℚ) - A * z| ≤ |x - A * z| + |x - A * zL| := by
        have := abs_sub_le (A * (zL : ℚ)) x (A * z)
        rw [abs_sub_comm (A * (zL : ℚ)) x] at this
        linarith
      rw [← mul_sub, abs_scale hA] at h3
      nlinarith
  · rw [h2, abs_of_pos (by linarith), abs_of_pos (by nlinarith)]
    nlinarith
  · rw [h2, abs_of_neg (by nlinarith), abs_of_neg (by nlinarith)]
    nlinarith

theorem axisLevel_congr (f g : ℕ → ℚ) (k : ℕ) (hk : 1 ≤ k) (h : ∀ i, i < k → f i = g i) :
    axisLevel f k = axisLevel g k := by
  rw [axisLevel, axisLevel, h 0 (by omega),
    magFrom_congr f g (k - 1) 1 (fun i _ h2 => h i (by omega))]

/-- The symbol of the codes chosen by `hard`, axis by axis, in terms of the slicer. -/
theorem map_hard_eq (o : Order) (buf : Buffer) (c : complex_type) :
    (map o (hard o buf c 1) 1).real = o.AMP * axisLevel
        (fun i => if specResidual o i c.real < amp o (specStepSize o i) then (-1 : ℚ) else 1)
        o.depth ∧
      (map o (hard o buf c 1) 1).imag = o.AMP * axisLevel
        (fun i => if specResidual o i c.imag < amp o (specStepSize o i) then (-1 : ℚ) else 1)
        o.depth := by
  obtain ⟨e1, e2⟩ := map_eq_axisLevel o (hard o buf c 1)
  have hl : ∀ j, j < o.depth →
      evenCodes (hard o buf c 1) j =
          (if specResidual o j c.real < amp o (specStepSize o j) then (-1 : ℚ) else 1) ∧
        oddCodes (hard o buf c 1) j =
          (if specResidual o j c.imag < amp o (specStepSize o j) then (-1 : ℚ) else 1) := by
    intro j hj
    have h := hard_level o buf c 1 one_ne_zero j hj
    rw [mul_one, mul_one] at h
    push_cast at h
    exact h
  rw [e1, e2, axisLevel_congr _ _ o.depth (depth_pos o) (fun i hi => (hl i hi).1),
    axisLevel_congr _ _ o.depth (depth_pos o) (fun i hi => (hl i hi).2)]
  exact ⟨rfl, rfl⟩

/-- On each axis the level chosen by `hard` is at least as close to the axis value as the
level of any bipolar code word. -/
theorem hard_nearest_axis (o : Order) (buf b : Buffer) (c : complex_type)
    (hb : ∀ i : ℤ, 0 ≤ i → i < o.BITS → (b i = -1 ∨ b i = 1)) :
    |c.real - (map o (hard o buf c 1) 1).real| ≤ |c.real - (map o b 1).real| ∧
      |c.imag - (map o (hard o buf c 1) 1).imag| ≤ |c.imag - (map o b 1).imag| := by
  have hA := AMP_pos o
  have hk := depth_pos o
  obtain ⟨n, m, ⟨n1, n2, n3⟩, ⟨m1, m2, m3⟩⟩ := map_levels o b hb
  obtain ⟨e1, e2⟩ := map_hard_eq o buf c
  have hn : |(n : ℚ)| ≤ 2 ^ o.depth - 1 := by
    have : |n| ≤ 2 ^ o.depth - 1 := by omega
    exact_mod_cast this
  have hm : |(m : ℚ)| ≤ 2 ^ o.depth - 1 := by
    have : |m| ≤ 2 ^ o.depth - 1 := by omega
    exact_mod_cast this
  constructor
  · obtain ⟨zL, z1, _, z3⟩ := axisLevel_int _ o.depth hk
      (fun i _ => slicerCode_bipolar o c.real i)
    have hnear := near_axis o c.real
    rw [z3] at hnear
    rw [e1, n3, z3]
    exact nearest_of_near hA zL n z1 n1 hn hnear
  · obtain ⟨zL, z1, _, z3⟩ := axisLevel_int _ o.depth hk
      (fun i _ => slicerCode_bipolar o c.imag i)
    have hnear := near_axis o c.imag
    rw [z3] at hnear
    rw [e2, m3, z3]
    exact nearest_of_near hA zL m z1 m1 hm hnear

/-- C16: `hard` is a minimum-distance decision.  For every order, symbol `c` and bipolar
code word `b`, the constellation point `map (hard c)` is at least as close to `c` as
`map b`: the squared distances satisfy `|c - map (hard c)|² ≤ |c - map b|²`, hence so do
the distances themselves (their square roots); this holds for symbols outside the
bounding square of the constellation as well. -/
theorem hard_nearest (o : Order) (buf b : Buffer) (c : complex_type)
    (hb : ∀ i : ℤ, 0 ≤ i → i < o.BITS → (b i = -1 ∨ b i = 1)) :
    (c.sub (map o (hard o buf c 1) 1)).normSq ≤ (c.sub (map o b 1)).normSq ∧
      Real.sqrt (((c.sub (map o (hard o buf c 1) 1)).normSq : ℚ) : ℝ)
        ≤ Real.sqrt (((c.sub (map o b 1)).normSq : ℚ) : ℝ) := by
  obtain ⟨h1, h2⟩ := hard_nearest_axis o buf b c hb
  have hsq : (c.sub (map o (hard o buf c 1) 1)).normSq ≤ (c.sub (map o b 1)).normSq := by
    simp only [complex_type.sub, complex_type.normSq]
    exact add_le_add (abs_le_iff_mul_self_le.mp h1) (abs_le_iff_mul_self_le.mp h2)
  exact ⟨hsq, Real.sqrt_le_sqrt (by exact_mod_cast hsq)⟩

/-- Witness of C16: order 16, the symbol `(5, -1/10)` outside the bounding square and the
code word `[1,1,-1,1]`. -/
theorem hard_nearest_witness :
    ((⟨5, -1 / 10⟩ : complex_type).sub
        (map .n16 (hard .n16 (fun _ => 0) ⟨5, -1 / 10⟩ 1) 1)).normSq
      ≤ ((⟨5, -1 / 10⟩ : complex_type).sub (map .n16 (ofList [1, 1, -1, 1]) 1)).normSq :=
  (hard_nearest .n16 (fun _ => 0) (ofList [1, 1, -1, 1]) ⟨5, -1 / 10⟩
    (ofList_bipolar _ (by simp) _ rfl)).1


/-! ## The source in rounded arithmetic -/

/-- Without rounding, the constants of the rounded model are the exact ones. -/
theorem rounded_constants_id (o : Order) :
    Rounded.FAC id o = o.FAC ∧ Rounded.AMP id o = o.AMP ∧ Rounded.DIST id o = o.DIST := by
  cases o <;> exact ⟨rfl, rfl, rfl⟩

theorem rounded_amp_id (o : Order) : Rounded.amp id o = amp o := by
  cases o <;> rfl

theorem rounded_quantize_id (o : Order) : Rounded.quantize id o = quantize o := by
  cases o <;> rfl

/-- Without rounding, `hard` of the rounded model is the exact `hard`. -/
theorem rounded_hard_id (o : Order) : Rounded.hard id o = hard o := by
  cases o <;> rfl

/-- Without rounding, `soft` of the rounded model is the exact `soft`. -/
theorem rounded_soft_id (o : Order) : Rounded.soft id o = soft o := by
  cases o <;> rfl

/-- Without rounding, `map` of the rounded model is the exact `map`. -/
theorem rounded_map_id (o : Order) : Rounded.map id o = map o := by
  cases o <;> rfl

/-- Sample values of the rounding to `double`: `1` and the least subnormal are kept,
`0.1` becomes the double nearest to it, `2 ^ 53 + 1` and `2 ^ 53 + 3` are ties that go to
the even significand, half the least subnormal is a tie that goes to zero, and three
halves of it go to twice the least subnormal. -/
theorem roundDouble_samples :
    roundDouble 1 = 1 ∧
      roundDouble (1 / 10) = 3602879701896397 / 36028797018963968 ∧
      roundDouble 9007199254740993 = 9007199254740992 ∧
      roundDouble 9007199254740995 = 9007199254740996 ∧
      roundDouble (pow2 (-1074)) = pow2 (-1074) ∧
      roundDouble (pow2 (-1075)) = 0 ∧
      roundDouble (3 * pow2 (-1075)) = 2 * pow2 (-1074) := by
  decide!

/-- The constants of order 16 in `double`: `FAC`, `RCP`, `AMP = 0.31622776601683794` and
`DIST = 0.6324555320336759`, as the rational numbers these doubles denote. -/
theorem double_constants_16 :
    Rounded.Q16.FAC roundDouble = 4747210830658785 / 4503599627370496 ∧
      Rounded.Q16.RCP roundDouble = 3560408122994089 / 1125899906842624 ∧
      Rounded.Q16.AMP roundDouble = 5696652996790543 / 18014398509481984 ∧
      Rounded.Q16.DIST roundDouble = 5696652996790543 / 9007199254740992 := by
  decide!

/-! ## The sign of a soft code in rounded arithmetic -/

theorem nearbyint_nonneg {x : ℚ} (h : 0 ≤ x) : 0 ≤ nearbyint x := by
  obtain ⟨n, hn, hx⟩ := nearbyint_spec x
  rw [abs_le] at hx
  rw [hn]
  have : (-1 : ℤ) < n := by
    have : ((-1 : ℤ) : ℚ) < n := by push_cast; linarith
    exact_mod_cast this
  have : (0 : ℤ) ≤ n := by omega
  exact_mod_cast this

theorem nearbyint_nonpos {x : ℚ} (h : x ≤ 0) : nearbyint x ≤ 0 := by
  obtain ⟨n, hn, hx⟩ := nearbyint_spec x
  rw [abs_le] at hx
  rw [hn]
  have : n ≤ 0 := int_le_of_lt_add_one (by push_cast; linarith)
  exact_mod_cast this

theorem pow2_pos (e : ℤ) : 0 < pow2 e := by
  unfold pow2
  split_ifs <;> positivity

/-- Rounding does not make a non-negative number negative. -/
theorem roundBinary_nonneg (prec : ℕ) (emin : ℤ) {x : ℚ} (h : 0 ≤ x) :
    0 ≤ roundBinary prec emin x := by
  unfold roundBinary
  split_ifs
  · exact le_refl _
  · exact mul_nonneg (nearbyint_nonneg (div_nonneg h (pow2_pos _).le)) (pow2_pos _).le

/-- Rounding does not make a non-positive number positive. -/
theorem roundBinary_nonpos (prec : ℕ) (emin : ℤ) {x : ℚ} (h : x ≤ 0) :
    roundBinary prec emin x ≤ 0 := by
  unfold roundBinary
  split_ifs
  · exact le_refl _
  · exact mul_nonpos_of_nonpos_of_nonneg
      (nearbyint_nonpos (div_nonpos_of_nonpos_of_nonneg h (pow2_pos _).le)) (pow2_pos _).le

theorem roundDouble_nonneg {x : ℚ} (h : 0 ≤ x) : 0 ≤ roundDouble x :=
  roundBinary_nonneg 53 (-1022) h

theorem roundDouble_nonpos {x : ℚ} (h : x ≤ 0) : roundDouble x ≤ 0 :=
  roundBinary_nonpos 53 (-1022) h

/-- The rounded `quantize` applies the steps after the scaling to the rounded scaled
value. -/
theorem rounded_quantizeWith_eq (fl : ℚ → ℚ) (D : ℚ) (k : CodeKind) (p v : ℚ) :
    Rounded.quantizeWith fl D k p v = quantizeWith 1 k 1 (fl (v * fl (D * p))) := by
  unfold Rounded.quantizeWith quantizeWith
  simp only [mul_one]

theorem rounded_DIST_nonneg (fl : ℚ → ℚ) (hpos : ∀ x, 0 ≤ x → 0 ≤ fl x) (o : Order) :
    0 ≤ Rounded.DIST fl o := by
  have step : ∀ (m lit : ℚ), 0 ≤ m → 0 ≤ lit → 0 ≤ fl (2 * fl (1 / fl (m * fl lit))) :=
    fun m lit hm hl => hpos _ (mul_nonneg (by norm_num)
      (hpos _ (one_div_nonneg.mpr (hpos _ (mul_nonneg hm (hpos _ hl))))))
  cases o
  · exact step 3 _ (by norm_num) (by norm_num)
  · exact step 7 _ (by norm_num) (by norm_num)
  · exact step 15 _ (by norm_num) (by norm_num)
  · exact step 31 _ (by norm_num) (by norm_num)

/-- In an arithmetic whose rounding never turns a result to the opposite sign, a negative
code of the rounded `quantize` comes from a negative value and a positive code from a
positive value, provided that an integral code type other than `int8_t` can represent the
rounded scaled value. -/
theorem rounded_quantize_sign (fl : ℚ → ℚ) (hpos : ∀ x, 0 ≤ x → 0 ≤ fl x)
    (hneg : ∀ x, x ≤ 0 → fl x ≤ 0) (D : ℚ) (hD : 0 ≤ D) (k : CodeKind) (p : ℚ) (hp : 0 < p)
    (v : ℚ)
    (hfit : k.is_int8 = false →
      k.fits (nearbyint (Rounded.quantizeWith fl D .floating p v))) :
    (Rounded.quantizeWith fl D k p v < 0 → v < 0) ∧
      (0 < Rounded.quantizeWith fl D k p v → 0 < v) := by
  have hs : 0 ≤ fl (D * p) := hpos _ (mul_nonneg hD hp.le)
  have e : Rounded.quantizeWith fl D .floating p v = fl (v * fl (D * p)) := rfl
  rw [e] at hfit
  rw [rounded_quantizeWith_eq]
  obtain ⟨h1, h2, -⟩ := quantizeWith_sign 1 one_pos k 1 one_pos (fl (v * fl (D * p)))
    (by rw [mul_one, mul_one]; exact hfit)
  refine ⟨fun h => ?_, fun h => ?_⟩
  · have hw := h1 h
    by_contra hv
    exact absurd (hpos _ (mul_nonneg (not_lt.mp hv) hs)) (not_le.mpr hw)
  · have hw := h2 h
    by_contra hv
    exact absurd (hneg _ (mul_nonpos_of_nonpos_of_nonneg (not_lt.mp hv) hs)) (not_le.mpr hw)


theorem rounded_levels_16 (fl : ℚ → ℚ) (c : complex_type) :
    ∃ ds : List (ℚ × ℚ × ℚ), ds.length = 4 ∧
      (∀ (k : CodeKind) (b : Buffer) (p : ℚ), Rounded.Q16.soft fl k b c p 1 =
        storeFrom b 1 0
          (ds.map (fun x => Rounded.quantizeWith fl (Rounded.Q16.DIST fl) k p x.1))) ∧
      (∀ b : Buffer, Rounded.Q16.hard fl b c 1 =
        storeFrom b 1 0 (ds.map (fun x => if x.2.1 < x.2.2 then (-1 : ℚ) else 1))) ∧
      ∀ x ∈ ds, (x.1 = x.2.1 ∧ x.2.2 = fl 0) ∨ x.1 = fl (x.2.1 - x.2.2) := by
  refine ⟨[(c.real,
        c.real, Rounded.Q16.amp fl 0),
      (c.imag,
        c.imag, Rounded.Q16.amp fl 0),
      (fl (abs c.real - Rounded.Q16.amp fl 2),
        abs c.real, Rounded.Q16.amp fl 2),
      (fl (abs c.imag - Rounded.Q16.amp fl 2),
        abs c.imag, Rounded.Q16.amp fl 2)],
    rfl, fun k b p => rfl, fun b => rfl, ?_⟩
  have z : Rounded.Q16.amp fl 0 = fl 0 := by
    unfold Rounded.Q16.amp
    rw [Int.cast_zero, mul_zero]
  intro x hx
  simp only [List.mem_cons, List.mem_singleton, List.not_mem_nil, or_false] at hx
  rcases hx with rfl | rfl | rfl | rfl
  · exact Or.inl ⟨rfl, z⟩
  · exact Or.inl ⟨rfl, z⟩
  all_goals exact Or.inr rfl


theorem rounded_levels_64 (fl : ℚ → ℚ) (c : complex_type) :
    ∃ ds : List (ℚ × ℚ × ℚ), ds.length = 6 ∧
      (∀ (k : CodeKind) (b : Buffer) (p : ℚ), Rounded.Q64.soft fl k b c p 1 =
        storeFrom b 1 0
          (ds.map (fun x => Rounded.quantizeWith fl (Rounded.Q64.DIST fl) k p x.1))) ∧
      (∀ b : Buffer, Rounded.Q64.hard fl b c 1 =
        storeFrom b 1 0 (ds.map (fun x => if x.2.1 < x.2.2 then (-1 : ℚ) else 1))) ∧
      ∀ x ∈ ds, (x.1 = x.2.1 ∧ x.2.2 = fl 0) ∨ x.1 = fl (x.2.1 - x.2.2) := by
  refine ⟨[(c.real,
        c.real, Rounded.Q64.amp fl 0),
      (c.imag,
        c.imag, Rounded.Q64.amp fl 0),
      (fl (abs c.real - Rounded.Q64.amp fl 4),
        abs c.real, Rounded.Q64.amp fl 4),
      (fl (abs c.imag - Rounded.Q64.amp fl 4),
        abs c.imag, Rounded.Q64.amp fl 4),
      (fl (abs (fl (abs c.real - Rounded.Q64.amp fl 4)) - Rounded.Q64.amp fl 2),
        abs (fl (abs c.real - Rounded.Q64.amp fl 4)), Rounded.Q64.amp fl 2),
      (fl (abs (fl (abs c.imag - Rounded.Q64.amp fl 4)) - Rounded.Q64.amp fl 2),
        abs (fl (abs c.imag - Rounded.Q64.amp fl 4)), Rounded.Q64.amp fl 2)],
    rfl, fun k b p => rfl, fun b => rfl, ?_⟩
  have z : Rounded.Q64.amp fl 0 = fl 0 := by
    unfold Rounded.Q64.amp
    rw [Int.cast_zero, mul_zero]
  intro x hx
  simp only [List.mem_cons, List.mem_singleton, List.not_mem_nil, or_false] at hx
  rcases hx with rfl | rfl | rfl | rfl | rfl | rfl
  · exact Or.inl ⟨rfl, z⟩
  · exact Or.inl ⟨rfl, z⟩
  all_goals exact Or.inr rfl


theorem rounded_levels_256 (fl : ℚ → ℚ) (c : complex_type) :
    ∃ ds : List (ℚ × ℚ × ℚ), ds.length = 8 ∧
      (∀ (k : CodeKind) (b : Buffer) (p : ℚ), Rounded.Q256.soft fl k b c p 1 =
        storeFrom b 1 0
          (ds.map (fun x => Rounded.quantizeWith fl (Rounded.Q256.DIST fl) k p x.1))) ∧
      (∀ b : Buffer, Rounded.Q256.hard fl b c 1 =
        storeFrom b 1 0 (ds.map (fun x => if x.2.1 < x.2.2 then (-1 : ℚ) else 1))) ∧
      ∀ x ∈ ds, (x.1 = x.2.1 ∧ x.2.2 = fl 0) ∨ x.1 = fl (x.2.1 - x.2.2) := by
  refine ⟨[(c.real,
        c.real, Rounded.Q256.amp fl 0),
      (c.imag,
        c.imag, Rounded.Q256.amp fl 0),
      (fl (abs c.real - Rounded.Q256.amp fl 8),
        abs c.real, Rounded.Q256.amp fl 8),
      (fl (abs c.imag - Rounded.Q256.amp fl 8),
        abs c.imag, Rounded.Q256.amp fl 8),
      (fl (abs (fl (abs c.real - Rounded.Q256.amp fl 8)) - Rounded.Q256.amp fl 4),
        abs (fl (abs c.real - Rounded.Q256.amp fl 8)), Rounded.Q256.amp fl 4),
      (fl (abs (fl (abs c.imag - Rounded.Q256.amp fl 8)) - Rounded.Q256.amp fl 4),
        abs (fl (abs c.imag - Rounded.Q256.amp fl 8)), Rounded.Q256.amp fl 4),
      (fl (abs (fl (abs (fl (abs c.real - Rounded.Q256.amp fl 8)) - Rounded.Q256.amp fl 4)) - Rounded.Q256.amp fl 2),
        abs (fl (abs (fl (abs c.real - Rounded.Q256.amp fl 8)) - Rounded.Q256.amp fl 4)), Rounded.Q256.amp fl 2),
      (fl (abs (fl (abs (fl (abs c.imag - Rounded.Q256.amp fl 8)) - Rounded.Q256.amp fl 4)) - Rounded.Q256.amp fl 2),
        abs (fl (abs (fl (abs c.imag - Rounded.Q256.amp fl 8)) - Rounded.Q256.amp fl 4)), Rounded.Q256.amp fl 2)],
    rfl, fun k b p => rfl, fun b => rfl, ?_⟩
  have z : Rounded.Q256.amp fl 0 = fl 0 := by
    unfold Rounded.Q256.amp
    rw [Int.cast_zero, mul_zero]
  intro x hx
  simp only [List.mem_cons, List.mem_singleton, List.not_mem_nil, or_false] at hx
  rcases hx with rfl | rfl | rfl | rfl | rfl | rfl | rfl | rfl
  · exact Or.inl ⟨rfl, z⟩
  · exact Or.inl ⟨rfl, z⟩
  all_goals exact Or.inr rfl


theorem rounded_levels_1024 (fl : ℚ → ℚ) (c : complex_type) :
    ∃ ds : List (ℚ × ℚ × ℚ), ds.length = 10 ∧
      (∀ (k : CodeKind) (b : Buffer) (p : ℚ), Rounded.Q1024.soft fl k b c p 1 =
        storeFrom b 1 0
          (ds.map (fun x => Rounded.quantizeWith fl (Rounded.Q1024.DIST fl) k p x.1))) ∧
      (∀ b : Buffer, Rounded.Q1024.hard fl b c 1 =
        storeFrom b 1 0 (ds.map (fun x => if x.2.1 < x.2.2 then (-1 : ℚ) else 1))) ∧
      ∀ x ∈ ds, (x.1 = x.2.1 ∧ x.2.2 = fl 0) ∨ x.1 = fl (x.2.1 - x.2.2) := by
  refine ⟨[(c.real,
        c.real, Rounded.Q1024.amp fl 0),
      (c.imag,
        c.imag, Rounded.Q1024.amp fl 0),
      (fl (abs c.real - Rounded.Q1024.amp fl 16),
        abs c.real, Rounded.Q1024.amp fl 16),
      (fl (abs c.imag - Rounded.Q1024.amp fl 16),
        abs c.imag, Rounded.Q1024.amp fl 16),
      (fl (abs (fl (abs c.real - Rounded.Q1024.amp fl 16)) - Rounded.Q1024.amp fl 8),
        abs (fl (abs c.real - Rounded.Q1024.amp fl 16)), Rounded.Q1024.amp fl 8),
      (fl (abs (fl (abs c.imag - Rounded.Q1024.amp fl 16)) - Rounded.Q1024.amp fl 8),
        abs (fl (abs c.imag - Rounded.Q1024.amp fl 16)), Rounded.Q1024.amp fl 8),
      (fl (abs (fl (abs (fl (abs c.real - Rounded.Q1024.amp fl 16)) - Rounded.Q1024.amp fl 8)) - Rounded.Q1024.amp fl 4),
        abs (fl (abs (fl (abs c.real - Rounded.Q1024.amp fl 16)) - Rounded.Q1024.amp fl 8)), Rounded.Q1024.amp fl 4),
      (fl (abs (fl (abs (fl (abs c.imag - Rounded.Q1024.amp fl 16)) - Rounded.Q1024.amp fl 8)) - Rounded.Q1024.amp fl 4),
        abs (fl (abs (fl (abs c.imag - Rounded.Q1024.amp fl 16)) - Rounded.Q1024.amp fl 8)), Rounded.Q1024.amp fl 4),
      (fl (abs (fl (abs (fl (abs (fl (abs c.real - Rounded.Q1024.amp fl 16)) - Rounded.Q1024.amp fl 8)) - Rounded.Q1024.amp fl 4)) - Rounded.Q1024.amp fl 2),
        abs (fl (abs (fl (abs (fl (abs c.real - Rounded.Q1024.amp fl 16)) - Rounded.Q1024.amp fl 8)) - Rounded.Q1024.amp fl 4)), Rounded.Q1024.amp fl 2),
      (fl (abs (fl (abs (fl (abs (fl (abs c.imag - Rounded.Q1024.amp fl 16)) - Rounded.Q1024.amp fl 8)) - Rounded.Q1024.amp fl 4)) - Rounded.Q1024.amp fl 2),
        abs (fl (abs (fl (abs (fl (abs c.imag - Rounded.Q1024.amp fl 16)) - Rounded.Q1024.amp fl 8)) - Rounded.Q1024.amp fl 4)), Rounded.Q1024.amp fl 2)],
    rfl, fun k b p => rfl, fun b => rfl, ?_⟩
  have z : Rounded.Q1024.amp fl 0 = fl 0 := by
    unfold Rounded.Q1024.amp
    rw [Int.cast_zero, mul_zero]
  intro x hx
  simp only [List.mem_cons, List.mem_singleton, List.not_mem_nil, or_false] at hx
  rcases hx with rfl | rfl | rfl | rfl | rfl | rfl | rfl | rfl | rfl | rfl
  · exact Or.inl ⟨rfl, z⟩
  · exact Or.inl ⟨rfl, z⟩
  all_goals exact Or.inr rfl


theorem rounded_levels (fl : ℚ → ℚ) (o : Order) (c : complex_type) :
    ∃ ds : List (ℚ × ℚ × ℚ), ds.length = o.BITS.toNat ∧
      (∀ (k : CodeKind) (b : Buffer) (p : ℚ), Rounded.soft fl o k b c p 1 =
        storeFrom b 1 0
          (ds.map (fun x => Rounded.quantizeWith fl (Rounded.DIST fl o) k p x.1))) ∧
      (∀ b : Buffer, Rounded.hard fl o b c 1 =
        storeFrom b 1 0 (ds.map (fun x => if x.2.1 < x.2.2 then (-1 : ℚ) else 1))) ∧
      ∀ x ∈ ds, (x.1 = x.2.1 ∧ x.2.2 = fl 0) ∨ x.1 = fl (x.2.1 - x.2.2) := by
  cases o
  · exact rounded_levels_16 fl c
  · exact rounded_levels_64 fl c
  · exact rounded_levels_256 fl c
  · exact rounded_levels_1024 fl c

/-- In an arithmetic whose rounding never turns a result to the opposite sign, the sign of
a soft code indicates the hard decision. -/
theorem rounded_soft_sign (fl : ℚ → ℚ) (hpos : ∀ x, 0 ≤ x → 0 ≤ fl x)
    (hneg : ∀ x, x ≤ 0 → fl x ≤ 0) (o : Order) (k : CodeKind) (c : complex_type) (p : ℚ)
    (hp : 0 < p) (buf buf' : Buffer) (i : ℤ) (h0 : 0 ≤ i) (h1 : i < o.BITS)
    (hfit : k.is_int8 = false →
      k.fits (nearbyint (Rounded.soft fl o .floating buf c p 1 i))) :
    (Rounded.soft fl o k buf c p 1 i < 0 → Rounded.hard fl o buf' c 1 i = -1) ∧
      (0 < Rounded.soft fl o k buf c p 1 i → Rounded.hard fl o buf' c 1 i = 1) := by
  obtain ⟨ds, hlen, hsoft, hhard, hds⟩ := rounded_levels fl o c
  have hi : i.toNat < ds.length := by rw [hlen]; omega
  have hm : ∀ (g : ℚ × ℚ × ℚ → ℚ) (b : Buffer),
      storeFrom b 1 0 (ds.map g) i = g (ds.get ⟨i.toNat, hi⟩) := by
    intro g b
    have hl : i.toNat < (ds.map g).length := by rw [List.length_map]; exact hi
    have h := storeFrom_at 1 one_ne_zero (ds.map g) b 0 i.toNat hl
    rw [zero_add, mul_one, Int.toNat_of_nonneg h0] at h
    rw [h, List.getD_eq_getElem _ _ hl, List.getElem_map]
    rfl
  have hx := hds _ (List.get_mem ds i.toNat hi)
  have fl0 : fl 0 = 0 := le_antisymm (hneg 0 le_rfl) (hpos 0 le_rfl)
  rw [hsoft, hm] at hfit
  rw [hsoft, hhard, hm, hm]
  obtain ⟨s1, s2⟩ := rounded_quantize_sign fl hpos hneg _ (rounded_DIST_nonneg fl hpos o) k p
    hp _ hfit
  generalize ds.get ⟨i.toNat, hi⟩ = x at hx s1 s2 hfit
  obtain ⟨d, r, t⟩ := x
  simp only at hx s1 s2 ⊢
  rcases hx with ⟨e1, e2⟩ | e
  · subst e1
    rw [e2, fl0]
    exact ⟨fun h => if_pos (s1 h), fun h => if_neg (not_lt.mpr (s2 h).le)⟩
  · subst e
    refine ⟨fun h => if_pos ?_, fun h => if_neg ?_⟩
    · have hd : r - t < 0 := by
        by_contra hc
        exact absurd (hpos _ (not_lt.mp hc)) (not_le.mpr (s1 h))
      linarith
    · have hd : 0 < r - t := by
        by_contra hc
        exact absurd (hneg _ (not_lt.mp hc)) (not_le.mpr (s2 h))
      linarith

/-- C5, amended: the sign of a soft code indicates the hard decision, in exact arithmetic
and in `double` arithmetic, when the code type can hold the rounded code.  For every
order, symbol, precision `> 0` and code position `i < BITS`, and for a code type that is
floating-point, `int8_t`, or a wider signed integral type in which the rounded scaled
distance is representable: a negative soft code means the hard code is `-1` and a positive
soft code means the hard code is `+1`, in exact arithmetic and in `double` arithmetic
alike.  In exact arithmetic and for the floating-point code type, the soft code is negative
exactly when the hard code is `-1`. -/
theorem soft_sign_hard (o : Order) (k : CodeKind) (c : complex_type) (p : ℚ) (hp : 0 < p)
    (buf buf' : Buffer) (i : ℤ) (h0 : 0 ≤ i) (h1 : i < o.BITS) :
    ((k.is_int8 = false → k.fits (nearbyint (soft o .floating buf c p 1 i))) →
        (soft o k buf c p 1 i < 0 → hard o buf' c 1 i = -1) ∧
          (0 < soft o k buf c p 1 i → hard o buf' c 1 i = 1)) ∧
      ((k.is_int8 = false →
          k.fits (nearbyint (Rounded.soft roundDouble o .floating buf c p 1 i))) →
        (Rounded.soft roundDouble o k buf c p 1 i < 0 →
            Rounded.hard roundDouble o buf' c 1 i = -1) ∧
          (0 < Rounded.soft roundDouble o k buf c p 1 i →
            Rounded.hard roundDouble o buf' c 1 i = 1)) ∧
      (soft o .floating buf c p 1 i < 0 ↔ hard o buf' c 1 i = -1) := by
  refine ⟨fun hf => ?_, fun hf => ?_, ?_⟩
  · obtain ⟨a, b, -⟩ := soft_sign_exact o k c p hp buf buf' i h0 h1 hf
    exact ⟨a, b⟩
  · exact rounded_soft_sign roundDouble (fun _ h => roundDouble_nonneg h)
      (fun _ h => roundDouble_nonpos h) o k c p hp buf buf' i h0 h1 hf
  · exact (soft_sign_exact o .floating c p hp buf buf' i h0 h1
      (fun _ h => by cases h)).2.2 rfl

/-- Witness of the amended C5: order 16, `int16_t` codes, the symbol `(1/8, -1/2)`,
precision `40`, position 2, in `double` arithmetic: the rounded scaled distance is `-13`,
which `int16_t` can hold. -/
theorem soft_sign_hard_witness :
    (0 : ℚ) < 40 ∧
      nearbyint (Rounded.soft roundDouble .n16 .floating (fun _ => 0) ⟨1 / 8, -1 / 2⟩ 40 1 2)
        = -13 ∧
      (Rounded.soft roundDouble .n16 .int16 (fun _ => 0) ⟨1 / 8, -1 / 2⟩ 40 1 2 < 0 →
        Rounded.hard roundDouble .n16 (fun _ => 0) ⟨1 / 8, -1 / 2⟩ 1 2 = -1) :=
  ⟨by norm_num, by decide!,
    ((soft_sign_hard .n16 .int16 ⟨1 / 8, -1 / 2⟩ 40 (by norm_num) (fun _ => 0) (fun _ => 0) 2
      (by decide) (by decide)).2.1 (fun _ => by decide!)).1⟩

/-- C5, as stated, fails in two ways.  First, in `double` arithmetic, for order 64, the
floating-point code type, precision `1` and the symbol whose real part is `-2 ^ (-1074)`
(a double: the negative number of least magnitude): `hard` stores `-1` at position 0,
while the scaled value `-2 ^ (-1074) * DIST` rounds to zero, so the soft code at position
0 is not negative.  Second, for order 16, the code type `int16_t`, precision `65000` and
the symbol `(1, 0)`: the scaled value rounds to `41110`, which `int16_t` cannot hold; the
soft code at position 0 is `41110 - 65536 = -24426 < 0`, in exact and in `double`
arithmetic alike, while `hard` stores `+1` there. -/
theorem soft_sign_hard_counterexample :
    (roundDouble (-(pow2 (-1074))) = -(pow2 (-1074)) ∧
        Rounded.hard roundDouble .n64 (fun _ => 0) ⟨-(pow2 (-1074)), 0⟩ 1 0 = -1 ∧
        Rounded.soft roundDouble .n64 .floating (fun _ => 0) ⟨-(pow2 (-1074)), 0⟩ 1 1 0 = 0 ∧
        ¬ (Rounded.soft roundDouble .n64 .floating (fun _ => 0) ⟨-(pow2 (-1074)), 0⟩ 1 1 0 < 0 ↔
          Rounded.hard roundDouble .n64 (fun _ => 0) ⟨-(pow2 (-1074)), 0⟩ 1 0 = -1)) ∧
      (nearbyint (soft .n16 .floating (fun _ => 0) ⟨1, 0⟩ 65000 1 0) = 41110 ∧
        soft .n16 .int16 (fun _ => 0) ⟨1, 0⟩ 65000 1 0 = -24426 ∧
        hard .n16 (fun _ => 0) ⟨1, 0⟩ 1 0 = 1 ∧
        ¬ (soft .n16 .int16 (fun _ => 0) ⟨1, 0⟩ 65000 1 0 < 0 →
          hard .n16 (fun _ => 0) ⟨1, 0⟩ 1 0 = -1)) ∧
      (Rounded.soft roundDouble .n16 .int16 (fun _ => 0) ⟨1, 0⟩ 65000 1 0 = -24426 ∧
        Rounded.hard roundDouble .n16 (fun _ => 0) ⟨1, 0⟩ 1 0 = 1) := by
  decide!

/-! ## Properties of exact arithmetic that fail in `double` arithmetic -/

/-- C17, as stated, fails in `double` arithmetic.  For order 16 the code words
`[1, 1, 1, 1]` and `[1, 1, -1, 1]` are mapped to the real parts `fl (3 * AMP)` and `AMP`,
which differ, and their distance, exact or rounded, is below `DIST`; and the outermost
axis value `fl (3 * AMP) = (√16 - 1) * AMP` is not the double `1 / FAC`. -/
theorem square_constellation_counterexample :
    (Rounded.map roundDouble .n16 (ofList [1, 1, 1, 1]) 1).real
        ≠ (Rounded.map roundDouble .n16 (ofList [1, 1, -1, 1]) 1).real ∧
      |(Rounded.map roundDouble .n16 (ofList [1, 1, 1, 1]) 1).real
          - (Rounded.map roundDouble .n16 (ofList [1, 1, -1, 1]) 1).real|
        < Rounded.DIST roundDouble .n16 ∧
      |roundDouble ((Rounded.map roundDouble .n16 (ofList [1, 1, 1, 1]) 1).real
          - (Rounded.map roundDouble .n16 (ofList [1, 1, -1, 1]) 1).real)|
        < Rounded.DIST roundDouble .n16 ∧
      (Rounded.map roundDouble .n16 (ofList [1, 1, 1, 1]) 1).real
        = roundDouble (3 * Rounded.AMP roundDouble .n16) ∧
      roundDouble (3 * Rounded.AMP roundDouble .n16)
        ≠ roundDouble (1 / Rounded.FAC roundDouble .n16) := by
  decide!

/-- C19, as stated, fails in `double` arithmetic.  For order 16, the code word
`[1, 1, 1, 1]`, precision `1` and the floating-point code type, the soft code of
`soft (map b)` at position 2, the innermost code of the real axis, is
`0.19999999999999998`: it is positive, but below `DIST * AMP * p`, whether that product is
taken exactly or rounded to `double` (`0.2`), so it is neither equal to it nor an odd
multiple of it. -/
theorem soft_noiseless_margin_counterexample :
    Rounded.soft roundDouble .n16 .floating (fun _ => 0)
        (Rounded.map roundDouble .n16 (ofList [1, 1, 1, 1]) 1) 1 1 2
        = 7205759403792793 / 36028797018963968 ∧
      |Rounded.soft roundDouble .n16 .floating (fun _ => 0)
          (Rounded.map roundDouble .n16 (ofList [1, 1, 1, 1]) 1) 1 1 2|
        < Rounded.DIST roundDouble .n16 * Rounded.AMP roundDouble .n16 * 1 ∧
      |Rounded.soft roundDouble .n16 .floating (fun _ => 0)
          (Rounded.map roundDouble .n16 (ofList [1, 1, 1, 1]) 1) 1 1 2|
        < roundDouble (roundDouble (Rounded.DIST roundDouble .n16 * Rounded.AMP roundDouble .n16)
            * 1) := by
  decide!


/-! ## The rounding is to a nearest floating-point number -/

theorem pow2_eq_zpow (e : ℤ) : pow2 e = (2 : ℚ) ^ e := by
  unfold pow2
  split_ifs with h
  · have he : e = (e.toNat : ℤ) := (Int.toNat_of_nonneg h).symm
    conv_rhs => rw [he]
    rw [zpow_natCast]
    push_cast
    rfl
  · have he : e = -((-e).toNat : ℤ) := by
      rw [Int.toNat_of_nonneg (by omega)]
      ring
    conv_rhs => rw [he]
    rw [zpow_neg, zpow_natCast]
    push_cast
    rw [one_div]

theorem log2Aux_spec : ∀ (fuel n : ℕ), 0 < n → n ≤ fuel →
    2 ^ log2Aux fuel n ≤ n ∧ n < 2 ^ (log2Aux fuel n + 1) := by
  intro fuel
  induction fuel with
  | zero => intro n h0 h1; omega
  | succ fuel ih =>
    intro n h0 h1
    rw [log2Aux]
    split_ifs with h
    · have : n = 1 := by omega
      subst this
      norm_num
    · obtain ⟨a, b⟩ := ih (n / 2) (by omega) (by omega)
      rw [pow_succ] at b ⊢
      rw [pow_succ]
      constructor <;> omega

theorem natLog2_spec (n : ℕ) (h : 0 < n) :
    2 ^ natLog2 n ≤ n ∧ n < 2 ^ (natLog2 n + 1) :=
  log2Aux_spec n n h le_rfl

theorem ratio_bounds (N D L1 L2 : ℕ) (hD : 0 < D) (n1 : 2 ^ L1 ≤ N) (n2 : N < 2 ^ (L1 + 1))
    (d1 : 2 ^ L2 ≤ D) (d2 : D < 2 ^ (L2 + 1)) :
    pow2 ((L1 : ℤ) - (L2 : ℤ) - 1) ≤ (N : ℚ) / (D : ℚ) ∧
      (N : ℚ) / (D : ℚ) < pow2 ((L1 : ℤ) - (L2 : ℤ) + 1) := by
  have hd : (0 : ℚ) < D := by exact_mod_cast hD
  have n1q : (2 : ℚ) ^ L1 ≤ (N : ℚ) := by exact_mod_cast n1
  have n2q : (N : ℚ) < (2 : ℚ) ^ (L1 + 1) := by exact_mod_cast n2
  have d1q : (2 : ℚ) ^ L2 ≤ (D : ℚ) := by exact_mod_cast d1
  have d2q : (D : ℚ) < (2 : ℚ) ^ (L2 + 1) := by exact_mod_cast d2
  have two : (0 : ℚ) < 2 := by norm_num
  constructor
  · rw [pow2_eq_zpow, le_div_iff₀ hd]
    have e : (2 : ℚ) ^ ((L1 : ℤ) - (L2 : ℤ) - 1) * (2 : ℚ) ^ (L2 + 1) = (2 : ℚ) ^ L1 := by
      rw [← zpow_natCast (2 : ℚ) (L2 + 1), ← zpow_add₀ two.ne', ← zpow_natCast (2 : ℚ) L1]
      congr 1
      push_cast
      ring
    calc (2 : ℚ) ^ ((L1 : ℤ) - (L2 : ℤ) - 1) * (D : ℚ)
        ≤ (2 : ℚ) ^ ((L1 : ℤ) - (L2 : ℤ) - 1) * (2 : ℚ) ^ (L2 + 1) :=
          mul_le_mul_of_nonneg_left d2q.le (zpow_pos two _).le
      _ = (2 : ℚ) ^ L1 := e
      _ ≤ (N : ℚ) := n1q
  · rw [pow2_eq_zpow, div_lt_iff₀ hd]
    have e : (2 : ℚ) ^ ((L1 : ℤ) - (L2 : ℤ) + 1) * (2 : ℚ) ^ L2 = (2 : ℚ) ^ (L1 + 1) := by
      rw [← zpow_natCast (2 : ℚ) L2, ← zpow_add₀ two.ne', ← zpow_natCast (2 : ℚ) (L1 + 1)]
      congr 1
      push_cast
      ring
    calc (N : ℚ) < (2 : ℚ) ^ (L1 + 1) := n2q
      _ = (2 : ℚ) ^ ((L1 : ℤ) - (L2 : ℤ) + 1) * (2 : ℚ) ^ L2 := e.symm
      _ ≤ (2 : ℚ) ^ ((L1 : ℤ) - (L2 : ℤ) + 1) * (D : ℚ) :=
          mul_le_mul_of_nonneg_left d1q (zpow_pos two _).le

/-- The exponent `ilog2 a` is the integer part of the binary logarithm of `a`. -/
theorem ilog2_spec (a : ℚ) (ha : 0 < a) : pow2 (ilog2 a) ≤ a ∧ a < pow2 (ilog2 a + 1) := by
  have hnum : 0 < a.num := Rat.num_pos.mpr ha
  obtain ⟨n1, n2⟩ := natLog2_spec a.num.natAbs (Int.natAbs_pos.mpr hnum.ne')
  obtain ⟨d1, d2⟩ := natLog2_spec a.den a.den_pos
  have hnat : ((a.num.natAbs : ℕ) : ℚ) = a.num := by
    have h : ((a.num.natAbs : ℕ) : ℤ) = a.num := Int.natAbs_of_nonneg hnum.le
    calc ((a.num.natAbs : ℕ) : ℚ) = (((a.num.natAbs : ℕ) : ℤ) : ℚ) := (Int.cast_natCast _).symm
      _ = a.num := by rw [h]
  have ea : (a.num.natAbs : ℚ) / (a.den : ℚ) = a := by
    rw [hnat]
    exact Rat.num_div_den a
  obtain ⟨lo, hi⟩ := ratio_bounds _ _ _ _ a.den_pos n1 n2 d1 d2
  rw [ea] at lo hi
  unfold ilog2
  simp only
  split_ifs with h
  · exact ⟨h, hi⟩
  · refine ⟨lo, ?_⟩
    rw [sub_add_cancel]
    exact not_le.mp h

/-- The value of `roundBinary` is a nearest number of the format: it is an integer
multiple `n * u` of the unit `u = 2 ^ (e - (prec - 1))` of the binade of `x`, where
`2 ^ e ≤ |x| < 2 ^ (e + 1)` or `e = emin` for a smaller `|x|`; the significand `n` has at
most `prec` bits or is `2 ^ prec`; and the value is within half a unit of `x`.  A tie is
resolved by `nearbyint`, to the even significand. -/
theorem roundBinary_spec (prec : ℕ) (emin : ℤ) (x : ℚ) (hx : x ≠ 0) :
    ∃ (e n : ℤ), (pow2 e ≤ |x| ∨ e = emin) ∧ |x| < pow2 (e + 1) ∧ |n| ≤ 2 ^ prec ∧
      roundBinary prec emin x = n * pow2 (e - ((prec : ℤ) - 1)) ∧
      |roundBinary prec emin x - x| ≤ pow2 (e - ((prec : ℤ) - 1)) / 2 := by
  have hax : 0 < |x| := abs_pos.mpr hx
  obtain ⟨l1, l2⟩ := ilog2_spec |x| hax
  have two : (0 : ℚ) < 2 := by norm_num
  have hu := pow2_pos (max (ilog2 |x|) emin - ((prec : ℤ) - 1))
  obtain ⟨n, hn, hh⟩ := nearbyint_spec (x / pow2 (max (ilog2 |x|) emin - ((prec : ℤ) - 1)))
  have hval : roundBinary prec emin x
      = n * pow2 (max (ilog2 |x|) emin - ((prec : ℤ) - 1)) := by
    unfold roundBinary
    rw [if_neg hx]
    simp only
    rw [hn]
  have hlt : |x| < pow2 (max (ilog2 |x|) emin + 1) := by
    refine lt_of_lt_of_le l2 ?_
    rw [pow2_eq_zpow, pow2_eq_zpow]
    exact zpow_le_zpow_right₀ (by norm_num) (by have := le_max_left (ilog2 |x|) emin; omega)
  have hdist : |(n : ℚ) * pow2 (max (ilog2 |x|) emin - ((prec : ℤ) - 1)) - x|
      ≤ pow2 (max (ilog2 |x|) emin - ((prec : ℤ) - 1)) / 2 := by
    have e : (n : ℚ) * pow2 (max (ilog2 |x|) emin - ((prec : ℤ) - 1)) - x
        = ((n : ℚ) - x / pow2 (max (ilog2 |x|) emin - ((prec : ℤ) - 1)))
          * pow2 (max (ilog2 |x|) emin - ((prec : ℤ) - 1)) := by
      field_simp
    rw [e, abs_mul, abs_of_pos hu]
    calc |(n : ℚ) - x / pow2 (max (ilog2 |x|) emin - ((prec : ℤ) - 1))|
          * pow2 (max (ilog2 |x|) emin - ((prec : ℤ) - 1))
        ≤ 1 / 2 * pow2 (max (ilog2 |x|) emin - ((prec : ℤ) - 1)) :=
          mul_le_mul_of_nonneg_right hh hu.le
      _ = pow2 (max (ilog2 |x|) emin - ((prec : ℤ) - 1)) / 2 := by ring
  have hsig : |n| ≤ 2 ^ prec := by
    have hq : |x / pow2 (max (ilog2 |x|) emin - ((prec : ℤ) - 1))| < (2 : ℚ) ^ prec := by
      rw [abs_div, abs_of_pos hu, div_lt_iff₀ hu]
      refine lt_of_lt_of_eq hlt ?_
      rw [pow2_eq_zpow, pow2_eq_zpow, ← zpow_natCast (2 : ℚ) prec, ← zpow_add₀ two.ne']
      congr 1
      ring
    have hn1 : |(n : ℚ)| < 2 ^ prec + 1 := by
      have t := abs_sub_abs_le_abs_sub (n : ℚ)
        (x / pow2 (max (ilog2 |x|) emin - ((prec : ℤ) - 1)))
      linarith
    have hn2 : |n| < 2 ^ prec + 1 := by exact_mod_cast hn1
    omega
  refine ⟨max (ilog2 |x|) emin, n, ?_, hlt, hsig, hval, ?_⟩
  · rcases le_total emin (ilog2 |x|) with h | h
    · left
      rw [max_eq_left h]
      exact l1
    · right
      exact max_eq_right h
  · rw [hval]
    exact hdist

end QAM
